import Mathlib

/-!
Verification of the gastown SYPHN nudge-delivery core: a shallow embedding of
the byte-level Myers diff engine (`internal/tmux/diff.go`), the hunk grouper,
and the input-extraction pipeline (`nudge.go`), together with proofs of the
specified properties.  Bytes are modelled as `Nat`, Go byte slices and strings
as `List Nat`, and Go `int` values as `Int`.
-/

namespace Gastown

/-- DiffOp represents the type of diff operation (Go `DiffOp`). -/
inductive DiffOp where
  | equal : DiffOp
  | delete : DiffOp
  | insert : DiffOp
deriving DecidableEq, Repr

/-- Diff represents a single diff operation (Go `Diff`). -/
structure Diff where
  op : DiffOp
  data : List Nat
deriving DecidableEq, Repr

/-- Hunk represents a contiguous region of changes (Go `Hunk`). -/
structure Hunk where
  Deleted : List Nat
  Inserted : List Nat
deriving DecidableEq, Repr

/-- Go `commonPrefixLen`: the length of the common prefix of a and b. -/
def commonPrefixLen : List Nat → List Nat → Nat
  | x :: xs, y :: ys => if x = y then commonPrefixLen xs ys + 1 else 0
  | _, _ => 0

/-- Go `commonSuffixLen`: the loop compares `a[n-1-i]` with `b[m-1-i]`,
which is exactly the common prefix length of the reversed lists. -/
def commonSuffixLen (a b : List Nat) : Nat :=
  commonPrefixLen a.reverse b.reverse

/-- Read of the Go `v` array at index `j` (`v[k+max]`); total model of
Go slice indexing at the indices the algorithm actually reads. -/
def vget (v : List Int) (j : Int) : Int :=
  v.getD j.toNat 0

/-- Write to the Go `v` array at index `j`. -/
def vset (v : List Int) (j : Int) (x : Int) : List Int :=
  v.set j.toNat x

/-- The diagonal-following loop of the forward pass
(`for x < n && y < m && a[x] == b[y] { x++; y++ }`), with the loop bound
`a.length` made explicit as structural fuel (the guard `x < n` fails once x
has advanced `a.length` times). -/
def snakeGo (a b : List Nat) : Nat → Int → Int → Int
  | 0, x, _ => x
  | fuel + 1, x, y =>
    if 0 ≤ x ∧ 0 ≤ y ∧ x < (a.length : Int) ∧ y < (b.length : Int) ∧
        a.getD x.toNat 0 = b.getD y.toNat 0 then
      snakeGo a b fuel (x + 1) (y + 1)
    else
      x

/-- The final x of the diagonal-following loop started at (x, y). -/
def snakeEnd (a b : List Nat) (x y : Int) : Int :=
  snakeGo a b a.length x y

/-- The x-coordinate a forward step starts from on diagonal k at step d
(the branch `if k == -d || (k != d && v[k-1+max] < v[k+1+max])`). -/
def fwdStart (v : List Int) (maxD d : Nat) (k : Int) : Int :=
  if k = -(d : Int) ∨ (k ≠ (d : Int) ∧ vget v (k - 1 + maxD) < vget v (k + 1 + maxD)) then
    vget v (k + 1 + maxD)
  else
    vget v (k - 1 + maxD) + 1

/-- The endpoint the forward pass stores for diagonal k at step d:
start point followed by the diagonal snake. -/
def fwdEnd (a b : List Nat) (v : List Int) (maxD d : Nat) (k : Int) : Int :=
  snakeEnd a b (fwdStart v maxD d k) (fwdStart v maxD d k - k)

/-- The inner loop of the forward pass over diagonals `k = -d, -d+2, ..., d`
(`j` is the number of diagonals still to process).  Returns `none` when the
end `x >= n && y >= m` is found (the Go early return), otherwise the updated
`v` array. -/
def innerLoop (a b : List Nat) (maxD d : Nat) : Nat → Int → List Int → Option (List Int)
  | 0, _, v => some v
  | j + 1, k, v =>
    let x := fwdEnd a b v maxD d k
    let v' := vset v (k + maxD) x
    if (a.length : Int) ≤ x ∧ (b.length : Int) ≤ x - k then
      none
    else
      innerLoop a b maxD d j (k + 2) v'

/-- The outer loop of the forward pass (`for d := 0; d <= max; d++`),
recording a copy of `v` in the trace before each step.  Returns the trace and
the step index at which the end was reached, or `none` if the fuel
(`max + 1` steps) is exhausted — the Go "should never reach here" path. -/
def searchLoop (a b : List Nat) (maxD : Nat) :
    Nat → Nat → List Int → List (List Int) → Option (List (List Int) × Nat)
  | 0, _, _, _ => none
  | fuel + 1, d, v, tr =>
    let tr' := tr ++ [v]
    match innerLoop a b maxD d (d + 1) (-(d : Int)) v with
    | none => some (tr', d)
    | some v' => searchLoop a b maxD fuel (d + 1) v' tr'

/-- Go slice expression `l[i : i+1]` for the byte at index i. -/
def slice1 (l : List Nat) (i : Int) : List Nat :=
  (l.drop i.toNat).take 1

/-- The diagonal walk-back in `backtrack`
(`for x > prevX && y > prevY { x--; y--; ops = append(ops, Equal a[x:x+1]) }`),
with the loop bound `x - prevX` made explicit as structural fuel. -/
def backDiagGo (a : List Nat) (prevX prevY : Int) :
    Nat → Int → Int → List Diff → Int × Int × List Diff
  | 0, x, y, ops => (x, y, ops)
  | fuel + 1, x, y, ops =>
    if prevX < x ∧ prevY < y then
      backDiagGo a prevX prevY fuel (x - 1) (y - 1) (ops ++ [⟨.equal, slice1 a (x - 1)⟩])
    else
      (x, y, ops)

/-- The diagonal walk-back started at (x, y). -/
def backDiag (a : List Nat) (prevX prevY x y : Int) (ops : List Diff) :
    Int × Int × List Diff :=
  backDiagGo a prevX prevY (x - prevX).toNat x y ops

/-- The main loop of `backtrack` (`for d > 0`), structurally descending on d. -/
def backMain (tr : List (List Int)) (a b : List Nat) (maxD : Nat) :
    Nat → Int → Int → List Diff → Int × Int × List Diff
  | 0, x, y, ops => (x, y, ops)
  | d + 1, x, y, ops =>
    let v := tr.getD (d + 1) []
    let k := x - y
    let prevK :=
      if k = -((d : Int) + 1) ∨
          (k ≠ ((d : Int) + 1) ∧ vget v (k - 1 + maxD) < vget v (k + 1 + maxD)) then
        k + 1
      else
        k - 1
    let prevX := vget v (prevK + maxD)
    let prevY := prevX - prevK
    match backDiag a prevX prevY x y ops with
    | (x1, y1, ops1) =>
      if k = prevK + 1 then
        backMain tr a b maxD d (x1 - 1) y1 (ops1 ++ [⟨.delete, slice1 a (x1 - 1)⟩])
      else
        backMain tr a b maxD d x1 (y1 - 1) (ops1 ++ [⟨.insert, slice1 b (y1 - 1)⟩])

/-- Remaining matches at the start (`for x > 0 && y > 0`), with the loop
bound x made explicit as structural fuel. -/
def backEqTailGo (a : List Nat) : Nat → Int → Int → List Diff → Int × Int × List Diff
  | 0, x, y, ops => (x, y, ops)
  | fuel + 1, x, y, ops =>
    if 0 < x ∧ 0 < y then
      backEqTailGo a fuel (x - 1) (y - 1) (ops ++ [⟨.equal, slice1 a (x - 1)⟩])
    else
      (x, y, ops)

/-- Remaining matches at the start, started at (x, y). -/
def backEqTail (a : List Nat) (x y : Int) (ops : List Diff) :
    Int × Int × List Diff :=
  backEqTailGo a x.toNat x y ops

/-- Remaining deletes at the start (`for x > 0`), with the loop bound x made
explicit as structural fuel. -/
def backDelTailGo (a : List Nat) : Nat → Int → List Diff → Int × List Diff
  | 0, x, ops => (x, ops)
  | fuel + 1, x, ops =>
    if 0 < x then
      backDelTailGo a fuel (x - 1) (ops ++ [⟨.delete, slice1 a (x - 1)⟩])
    else
      (x, ops)

/-- Remaining deletes at the start, started at x. -/
def backDelTail (a : List Nat) (x : Int) (ops : List Diff) : Int × List Diff :=
  backDelTailGo a x.toNat x ops

/-- Remaining inserts at the start (`for y > 0`), with the loop bound y made
explicit as structural fuel. -/
def backInsTailGo (b : List Nat) : Nat → Int → List Diff → Int × List Diff
  | 0, y, ops => (y, ops)
  | fuel + 1, y, ops =>
    if 0 < y then
      backInsTailGo b fuel (y - 1) (ops ++ [⟨.insert, slice1 b (y - 1)⟩])
    else
      (y, ops)

/-- Remaining inserts at the start, started at y. -/
def backInsTail (b : List Nat) (y : Int) (ops : List Diff) : Int × List Diff :=
  backInsTailGo b y.toNat y ops

/-- Go `mergeOps` inner loop: `current` is the run being accumulated. -/
def mergeRun (cur : Diff) : List Diff → List Diff
  | [] => [cur]
  | o :: rest =>
    if o.op = cur.op then
      mergeRun ⟨cur.op, cur.data ++ o.data⟩ rest
    else
      cur :: mergeRun o rest

/-- Go `mergeOps`: merges consecutive diff operations of the same type. -/
def mergeOps : List Diff → List Diff
  | [] => []
  | o :: rest => mergeRun o rest

/-- Go `backtrack`: reconstructs the diff from the trace. -/
def backtrack (tr : List (List Int)) (a b : List Nat) (d maxD : Nat) : List Diff :=
  match backMain tr a b maxD d a.length b.length [] with
  | (x1, y1, ops1) =>
    match backEqTail a x1 y1 ops1 with
    | (x2, y2, ops2) =>
      match backDelTail a x2 ops2 with
      | (_, ops3) =>
        match backInsTail b y2 ops3 with
        | (_, ops4) => mergeOps ops4.reverse

/-- Go `computeMyersDiff`: the core Myers algorithm on inputs that are
non-empty and share no common prefix/suffix.  Returns `[]` on the
"should never reach here" path. -/
def computeMyersDiff (a b : List Nat) : List Diff :=
  let maxD := a.length + b.length
  let v0 : List Int := List.replicate (2 * maxD + 1) 0
  match searchLoop a b maxD (maxD + 1) 0 v0 [] with
  | some (tr, d) => backtrack tr a b d maxD
  | none => []

/-- Go `MyersDiff`: trivial cases, then common prefix/suffix stripping around
the core algorithm. -/
def MyersDiff (a b : List Nat) : List Diff :=
  if a.length = 0 ∧ b.length = 0 then []
  else if a.length = 0 then [⟨.insert, b⟩]
  else if b.length = 0 then [⟨.delete, a⟩]
  else if a = b then [⟨.equal, a⟩]
  else
    let pl := commonPrefixLen a b
    let pre := a.take pl
    let a1 := a.drop pl
    let b1 := b.drop pl
    let sl := commonSuffixLen a1 b1
    let suf := a1.drop (a1.length - sl)
    let a2 := a1.take (a1.length - sl)
    let b2 := b1.take (b1.length - sl)
    let middle : List Diff :=
      if a2.length = 0 ∧ b2.length = 0 then []
      else if a2.length = 0 then [⟨.insert, b2⟩]
      else if b2.length = 0 then [⟨.delete, a2⟩]
      else computeMyersDiff a2 b2
    (if 0 < pre.length then [Diff.mk .equal pre] else []) ++ middle ++
      (if 0 < suf.length then [Diff.mk .equal suf] else [])

/-- Go `GroupHunks` loop body: `cur` is the hunk under construction and
`inHunk` records whether any Delete/Insert has been seen since the last
Equal. -/
def groupGo : List Diff → Hunk → Bool → List Hunk
  | [], cur, inHunk => if inHunk then [cur] else []
  | d :: rest, cur, inHunk =>
    match d.op with
    | .equal =>
      if inHunk then cur :: groupGo rest ⟨[], []⟩ false
      else groupGo rest cur inHunk
    | .delete => groupGo rest ⟨cur.Deleted ++ d.data, cur.Inserted⟩ true
    | .insert => groupGo rest ⟨cur.Deleted, cur.Inserted ++ d.data⟩ true

/-- Go `GroupHunks`: groups consecutive Delete/Insert operations into Hunks;
Equal operations separate hunks. -/
def GroupHunks (diffs : List Diff) : List Hunk :=
  groupGo diffs ⟨[], []⟩ false

/-! ### The extraction pipeline of nudge.go -/

/-- Go byte value of an ASCII character; used to write concrete captures.
Faithful to Go string bytes for ASCII-only literals. -/
def strBytes (s : String) : List Nat :=
  s.data.map Char.toNat

/-- Go `strings.Split(s, "\n")`: splits at every newline byte, keeping empty
pieces; the empty string yields one empty piece. -/
def splitLines : List Nat → List (List Nat)
  | [] => [[]]
  | c :: rest =>
    if c = 10 then [] :: splitLines rest
    else
      match splitLines rest with
      | l :: ls => (c :: l) :: ls
      | [] => [[c]]

/-- Go `strings.Join(lines, "\n")`. -/
def joinLines (lines : List (List Nat)) : List Nat :=
  List.intercalate [10] lines

/-- Go `strings.TrimRight(s, "\n")`: removes all trailing newline bytes. -/
def trimTrailingNewlines (s : List Nat) : List Nat :=
  (s.reverse.dropWhile (fun c => c = 10)).reverse

/-- Test for a UTF-8 continuation byte (`c&0xC0 == 0x80`). -/
def isContByte (c : Nat) : Bool :=
  c &&& 0xC0 == 0x80

/-- The first walk-back loop of `commonStringPrefix`
(`for end > 0 && end < len(a) && a[end-1]&0xC0 == 0x80 { end-- }`). -/
def backToNonCont (a : List Nat) : Nat → Nat
  | 0 => 0
  | e + 1 =>
    if e + 1 < a.length ∧ isContByte (a.getD e 0) then
      backToNonCont a e
    else
      e + 1

/-- The lead-byte search of `commonStringPrefix`
(`for r > 0 && a[r]&0xC0 == 0x80 { r-- }`). -/
def backToLead (a : List Nat) : Nat → Nat
  | 0 => 0
  | r + 1 =>
    if isContByte (a.getD (r + 1) 0) then
      backToLead a r
    else
      r + 1

/-- The `runeLen` switch on a lead byte in `commonStringPrefix`. -/
def runeLenOf (lead : Nat) : Nat :=
  if lead < 0x80 then 1
  else if lead &&& 0xE0 == 0xC0 then 2
  else if lead &&& 0xF0 == 0xE0 then 3
  else if lead &&& 0xF8 == 0xF0 then 4
  else 1

/-- Go `commonStringPrefix`: the common prefix of two strings, truncated to
the last complete UTF-8 rune boundary.  The initial mismatch scan is the same
loop as `commonPrefixLen`. -/
def commonStringPrefix (a b : List Nat) : List Nat :=
  let e0 := commonPrefixLen a b
  let e1 := backToNonCont a e0
  let e2 :=
    if 0 < e1 ∧ 0x80 ≤ a.getD (e1 - 1) 0 then
      let r := backToLead a (e1 - 1)
      if e1 < r + runeLenOf (a.getD r 0) then r else e1
    else e1
  a.take e2

/-- Go `trimToNonContent`: keeps ASCII whitespace and the TUI punctuation
bytes `.`, `>`, `|`, `:`; cuts at the first byte outside that whitelist. -/
def trimToNonContent : List Nat → List Nat
  | [] => []
  | c :: rest =>
    if c = 32 ∨ c = 9 ∨ c = 46 ∨ c = 62 ∨ c = 124 ∨ c = 58 then
      c :: trimToNonContent rest
    else
      []

/-- Go `detectContinuationPrefix`: extracts the TUI's continuation prefix
from the deleted content of a diff hunk. -/
def detectContinuationPrefix (deleted : List Nat) : List Nat :=
  let lines := splitLines deleted
  if lines.length < 2 then []
  else
    let contLines := lines.tail.filter (fun l => 0 < l.length)
    if 2 ≤ contLines.length then
      trimToNonContent (contLines.tail.foldl commonStringPrefix (contLines.headD []))
    else if contLines.length = 1 then
      let line := contLines.headD []
      let trimmed := line.dropWhile (fun c => c = 32 || c = 9)
      line.take (line.length - trimmed.length)
    else []

/-- The scan of Go `lastNLines` over the reversed string: keep bytes until
the n-th newline from the end (excluded); all of them if there are fewer. -/
def revTakeLines : List Nat → Int → List Nat
  | [], _ => []
  | c :: rest, n =>
    if c = 10 then
      if n = 1 then [] else c :: revTakeLines rest (n - 1)
    else
      c :: revTakeLines rest n

/-- Go `lastNLines`: the last n lines of s; s unchanged if it has fewer
lines or n <= 0. -/
def lastNLines (s : List Nat) (n : Int) : List Nat :=
  if n ≤ 0 then s else (revTakeLines s.reverse n).reverse

/-- Go constant `nudgeDiffMarginLines`. -/
def nudgeDiffMarginLines : Nat := 20

/-- Go constant `nudgePastePlaceholderLines`. -/
def nudgePastePlaceholderLines : Nat := 50

/-- The per-hunk candidate record built inside `extractOriginalInput`. -/
structure Candidate where
  deleted : List Nat
  inserted : List Nat
  contPrefix : List Nat
deriving DecidableEq, Repr

/-- The candidate-collection loop of `extractOriginalInput`: every hunk with
non-empty Deleted, with its detected continuation prefix. -/
def candidatesOf (hunks : List Hunk) : List Candidate :=
  (hunks.filter (fun h => h.Deleted.length ≠ 0)).map
    (fun h => ⟨h.Deleted, h.Inserted, detectContinuationPrefix h.Deleted⟩)

/-- Selection step 1 of `extractOriginalInput`: the backward scan for the
last candidate with a non-empty continuation prefix; the Go zero value if
none is found. -/
def selectByPrefix (cs : List Candidate) : Candidate :=
  match cs.reverse.find? (fun c => c.contPrefix ≠ []) with
  | some c => c
  | none => ⟨[], [], []⟩

/-- Selection step 2 of `extractOriginalInput`: the candidate with the
smallest Inserted content (first wins ties, as in the Go `<` scan). -/
def smallestInserted (cs : List Candidate) : Candidate :=
  cs.tail.foldl
    (fun best c => if c.inserted.length < best.inserted.length then c else best)
    (cs.headD ⟨[], [], []⟩)

/-- The prefix-stripping and joining tail of `extractOriginalInput`:
line 0 untouched, the detected prefix stripped from continuation lines, the
result joined and right-trimmed of newlines. -/
def stripAndJoin (sel : Candidate) : List Nat :=
  let lines := splitLines sel.deleted
  let cleaned := lines.enum.map (fun p =>
    if p.1 = 0 then p.2
    else if sel.contPrefix ≠ [] ∧ sel.contPrefix.isPrefixOf p.2 then
      p.2.drop sel.contPrefix.length
    else p.2)
  trimTrailingNewlines (joinLines cleaned)

/-- Stages 1-3 of `extractOriginalInput`: trim both captures to the last
N + margin lines, diff, group hunks, and collect the candidates. -/
def extractCandidates (originalCapture clearedCapture : List Nat)
    (captureN : Int) : List Candidate :=
  let oc := if 0 < captureN then
      lastNLines originalCapture (captureN + (nudgeDiffMarginLines : Int))
    else originalCapture
  let cc := if 0 < captureN then
      lastNLines clearedCapture (captureN + (nudgeDiffMarginLines : Int))
    else clearedCapture
  candidatesOf (GroupHunks (MyersDiff oc cc))

/-- Go `extractOriginalInput`: trims the captures, diffs them, groups hunks,
selects the input candidate and strips the continuation prefix. -/
def extractOriginalInput (originalCapture clearedCapture : List Nat)
    (captureN : Int) : List Nat :=
  let cands := extractCandidates originalCapture clearedCapture captureN
  if cands.length = 0 then []
  else
    let sel0 := selectByPrefix cands
    if sel0.deleted = [] then
      let sel := smallestInserted cands
      if sel.inserted.length ≥ sel.deleted.length then []
      else stripAndJoin sel
    else stripAndJoin sel0

/-! ### Spec-side vocabulary used in theorem statements -/

/-- Concatenation of the data of all Equal and Delete operations, in order:
what the diff says the source was. -/
def srcCat : List Diff → List Nat
  | [] => []
  | d :: rest =>
    match d.op with
    | .insert => srcCat rest
    | _ => d.data ++ srcCat rest

/-- Concatenation of the data of all Equal and Insert operations, in order:
what the diff says the target is. -/
def tgtCat : List Diff → List Nat
  | [] => []
  | d :: rest =>
    match d.op with
    | .delete => tgtCat rest
    | _ => d.data ++ tgtCat rest

/-- Membership in the trimToNonContent whitelist
`{ ' ', '\t', '.', '>', '|', ':' }`. -/
def whitelistByte (c : Nat) : Prop :=
  c = 32 ∨ c = 9 ∨ c = 46 ∨ c = 62 ∨ c = 124 ∨ c = 58

instance (c : Nat) : Decidable (whitelistByte c) := by
  unfold whitelistByte; infer_instance

/-- ASCII alphanumeric bytes. -/
def isAsciiAlnum (c : Nat) : Prop :=
  (48 ≤ c ∧ c ≤ 57) ∨ (65 ≤ c ∧ c ≤ 90) ∨ (97 ≤ c ∧ c ≤ 122)

/-- Structural UTF-8 validity scanner: `k` is the number of continuation
bytes still owed by the current code point.  At `k = 0` a new code point
starts: 1-byte ASCII, or a 2/3/4-byte lead that owes 1/2/3 continuation
bytes. -/
def validUtf8Go : Nat → List Nat → Bool
  | 0, [] => true
  | 0, c :: l =>
    if c < 0x80 then validUtf8Go 0 l
    else if 0xC0 ≤ c ∧ c < 0xE0 then validUtf8Go 1 l
    else if 0xE0 ≤ c ∧ c < 0xF0 then validUtf8Go 2 l
    else if 0xF0 ≤ c ∧ c < 0xF8 then validUtf8Go 3 l
    else false
  | _ + 1, [] => false
  | k + 1, c :: l => isContByte c && validUtf8Go k l

/-- Structural UTF-8 validity of a byte list: a concatenation of complete
code-point encodings (1-byte ASCII, or a 2/3/4-byte lead followed by the
right number of continuation bytes). -/
def validUtf8 (a : List Nat) : Bool :=
  validUtf8Go 0 a

/-- Position facts about a valid UTF-8 string: every cut before a
non-continuation byte is a unit boundary; the unit starting at a
non-continuation byte has runeLenOf length, stays in bounds, ends at a
boundary, and is followed by the end or another unit start; and every cut
just after an ASCII byte is a unit boundary. -/
def Utf8PosFacts (a : List Nat) : Prop :=
  (∀ k, k < a.length → isContByte (a.getD k 0) = false →
    validUtf8 (a.take k) = true ∧
    k + runeLenOf (a.getD k 0) ≤ a.length ∧
    validUtf8 (a.take (k + runeLenOf (a.getD k 0))) = true ∧
    (k + runeLenOf (a.getD k 0) = a.length ∨
      isContByte (a.getD (k + runeLenOf (a.getD k 0)) 0) = false)) ∧
  (∀ k, 0 < k → k ≤ a.length → a.getD (k - 1) 0 < 0x80 →
    validUtf8 (a.take k) = true)

/-! ### C5: the SYPHN protocol and the paste-placeholder pre-check

Pane content is modelled as byte lists; the three pane primitives, the
blocking-mode query, and the wall-clock-derived sentinel are supplied by an
abstract pane driver over a world type, and every interaction is recorded in
an event trace. -/

/-- Timing constant `nudgeSentinelDelayMs`. -/
def nudgeSentinelDelayMs : Nat := 50

/-- Timing constant `nudgeClearIterDelayMs`. -/
def nudgeClearIterDelayMs : Nat := 50

/-- Timing constant `nudgeInjectDelayMs`. -/
def nudgeInjectDelayMs : Nat := 100

/-- Timing constant `nudgeEnterDelayMs`. -/
def nudgeEnterDelayMs : Nat := 200

/-- Constant `nudgeMaxClearIterations`. -/
def nudgeMaxClearIterations : Nat := 200

/-- Constant `nudgeMinCaptureN`. -/
def nudgeMinCaptureN : Nat := 5

/-- The nudge-delivery error values of nudge.go (`ErrPaneBlocked` etc.),
with constructors for the `fmt.Errorf` wrappers. -/
inductive GoErr where
  | paneBlocked : GoErr
  | pasteDetected : GoErr
  | clearStalled : GoErr
  | nudgeDeliveryFailed : GoErr
  | driver : String → GoErr
  | iterLimit : GoErr
  | sentinelNotFound : GoErr
  | ctx : String → GoErr → GoErr
deriving DecidableEq, Repr

/-- One recorded interaction with the pane. -/
inductive Event where
  | sendRaw : String → String → Event
  | sendLiteral : String → List Nat → Event
  | captureWindow : String → Nat → Event
  | captureAll : String → Nat → Event
  | query : String → Event
  | sleep : Nat → Event
  | wake : String → Event
deriving DecidableEq, Repr

/-- The opaque pane driver: tmux commands as functions of an abstract world
state.  `mkSentinel` models `makeSentinel` (base32 of a sha256 of the
wall-clock nanosecond time) as an oracle, and `tick` models the pane
evolving during a `time.Sleep`. -/
structure PaneDriver (σ : Type) where
  displayPaneInMode : σ → String → Option (List Nat)
  capturePane : σ → String → Nat → Option (List Nat)
  capturePaneAll : σ → String → Nat → Option (List Nat)
  sendKeysRaw : σ → String → String → Option σ
  sendKeysLiteral : σ → String → List Nat → Option σ
  wakePane : σ → String → σ
  mkSentinel : σ → List Nat × σ
  tick : σ → Nat → σ

/-- Literal-byte matcher: consume `pat` from the head of `s`. -/
def matchLit : List Nat → List Nat → Option (List Nat)
  | [], s => some s
  | _ :: _, [] => none
  | c :: cs, d :: ds => if c = d then matchLit cs ds else none

/-- An ASCII digit byte (`\d` of the Go regexp, which is ASCII-only). -/
def isDigitByte (c : Nat) : Bool :=
  48 ≤ c && c ≤ 57

/-- Match `\[Pasted text #\d+ \+\d+ lines\]` anchored at the head of `s`.
Both `\d+` runs are followed by a non-digit literal, so greedy scanning is
exact. -/
def matchPlaceholderAt (s : List Nat) : Bool :=
  match matchLit (strBytes "[Pasted text #") s with
  | none => false
  | some s1 =>
    match s1 with
    | [] => false
    | c :: rest =>
      if isDigitByte c then
        match matchLit (strBytes " +") (rest.dropWhile isDigitByte) with
        | none => false
        | some s3 =>
          match s3 with
          | [] => false
          | d :: rest2 =>
            if isDigitByte d then
              (matchLit (strBytes " lines]") (rest2.dropWhile isDigitByte)).isSome
            else false
      else false

/-- Go `pastedTextPlaceholderRe.MatchString`: unanchored search for the
paste-placeholder pattern. -/
def pasteMatch : List Nat → Bool
  | [] => false
  | c :: rest => matchPlaceholderAt (c :: rest) || pasteMatch rest

/-- Go `IsPaneInCopyMode`: the `#{pane_in_mode}` query is "1" and did not
fail. -/
def IsPaneInCopyMode {σ : Type} (D : PaneDriver σ) (w : σ) (session : String) :
    Bool :=
  match D.displayPaneInMode w session with
  | some s => s = strBytes "1"
  | none => false

/-- Go `detectPastePlaceholder`: scan the last `nudgePastePlaceholderLines`
lines for the placeholder; a capture error reads as "no placeholder". -/
def detectPastePlaceholder {σ : Type} (D : PaneDriver σ) (w : σ)
    (session : String) : Bool :=
  match D.capturePane w session nudgePastePlaceholderLines with
  | none => false
  | some content => pasteMatch content

/-- Byte-list contains (Go `strings.Contains`). -/
def containsBytes (n : List Nat) : List Nat → Bool
  | [] => n.isPrefixOf []
  | c :: t => n.isPrefixOf (c :: t) || containsBytes n t

/-- Go `findSentinelFromEnd` backward scan over the reversed line list;
`dist` is the number of lines already skipped from the bottom. -/
def findSentinelAux (sentinel : List Nat) (total : Nat) :
    List (List Nat) → Nat → Nat × Nat × Bool
  | [], _ => (0, 0, false)
  | l :: rest, dist =>
    if containsBytes sentinel l then (total - 1 - dist, dist, true)
    else findSentinelAux sentinel total rest (dist + 1)

/-- Go `findSentinelFromEnd`: searches backward through lines for the
sentinel, returning the line index, the lines from the bottom, and whether
it was found. -/
def findSentinelFromEnd (lines : List (List Nat)) (sentinel : List Nat) :
    Nat × Nat × Bool :=
  findSentinelAux sentinel lines.length lines.reverse 0

/-- Go `cycleDetector`. -/
structure CycleDetector where
  recent : List (List Nat)
  maxLen : Nat

/-- Go `newCycleDetector`. -/
def newCycleDetector (n : Nat) : CycleDetector :=
  ⟨[], n⟩

/-- Go `cycleDetector.Check`: true if the state was seen before; otherwise
record it, keeping a bounded history. -/
def cycleCheck (d : CycleDetector) (state : List Nat) : Bool × CycleDetector :=
  if d.recent.contains state then (true, d)
  else
    let rec1 := d.recent ++ [state]
    let rec2 := if d.maxLen < rec1.length then rec1.drop 1 else rec1
    (false, ⟨rec2, d.maxLen⟩)

/-- The convergence-clear loop body of Go `convergenceClear`, with the
iteration budget as structural fuel. -/
def convergenceLoop {σ : Type} (D : PaneDriver σ) (session : String)
    (captureN : Nat) :
    Nat → σ → List Event → List Nat → CycleDetector →
      Except GoErr Unit × σ × List Event
  | 0, w, tr, _, _ => (.error .iterLimit, w, tr)
  | fuel + 1, w, tr, prev, det =>
    let tr1 := tr ++ [Event.sendRaw session "C-a"]
    match D.sendKeysRaw w session "C-a" with
    | none => (.error (.ctx "send C-a" (.driver "send-keys")), w, tr1)
    | some w1 =>
      let tr2 := tr1 ++ [Event.sendRaw session "C-k"]
      match D.sendKeysRaw w1 session "C-k" with
      | none => (.error (.ctx "send C-k" (.driver "send-keys")), w1, tr2)
      | some w2 =>
        let w3 := D.tick w2 nudgeClearIterDelayMs
        let tr3 := tr2 ++ [Event.sleep nudgeClearIterDelayMs,
          Event.captureWindow session captureN]
        match D.capturePane w3 session captureN with
        | none => (.error (.ctx "capture iteration" (.driver "capture")), w3, tr3)
        | some cur =>
          if cur = prev then (.ok (), w3, tr3)
          else
            match cycleCheck det cur with
            | (true, _) => (.error .clearStalled, w3, tr3)
            | (false, det') =>
              convergenceLoop D session captureN fuel w3 tr3 cur det'

/-- Go `convergenceClear`: initial capture, then C-a/C-k until the window
stabilizes, with cycle detection. -/
def convergenceClear {σ : Type} (D : PaneDriver σ) (session : String)
    (captureN : Nat) (w : σ) (tr : List Event) :
    Except GoErr Unit × σ × List Event :=
  let tr1 := tr ++ [Event.captureWindow session captureN]
  match D.capturePane w session captureN with
  | none => (.error (.ctx "initial capture" (.driver "capture")), w, tr1)
  | some prev =>
    convergenceLoop D session captureN nudgeMaxClearIterations w tr1 prev
      (newCycleDetector 8)

/-- Steps 5-6 of Go `clearInput` once the sentinel line is known: compute
captureN (clamped below by nudgeMinCaptureN) and convergence-clear. -/
def clearFinish {σ : Type} (D : PaneDriver σ) (session : String)
    (originalCapture : List Nat) (linesFromBottom : Nat) (w : σ)
    (tr : List Event) : Except GoErr (List Nat × Nat) × σ × List Event :=
  let captureN0 := linesFromBottom + 2
  let captureN := if captureN0 < nudgeMinCaptureN then nudgeMinCaptureN else captureN0
  match convergenceClear D session captureN w tr with
  | (.error e, w', tr') => (.error e, w', tr')
  | (.ok _, w', tr') => (.ok (originalCapture, captureN), w', tr')

/-- The modal-editor retry path of Go `clearInput`: Escape, `i`, a fresh
sentinel, then one more sentinel search.  The Escape and `i` send errors are
discarded (`_ =` in the source). -/
def clearVimRetry {σ : Type} (D : PaneDriver σ) (session : String)
    (originalCapture : List Nat) (w : σ) (tr : List Event) :
    Except GoErr (List Nat × Nat) × σ × List Event :=
  let tr1 := tr ++ [Event.sendRaw session "Escape"]
  let wA := match D.sendKeysRaw w session "Escape" with
    | some w' => w'
    | none => w
  let wB := D.tick wA nudgeSentinelDelayMs
  let tr2 := tr1 ++ [Event.sleep nudgeSentinelDelayMs, Event.sendRaw session "i"]
  let wC := match D.sendKeysRaw wB session "i" with
    | some w' => w'
    | none => wB
  let wD := D.tick wC nudgeSentinelDelayMs
  let tr3 := tr2 ++ [Event.sleep nudgeSentinelDelayMs]
  match D.mkSentinel wD with
  | (sentinel2, wE) =>
    let tr4 := tr3 ++ [Event.sendRaw session "C-a"]
    match D.sendKeysRaw wE session "C-a" with
    | none => (.error (.ctx "send C-a (vim retry)" (.driver "send-keys")), wE, tr4)
    | some w1 =>
      let tr5 := tr4 ++ [Event.sendLiteral session sentinel2]
      match D.sendKeysLiteral w1 session sentinel2 with
      | none =>
        (.error (.ctx "send sentinel (vim retry)" (.driver "send-keys")), w1, tr5)
      | some w2 =>
        let w3 := D.tick w2 nudgeSentinelDelayMs
        let tr6 := tr5 ++ [Event.sleep nudgeSentinelDelayMs, Event.captureAll session 0]
        match D.capturePaneAll w3 session 0 with
        | none =>
          (.error (.ctx "capture after sentinel (vim retry)" (.driver "capture")),
            w3, tr6)
        | some cap2 =>
          match findSentinelFromEnd (splitLines cap2) sentinel2 with
          | (_, lfb, found) =>
            if found then clearFinish D session originalCapture lfb w3 tr6
            else (.error .sentinelNotFound, w3, tr6)

/-- Go `clearInput`: capture the untouched pane, locate the input region
with a sentinel (with the modal-editor retry), and convergence-clear it.
Returns the original capture and the window size N. -/
def clearInput {σ : Type} (D : PaneDriver σ) (session : String) (w : σ)
    (tr : List Event) : Except GoErr (List Nat × Nat) × σ × List Event :=
  let tr1 := tr ++ [Event.captureAll session 0]
  match D.capturePaneAll w session 0 with
  | none => (.error (.ctx "capture original" (.driver "capture")), w, tr1)
  | some originalCapture =>
    match D.mkSentinel w with
    | (sentinel, wa) =>
      let tr2 := tr1 ++ [Event.sendRaw session "C-a"]
      match D.sendKeysRaw wa session "C-a" with
      | none => (.error (.ctx "send C-a" (.driver "send-keys")), wa, tr2)
      | some w1 =>
        let tr3 := tr2 ++ [Event.sendLiteral session sentinel]
        match D.sendKeysLiteral w1 session sentinel with
        | none => (.error (.ctx "send sentinel" (.driver "send-keys")), w1, tr3)
        | some w2 =>
          let w3 := D.tick w2 nudgeSentinelDelayMs
          let tr4 := tr3 ++ [Event.sleep nudgeSentinelDelayMs,
            Event.captureAll session 0]
          match D.capturePaneAll w3 session 0 with
          | none =>
            (.error (.ctx "capture after sentinel" (.driver "capture")), w3, tr4)
          | some sentinelCapture =>
            match findSentinelFromEnd (splitLines sentinelCapture) sentinel with
            | (_, linesFromBottom, found) =>
              if found then clearFinish D session originalCapture linesFromBottom w3 tr4
              else clearVimRetry D session originalCapture w3 tr4

/-- Go `nudgeWithProtocol`: the SYPHN protocol — pre-checks, sentinel clear,
capture and diff-extract, inject, Enter, restore, wake. -/
def nudgeWithProtocol {σ : Type} (D : PaneDriver σ) (session : String)
    (message : List Nat) (w : σ) : Except GoErr Unit × σ × List Event :=
  let tr0 : List Event := [Event.query session]
  if IsPaneInCopyMode D w session then (.error .paneBlocked, w, tr0)
  else
    let tr1 := tr0 ++ [Event.captureWindow session nudgePastePlaceholderLines]
    if detectPastePlaceholder D w session then (.error .pasteDetected, w, tr1)
    else
      match clearInput D session w tr1 with
      | (.error e, w', tr') => (.error (.ctx "nudge" e), w', tr')
      | (.ok (originalCapture, captureN), w2, tr2) =>
        let diffLines := captureN + nudgeDiffMarginLines
        let tr3 := tr2 ++ [Event.captureAll session diffLines]
        match D.capturePaneAll w2 session diffLines with
        | none =>
          (.error (.ctx "nudge: capture after clear" (.driver "capture")), w2, tr3)
        | some clearedCapture =>
          let originalInput :=
            extractOriginalInput originalCapture clearedCapture (captureN : Int)
          let tr4 := tr3 ++ [Event.sendLiteral session message]
          match D.sendKeysLiteral w2 session message with
          | none => (.error (.ctx "nudge: inject" (.driver "send-keys")), w2, tr4)
          | some w4 =>
            let w5 := D.tick w4 nudgeInjectDelayMs
            let tr5 := tr4 ++ [Event.sleep nudgeInjectDelayMs,
              Event.sendRaw session "Enter"]
            match D.sendKeysRaw w5 session "Enter" with
            | none => (.error (.ctx "nudge: enter" (.driver "send-keys")), w5, tr5)
            | some w6 =>
              if originalInput ≠ [] then
                let w7 := D.tick w6 nudgeEnterDelayMs
                let tr6 := tr5 ++ [Event.sleep nudgeEnterDelayMs,
                  Event.sendLiteral session originalInput]
                let w8 := match D.sendKeysLiteral w7 session originalInput with
                  | some w' => w'
                  | none => w7
                (.ok (), D.wakePane w8 session, tr6 ++ [Event.wake session])
              else
                (.ok (), D.wakePane w6 session, tr5 ++ [Event.wake session])

/-- A concrete world and driver for the C5 witness: the pane reports it is
not in copy mode, and its 50-line tail shows a paste placeholder. -/
def pasteWorldDriver : PaneDriver Unit where
  displayPaneInMode := fun _ _ => some (strBytes "0")
  capturePane := fun _ _ _ =>
    some (strBytes "some output\n[Pasted text #3 +47 lines]\n> ")
  capturePaneAll := fun _ _ _ => none
  sendKeysRaw := fun w _ _ => some w
  sendKeysLiteral := fun w _ _ => some w
  wakePane := fun w _ => w
  mkSentinel := fun w => (strBytes "SNTL", w)
  tick := fun w _ => w

/-! ### C1 and C8: correctness of the Myers diff engine

The forward pass is characterized by an abstract value function over the
trace, reachability in the edit grid provides the lower bound that forces
the search to stop exactly at (n, m) at the edit distance, and the
backtrack loop is shown to invert the forward steps exactly. -/

/-- The loop guard of the diagonal snake
(`x < n && y < m && a[x] == b[y]`, with the in-bounds side conditions of the
Go indexing). -/
def snakeGuard (a b : List Nat) (x y : Int) : Prop :=
  0 ≤ x ∧ 0 ≤ y ∧ x < (a.length : Int) ∧ y < (b.length : Int) ∧
    a.getD x.toNat 0 = b.getD y.toNat 0

instance (a b : List Nat) (x y : Int) : Decidable (snakeGuard a b x y) := by
  unfold snakeGuard; infer_instance

/-- Reachability in the Myers edit grid: `Reach d x y` holds when (x, y) can
be reached from (0, 0) with exactly d delete/insert steps, diagonal steps
being free and allowed only on matching bytes. -/
inductive Reach (a b : List Nat) : Nat → Nat → Nat → Prop where
  | zero : Reach a b 0 0 0
  | diag {d x y} : Reach a b d x y → x < a.length → y < b.length →
      a.getD x 0 = b.getD y 0 → Reach a b d (x + 1) (y + 1)
  | del {d x y} : Reach a b d x y → x < a.length → Reach a b (d + 1) (x + 1) y
  | ins {d x y} : Reach a b d x y → y < b.length → Reach a b (d + 1) x (y + 1)

/-- The forward start point as a function of an abstract array-value
function V (the branch of the inner loop). -/
def fwdStartF (V : Int → Int) (maxD d : Nat) (k : Int) : Int :=
  if k = -(d : Int) ∨ (k ≠ (d : Int) ∧ V (k - 1 + maxD) < V (k + 1 + maxD)) then
    V (k + 1 + maxD)
  else
    V (k - 1 + maxD) + 1

/-- The forward endpoint as a function of an abstract array-value function. -/
def fwdEndF (a b : List Nat) (V : Int → Int) (maxD d : Nat) (k : Int) : Int :=
  snakeEnd a b (fwdStartF V maxD d k) (fwdStartF V maxD d k - k)

/-- The abstract array-value function after d complete forward steps:
step e updates exactly the diagonals k with |k| <= e and k = e (mod 2). -/
def Vfun (a b : List Nat) (maxD : Nat) : Nat → Int → Int
  | 0, _ => 0
  | d + 1, q =>
    if -(d : Int) ≤ q - maxD ∧ q - maxD ≤ (d : Int) ∧ (q - maxD + d) % 2 = 0 then
      fwdEndF a b (Vfun a b maxD d) maxD d (q - maxD)
    else
      Vfun a b maxD d q

/-- The endpoint computed by forward step d on diagonal k. -/
def EndVal (a b : List Nat) (maxD d : Nat) (k : Int) : Int :=
  fwdEndF a b (Vfun a b maxD d) maxD d k

/-- The success condition of the forward search at step d, diagonal k
(`x >= n && y >= m`). -/
def Succ (a b : List Nat) (maxD d : Nat) (k : Int) : Prop :=
  (a.length : Int) ≤ EndVal a b maxD d k ∧
    (b.length : Int) ≤ EndVal a b maxD d k - k

/-- The success condition of a forward step over an abstract value
function. -/
def SuccOf (a b : List Nat) (U : Int → Int) (maxD d : Nat) (k : Int) : Prop :=
  (a.length : Int) ≤ fwdEndF a b U maxD d k ∧
    (b.length : Int) ≤ fwdEndF a b U maxD d k - k

/-- Genuineness with budget of a forward endpoint: the step-e endpoint on
diagonal k is an in-grid point reachable with e edits, or it overshoots the
right/bottom edge while a grid point on that edge is reachable cheaply enough
that the spent budget still fits in e. -/
def GoodPt (a b : List Nat) (maxD e : Nat) (k : Int) : Prop :=
  (∃ xn yn : Nat, EndVal a b maxD e k = (xn : Int) ∧
      EndVal a b maxD e k - k = (yn : Int) ∧ xn ≤ a.length ∧ yn ≤ b.length ∧
      Reach a b e xn yn) ∨
  ((a.length : Int) < EndVal a b maxD e k ∧
    ∃ e0 yn : Nat, Reach a b e0 a.length yn ∧
      (yn : Int) ≤ EndVal a b maxD e k - k ∧
      (e0 : Int) + (EndVal a b maxD e k - a.length) +
        ((EndVal a b maxD e k - k) - yn) ≤ (e : Int)) ∨
  ((b.length : Int) < EndVal a b maxD e k - k ∧
    ∃ e0 xn : Nat, Reach a b e0 xn b.length ∧
      (xn : Int) ≤ EndVal a b maxD e k ∧
      (e0 : Int) + (EndVal a b maxD e k - xn) +
        ((EndVal a b maxD e k - k) - b.length) ≤ (e : Int))

/-! ### C2: the hunk grouper and the absorption threshold -/

/-- C2 (code evaluation at the failing input): `GroupHunks` ends a hunk at
every Equal operation, whatever its size.  With a 4-byte Equal between two
edits it produces two hunks (as the claim states), but with a 3-byte Equal it
also produces two hunks instead of one hunk with the small Equal absorbed
into both sides: the constant `minEqualToBreakHunk = 4` is never consulted by
`GroupHunks`, contradicting the repository's own
`TestGroupHunks_AbsorbsSmallEquals` and `TestGroupHunks_ExactThreshold`. -/
theorem C2_groupHunks_never_absorbs :
    GroupHunks [⟨.delete, strBytes "a"⟩, ⟨.equal, strBytes "wxyz"⟩, ⟨.delete, strBytes "b"⟩] =
      [⟨strBytes "a", []⟩, ⟨strBytes "b", []⟩] ∧
    GroupHunks [⟨.delete, strBytes "a"⟩, ⟨.equal, strBytes "xyz"⟩, ⟨.delete, strBytes "b"⟩] =
      [⟨strBytes "a", []⟩, ⟨strBytes "b", []⟩] := by
  constructor <;> rfl

/-! ### C9: hunks emitted by GroupHunks are non-empty -/

/-- Helper for C9: every hunk `groupGo` emits is non-empty on some side,
provided every non-Equal operation carries non-empty data and the hunk under
construction is non-empty whenever `inHunk` is set. -/
theorem groupGo_nonempty (ds : List Diff) (cur : Hunk) (inHunk : Bool)
    (hds : ∀ d ∈ ds, d.op ≠ .equal → d.data ≠ [])
    (hcur : inHunk = true → cur.Deleted ≠ [] ∨ cur.Inserted ≠ []) :
    ∀ h ∈ groupGo ds cur inHunk, h.Deleted ≠ [] ∨ h.Inserted ≠ [] := by
  induction ds generalizing cur inHunk with
  | nil =>
    intro h hh
    simp only [groupGo] at hh
    split at hh
    · next hin => simp at hh; subst hh; exact hcur hin
    · simp at hh
  | cons d rest ih =>
    intro h hh
    have hd := hds d (by simp)
    have hrest : ∀ x ∈ rest, x.op ≠ .equal → x.data ≠ [] :=
      fun x hx => hds x (List.mem_cons_of_mem _ hx)
    simp only [groupGo] at hh
    split at hh
    · next hop =>
      split at hh
      · next hin =>
        rcases List.mem_cons.1 hh with h1 | h2
        · subst h1; exact hcur hin
        · exact ih _ _ hrest (by simp) h h2
      · exact ih _ _ hrest hcur h hh
    · next hop =>
      refine ih _ _ hrest ?_ h hh
      intro _
      left
      have : d.data ≠ [] := hd (by simp [hop])
      simp [this]
    · next hop =>
      refine ih _ _ hrest ?_ h hh
      intro _
      right
      have : d.data ≠ [] := hd (by simp [hop])
      simp [this]

/-- Helper for C9: a diff consisting only of Equal operations yields no
hunks. -/
theorem groupGo_all_equal (ds : List Diff) (cur : Hunk)
    (hds : ∀ d ∈ ds, d.op = .equal) :
    groupGo ds cur false = [] := by
  induction ds generalizing cur with
  | nil => simp [groupGo]
  | cons d rest ih =>
    have hd : d.op = .equal := hds d (by simp)
    simp only [groupGo, hd]
    exact ih _ (fun x hx => hds x (List.mem_cons_of_mem _ hx))

/-- C9 counterexample: as literally stated ("for every input diff-operation
list"), the claim is false — a Delete operation with empty data makes
`GroupHunks` emit a hunk that is empty on both sides. -/
theorem C9_counterexample :
    ∃ h ∈ GroupHunks [Diff.mk .delete []], h.Deleted = [] ∧ h.Inserted = [] := by
  refine ⟨⟨[], []⟩, ?_, rfl, rfl⟩
  simp [GroupHunks, groupGo]

/-- C9 (amended): for every diff-operation list whose Delete and Insert
operations all carry non-empty data — as every list produced by `MyersDiff`
does — every hunk emitted by `GroupHunks` has a non-empty Deleted or
Inserted side, and a diff consisting only of Equal operations yields no
hunks. -/
theorem C9_hunks_nonempty (ds : List Diff) :
    ((∀ d ∈ ds, d.op ≠ .equal → d.data ≠ []) →
      ∀ h ∈ GroupHunks ds, h.Deleted ≠ [] ∨ h.Inserted ≠ []) ∧
    ((∀ d ∈ ds, d.op = .equal) → GroupHunks ds = []) := by
  constructor
  · intro hds
    exact groupGo_nonempty ds ⟨[], []⟩ false hds (by simp)
  · intro hds
    exact groupGo_all_equal ds ⟨[], []⟩ hds

/-- C9 witness: the amended statement applied at a concrete diff list. -/
theorem C9_hunks_nonempty_witness :
    ∀ h ∈ GroupHunks [⟨.delete, [97]⟩, ⟨.equal, [10]⟩, ⟨.insert, [98]⟩],
      h.Deleted ≠ [] ∨ h.Inserted ≠ [] :=
  (C9_hunks_nonempty _).1 (by decide)

/-! ### C6: trimToNonContent keeps exactly the whitelist prefix -/

/-- Helper: trimToNonContent returns a prefix of its input. -/
theorem trimToNonContent_prefixOf (p : List Nat) : trimToNonContent p <+: p := by
  induction p with
  | nil => simp [trimToNonContent]
  | cons c rest ih =>
    simp only [trimToNonContent]
    split
    · exact (List.prefix_cons_inj c).2 ih
    · simp

/-- Helper: every byte kept by trimToNonContent is in the whitelist. -/
theorem trimToNonContent_whitelist (p : List Nat) :
    ∀ c ∈ trimToNonContent p, whitelistByte c := by
  induction p with
  | nil => simp [trimToNonContent]
  | cons c rest ih =>
    simp only [trimToNonContent]
    split
    · next hc =>
      intro x hx
      rcases List.mem_cons.1 hx with h1 | h2
      · subst h1; exact hc
      · exact ih x h2
    · simp

/-- Helper: no whitelist-only prefix is longer than the trimToNonContent
result. -/
theorem trimToNonContent_longest (p q : List Nat) (hq : q <+: p)
    (hw : ∀ c ∈ q, whitelistByte c) : q.length ≤ (trimToNonContent p).length := by
  induction p generalizing q with
  | nil =>
    have := List.prefix_nil.1 hq
    subst this
    simp
  | cons c rest ih =>
    cases q with
    | nil => simp
    | cons x q' =>
      have hx : x = c := by
        have := hq.head_eq ?_ <;> simp_all
      subst hx
      have hq' : q' <+: rest := (List.prefix_cons_inj x).1 hq
      have hcw : whitelistByte x := hw x (by simp)
      simp only [trimToNonContent]
      split
      · next =>
        simpa using ih q' hq' (fun y hy => hw y (List.mem_cons_of_mem _ hy))
      · next hc => exact absurd hcw hc

/-- C6: trimToNonContent returns the longest prefix of its input consisting
only of whitelist bytes (space, tab, '.', '>', '|', ':'), and every ASCII
alphanumeric byte and every byte >= 0x80 is outside the whitelist, so the
scan stops there. -/
theorem C6_trimToNonContent_longest_whitelist (p : List Nat) :
    trimToNonContent p <+: p ∧
    (∀ c ∈ trimToNonContent p, whitelistByte c) ∧
    (∀ q, q <+: p → (∀ c ∈ q, whitelistByte c) →
      q.length ≤ (trimToNonContent p).length) ∧
    (∀ c, isAsciiAlnum c ∨ 0x80 ≤ c → ¬ whitelistByte c) := by
  refine ⟨trimToNonContent_prefixOf p, trimToNonContent_whitelist p,
    fun q hq hw => trimToNonContent_longest p q hq hw, ?_⟩
  intro c hc hwc
  rcases hwc with h | h | h | h | h | h <;> subst h <;>
    rcases hc with h | h <;> simp [isAsciiAlnum] at h <;> omega

/-- C6 witness: the theorem applied at the concrete input " -x", using its
maximality clause on the concrete whitelist prefix [32]. -/
theorem C6_trimToNonContent_longest_whitelist_witness :
    trimToNonContent (strBytes " -x") <+: strBytes " -x" ∧
    (strBytes " ").length ≤ (trimToNonContent (strBytes " -x")).length :=
  ⟨(C6_trimToNonContent_longest_whitelist (strBytes " -x")).1,
    (C6_trimToNonContent_longest_whitelist (strBytes " -x")).2.2.1
      (strBytes " ") (by decide) (by decide)⟩

/-! ### C4: the S3 Python REPL scenario -/

/-- C4: extractOriginalInput on the S3 Python REPL captures returns the three
input lines with the dynamically detected continuation prefix "...     "
stripped from continuation lines 1 and 2 and line 0 untouched. -/
theorem C4_python_repl_extraction :
    extractOriginalInput
      (strBytes "Python 3.12.0\n>>> for i in range(3):\n...     print(i)\n...     total += i")
      (strBytes "Python 3.12.0\n>>> ") 0 =
      strBytes "for i in range(3):\nprint(i)\ntotal += i" ∧
    detectContinuationPrefix
      (strBytes "for i in range(3):\n...     print(i)\n...     total += i") =
      strBytes "...     " := by
  constructor <;> decide

/-! ### C3: the symmetric-swap guard -/

/-- C3 counterexample: captures whose diff yields exactly one candidate
hunk, selected through the continuation-prefix rule (its detected prefix is
"> "), whose Inserted (9 bytes) is >= its Deleted (9 bytes); the claim then
demands the empty string, but extractOriginalInput returns "f\na\nb" — the
guard is only applied on the smallest-Inserted fallback path. -/
theorem C3_counterexample :
    extractCandidates (strBytes "HEAD\nf\n> a\n> b\nTAIL")
        (strBytes "HEAD\nWWWWWWWWW\nTAIL") 0 =
      [⟨strBytes "f\n> a\n> b", strBytes "WWWWWWWWW", strBytes "> "⟩] ∧
    (strBytes "f\n> a\n> b").length ≤ (strBytes "WWWWWWWWW").length ∧
    extractOriginalInput (strBytes "HEAD\nf\n> a\n> b\nTAIL")
        (strBytes "HEAD\nWWWWWWWWW\nTAIL") 0 = strBytes "f\na\nb" := by
  refine ⟨by decide, by decide, by decide⟩

/-- C3 (amended): when the selected candidate comes from the
smallest-Inserted fallback — that is, no candidate has a detected
continuation prefix — and its Inserted length is >= its Deleted length,
extractOriginalInput returns the empty string. -/
theorem C3_symmetric_guard_on_fallback (o c : List Nat) (n : Int)
    (h1 : ∀ cd ∈ extractCandidates o c n, cd.contPrefix = [])
    (h2 : (smallestInserted (extractCandidates o c n)).inserted.length ≥
      (smallestInserted (extractCandidates o c n)).deleted.length) :
    extractOriginalInput o c n = [] := by
  unfold extractOriginalInput
  by_cases hlen : (extractCandidates o c n).length = 0
  · simp [hlen]
  · have hfind : (extractCandidates o c n).reverse.find?
        (fun cd => cd.contPrefix ≠ []) = none := by
      apply List.find?_eq_none.2
      intro cd hcd
      have := h1 cd (List.mem_reverse.1 hcd)
      simp [this]
    simp only [hlen, if_false, selectByPrefix, hfind]
    simp [h2]

/-- C3 witness: the amended statement applied at concrete captures whose
single candidate has no continuation prefix and a longer Inserted side. -/
theorem C3_symmetric_guard_on_fallback_witness :
    (∀ cd ∈ extractCandidates (strBytes "AAAA\nxy\nBBBB")
        (strBytes "AAAA\nZZZZZ\nBBBB") 0, cd.contPrefix = []) ∧
    extractOriginalInput (strBytes "AAAA\nxy\nBBBB")
      (strBytes "AAAA\nZZZZZ\nBBBB") 0 = [] :=
  ⟨by decide, C3_symmetric_guard_on_fallback _ _ _ (by decide) (by decide)⟩

/-! ### C10: the detected continuation prefix is a common prefix -/

/-- Helper: the mismatch index is at most either length. -/
theorem commonPrefixLen_le (a b : List Nat) :
    commonPrefixLen a b ≤ a.length ∧ commonPrefixLen a b ≤ b.length := by
  induction a generalizing b with
  | nil => cases b <;> simp [commonPrefixLen]
  | cons x xs ih =>
    cases b with
    | nil => simp [commonPrefixLen]
    | cons y ys =>
      simp only [commonPrefixLen]
      split
      · have h := ih ys
        simp only [List.length_cons]
        omega
      · simp

/-- Helper: the two lists agree on any initial segment within the mismatch
index. -/
theorem commonPrefixLen_take_eq (a b : List Nat) (k : Nat)
    (hk : k ≤ commonPrefixLen a b) : a.take k = b.take k := by
  induction a generalizing b k with
  | nil =>
    cases b with
    | nil => simp
    | cons y ys => simp [commonPrefixLen] at hk; simp [hk]
  | cons x xs ih =>
    cases b with
    | nil => simp [commonPrefixLen] at hk; simp [hk]
    | cons y ys =>
      simp only [commonPrefixLen] at hk
      split at hk
      · next hxy =>
        cases k with
        | zero => simp
        | succ k' =>
          subst hxy
          simp only [List.take_succ_cons]
          have := ih ys k' (by omega)
          rw [this]
      · have hk0 : k = 0 := by omega
        subst hk0
        simp

/-- Helper: backToNonCont never moves the cut forward. -/
theorem backToNonCont_le (a : List Nat) (e : Nat) : backToNonCont a e ≤ e := by
  induction e with
  | zero => simp [backToNonCont]
  | succ e' ih =>
    simp only [backToNonCont]
    split
    · omega
    · omega

/-- Helper: backToLead never moves the position forward. -/
theorem backToLead_le (a : List Nat) (r : Nat) : backToLead a r ≤ r := by
  induction r with
  | zero => simp [backToLead]
  | succ r' ih =>
    simp only [backToLead]
    split
    · omega
    · omega

/-- Helper for commonStringPrefix_cut_le: the incomplete-rune adjustment
never moves the cut forward. -/
theorem cut_adjust_le (a : List Nat) (e0 e1 : Nat) (hle : e1 ≤ e0) :
    (if 0 < e1 ∧ 0x80 ≤ a.getD (e1 - 1) 0 then
      let r := backToLead a (e1 - 1)
      if e1 < r + runeLenOf (a.getD r 0) then r else e1
    else e1) ≤ e0 := by
  split
  · have h := backToLead_le a (e1 - 1)
    dsimp only
    split <;> omega
  · omega

/-- Helper: the final cut index of commonStringPrefix is at most the
mismatch index. -/
theorem commonStringPrefix_cut_le (a b : List Nat) :
    ∃ e2, commonStringPrefix a b = a.take e2 ∧ e2 ≤ commonPrefixLen a b := by
  unfold commonStringPrefix
  exact ⟨_, rfl, cut_adjust_le a _ _ (backToNonCont_le a _)⟩

/-- Helper: commonStringPrefix returns a prefix of its first argument. -/
theorem commonStringPrefix_prefix_left (a b : List Nat) :
    commonStringPrefix a b <+: a := by
  obtain ⟨e2, he, _⟩ := commonStringPrefix_cut_le a b
  rw [he]
  exact List.take_prefix e2 a

/-- Helper: commonStringPrefix returns a prefix of its second argument. -/
theorem commonStringPrefix_prefix_right (a b : List Nat) :
    commonStringPrefix a b <+: b := by
  obtain ⟨e2, he, hle⟩ := commonStringPrefix_cut_le a b
  rw [he, commonPrefixLen_take_eq a b e2 hle]
  exact List.take_prefix e2 b

/-- Helper: the fold of commonStringPrefix over a list of lines returns a
prefix of the initial value and of every line. -/
theorem foldl_commonStringPrefix_prefixOf (cs : List (List Nat)) (init : List Nat) :
    (cs.foldl commonStringPrefix init <+: init) ∧
    ∀ l ∈ cs, cs.foldl commonStringPrefix init <+: l := by
  induction cs generalizing init with
  | nil => simp
  | cons c cs' ih =>
    simp only [List.foldl_cons]
    obtain ⟨ih1, ih2⟩ := ih (commonStringPrefix init c)
    refine ⟨ih1.trans (commonStringPrefix_prefix_left init c), ?_⟩
    intro l hl
    rcases List.mem_cons.1 hl with h1 | h2
    · subst h1; exact ih1.trans (commonStringPrefix_prefix_right init l)
    · exact ih2 l h2

/-- C10: the result of detectContinuationPrefix is a (possibly empty) prefix
of every non-empty line after the first line; with fewer than two lines, or
no non-empty continuation lines, it is empty. -/
theorem C10_detectContinuationPrefix_common (deleted : List Nat) :
    (∀ l ∈ (splitLines deleted).tail, l ≠ [] →
      detectContinuationPrefix deleted <+: l) ∧
    ((splitLines deleted).length < 2 → detectContinuationPrefix deleted = []) ∧
    ((∀ l ∈ (splitLines deleted).tail, l = []) →
      detectContinuationPrefix deleted = []) := by
  unfold detectContinuationPrefix
  by_cases hlt : (splitLines deleted).length < 2
  · simp [hlt]
  · simp only [hlt, if_false]
    have hmem : ∀ l ∈ (splitLines deleted).tail, l ≠ [] →
        l ∈ (splitLines deleted).tail.filter (fun l => 0 < l.length) := by
      intro l hl hne
      refine List.mem_filter.2 ⟨hl, ?_⟩
      simp [List.length_pos]
      exact hne
    refine ⟨?_, fun h => h.elim, ?_⟩
    · intro l hl hne
      have hlf := hmem l hl hne
      set cont := (splitLines deleted).tail.filter (fun l => 0 < l.length) with hcont
      clear_value cont
      split
      · next h2 =>
        cases cont with
        | nil => simp at hlf
        | cons c0 ct =>
          obtain ⟨f1, f2⟩ := foldl_commonStringPrefix_prefixOf ct c0
          have hpfx : List.foldl commonStringPrefix ((c0 :: ct).headD []) (c0 :: ct).tail <+: l := by
            simp only [List.headD_cons, List.tail_cons]
            rcases List.mem_cons.1 hlf with h1 | h1
            · subst h1; exact f1
            · exact f2 l h1
          exact (trimToNonContent_prefixOf _).trans hpfx
      · split
        · next h2 h1 =>
          cases cont with
          | nil => simp at hlf
          | cons c0 ct =>
            cases ct with
            | cons _ _ => simp at h1
            | nil =>
              have hl0 : l = c0 := by simpa using hlf
              subst hl0
              simp only [List.headD_cons]
              exact List.take_prefix _ _
        · next h2 h1 =>
          have hc0 : cont = [] := by
            cases cont with
            | nil => rfl
            | cons c0 ct =>
              cases ct with
              | nil => simp at h1
              | cons d dt =>
                exact absurd (by simpa using Nat.le_add_left 2 dt.length) h2
          rw [hc0] at hlf
          simp at hlf
    · intro hall
      have hflt : (splitLines deleted).tail.filter (fun l => 0 < l.length) = [] := by
        apply List.filter_eq_nil.2
        intro l hl
        simp [hall l hl]
      simp [hflt]

/-- C10 witness: the theorem applied at a concrete deleted region and its
second continuation line. -/
theorem C10_detectContinuationPrefix_common_witness :
    detectContinuationPrefix (strBytes "x\n> a\n> b") <+: strBytes "> a" :=
  (C10_detectContinuationPrefix_common (strBytes "x\n> a\n> b")).1
    (strBytes "> a") (by decide) (by decide)

/-! ### C7: commonStringPrefix never splits a UTF-8 code point -/

/-- Helper: a continuation byte is at least 0x80. -/
theorem isContByte_ge (c : Nat) (h : isContByte c = true) : 0x80 ≤ c := by
  have h2 : c &&& 0xC0 ≤ c := Nat.and_le_left
  simp [isContByte] at h
  omega

/-- Helper: an ASCII byte is not a continuation byte. -/
theorem ascii_not_cont (c : Nat) (h : c < 0x80) : isContByte c = false := by
  have h2 : c &&& 0xC0 ≤ c := Nat.and_le_left
  simp [isContByte]
  omega

set_option maxRecDepth 8000 in
/-- Helper: on lead bytes, the runeLen switch returns the unit length, and a
lead byte is not a continuation byte. -/
theorem leadByte_facts : ∀ c, c < 256 →
    ((192 ≤ c ∧ c < 224) → runeLenOf c = 2 ∧ isContByte c = false) ∧
    ((224 ≤ c ∧ c < 240) → runeLenOf c = 3 ∧ isContByte c = false) ∧
    ((240 ≤ c ∧ c < 248) → runeLenOf c = 4 ∧ isContByte c = false) := by
  decide

/-- Helper: the runeLen switch never returns 0. -/
theorem runeLenOf_pos (c : Nat) : 1 ≤ runeLenOf c := by
  unfold runeLenOf
  split_ifs <;> omega

/-- Helper: inversion of validUtf8 into the four unit shapes. -/
theorem validUtf8_cases (a : List Nat) (h : validUtf8 a = true) :
    a = [] ∨
    (∃ c r, a = c :: r ∧ c < 0x80 ∧ validUtf8 r = true) ∨
    (∃ c c1 r, a = c :: c1 :: r ∧ 0xC0 ≤ c ∧ c < 0xE0 ∧
      isContByte c1 = true ∧ validUtf8 r = true) ∨
    (∃ c c1 c2 r, a = c :: c1 :: c2 :: r ∧ 0xE0 ≤ c ∧ c < 0xF0 ∧
      isContByte c1 = true ∧ isContByte c2 = true ∧ validUtf8 r = true) ∨
    (∃ c c1 c2 c3 r, a = c :: c1 :: c2 :: c3 :: r ∧ 0xF0 ≤ c ∧ c < 0xF8 ∧
      isContByte c1 = true ∧ isContByte c2 = true ∧ isContByte c3 = true ∧
      validUtf8 r = true) := by
  unfold validUtf8 at h ⊢
  cases a with
  | nil => exact Or.inl rfl
  | cons c l =>
    right
    rw [validUtf8Go] at h
    split_ifs at h with h1 h2 h3 h4
    · exact Or.inl ⟨c, l, rfl, h1, h⟩
    · cases l with
      | nil => rw [validUtf8Go] at h; cases h
      | cons c1 l' =>
        rw [validUtf8Go, Bool.and_eq_true] at h
        exact Or.inr (Or.inl ⟨c, c1, l', rfl, h2.1, h2.2, h.1, h.2⟩)
    · cases l with
      | nil => rw [validUtf8Go] at h; cases h
      | cons c1 l1 =>
        cases l1 with
        | nil =>
          rw [validUtf8Go, validUtf8Go] at h
          simp at h
        | cons c2 l' =>
          rw [validUtf8Go, validUtf8Go, Bool.and_eq_true, Bool.and_eq_true] at h
          exact Or.inr (Or.inr (Or.inl
            ⟨c, c1, c2, l', rfl, h3.1, h3.2, h.1, h.2.1, h.2.2⟩))
    · cases l with
      | nil => rw [validUtf8Go] at h; cases h
      | cons c1 l1 =>
        cases l1 with
        | nil =>
          rw [validUtf8Go, validUtf8Go] at h
          simp at h
        | cons c2 l2 =>
          cases l2 with
          | nil =>
            rw [validUtf8Go, validUtf8Go, validUtf8Go] at h
            simp at h
          | cons c3 l' =>
            rw [validUtf8Go, validUtf8Go, validUtf8Go,
              Bool.and_eq_true, Bool.and_eq_true, Bool.and_eq_true] at h
            exact Or.inr (Or.inr (Or.inr
              ⟨c, c1, c2, c3, l', rfl, h4.1, h4.2, h.1, h.2.1, h.2.2.1, h.2.2.2⟩))

/-- Helper: prepending an ASCII unit preserves validity. -/
theorem valid_cons_ascii (c : Nat) (x : List Nat) (hc : c < 0x80) :
    validUtf8 (c :: x) = validUtf8 x := by
  unfold validUtf8
  rw [validUtf8Go, if_pos hc]

/-- Helper: prepending a complete 2-byte unit preserves validity. -/
theorem valid_cons2 (c c1 : Nat) (x : List Nat) (h1 : 0xC0 ≤ c) (h2 : c < 0xE0)
    (hc1 : isContByte c1 = true) : validUtf8 (c :: c1 :: x) = validUtf8 x := by
  unfold validUtf8
  rw [validUtf8Go, if_neg (by omega : ¬ c < 0x80), if_pos ⟨h1, h2⟩,
    validUtf8Go, hc1, Bool.true_and]

/-- Helper: prepending a complete 3-byte unit preserves validity. -/
theorem valid_cons3 (c c1 c2 : Nat) (x : List Nat) (h1 : 0xE0 ≤ c) (h2 : c < 0xF0)
    (hc1 : isContByte c1 = true) (hc2 : isContByte c2 = true) :
    validUtf8 (c :: c1 :: c2 :: x) = validUtf8 x := by
  unfold validUtf8
  rw [validUtf8Go, if_neg (by omega : ¬ c < 0x80),
    if_neg (by omega : ¬ (0xC0 ≤ c ∧ c < 0xE0)), if_pos ⟨h1, h2⟩,
    validUtf8Go, hc1, Bool.true_and, validUtf8Go, hc2, Bool.true_and]

/-- Helper: prepending a complete 4-byte unit preserves validity. -/
theorem valid_cons4 (c c1 c2 c3 : Nat) (x : List Nat) (h1 : 0xF0 ≤ c) (h2 : c < 0xF8)
    (hc1 : isContByte c1 = true) (hc2 : isContByte c2 = true)
    (hc3 : isContByte c3 = true) :
    validUtf8 (c :: c1 :: c2 :: c3 :: x) = validUtf8 x := by
  unfold validUtf8
  rw [validUtf8Go, if_neg (by omega : ¬ c < 0x80),
    if_neg (by omega : ¬ (0xC0 ≤ c ∧ c < 0xE0)),
    if_neg (by omega : ¬ (0xE0 ≤ c ∧ c < 0xF0)), if_pos ⟨h1, h2⟩,
    validUtf8Go, hc1, Bool.true_and, validUtf8Go, hc2, Bool.true_and,
    validUtf8Go, hc3, Bool.true_and]

/-- Helper: the first byte of a non-empty valid string is not a continuation
byte. -/
theorem valid_head_not_cont (a : List Nat) (h : validUtf8 a = true)
    (hne : a ≠ []) : isContByte (a.getD 0 0) = false := by
  rcases validUtf8_cases a h with rfl | ⟨c, r, rfl, hc, _⟩ |
      ⟨c, c1, r, rfl, h1, h2, _, _⟩ | ⟨c, c1, c2, r, rfl, h1, h2, _, _, _⟩ |
      ⟨c, c1, c2, c3, r, rfl, h1, h2, _, _, _, _⟩
  · exact absurd rfl hne
  · simpa using ascii_not_cont c hc
  · simpa using ((leadByte_facts c (by omega)).1 ⟨h1, h2⟩).2
  · simpa using ((leadByte_facts c (by omega)).2.1 ⟨h1, h2⟩).2
  · simpa using ((leadByte_facts c (by omega)).2.2 ⟨h1, h2⟩).2

/-- Helper: one unit-peeling step for Utf8PosFacts. -/
theorem utf8_step (u r : List Nat) (hu : 0 < u.length)
    (hval : ∀ x, validUtf8 (u ++ x) = validUtf8 x)
    (hcontj : ∀ j, 0 < j → j < u.length → isContByte (u.getD j 0) = true)
    (hunc : isContByte (u.getD 0 0) = false)
    (hrl : runeLenOf (u.getD 0 0) = u.length)
    (hr : validUtf8 r = true)
    (hfr : Utf8PosFacts r) : Utf8PosFacts (u ++ r) := by
  obtain ⟨ih1, ih2⟩ := hfr
  have hlen := List.length_append u r
  have hvu : validUtf8 u = true := by
    have h1 := hval []
    rw [List.append_nil] at h1
    rw [h1]
    rfl
  have htk : ∀ n, (u ++ r).take (u.length + n) = u ++ r.take n := by
    intro n
    rw [List.take_append_eq_append_take]
    rw [List.take_of_length_le (by omega), Nat.add_sub_cancel_left]
  have htku : (u ++ r).take u.length = u := by
    have h0 := htk 0
    simpa using h0
  have hgr : ∀ n, (u ++ r).getD (u.length + n) 0 = r.getD n 0 := by
    intro n
    rw [List.getD_append_right u r 0 (u.length + n) (by omega),
      Nat.add_sub_cancel_left]
  constructor
  · intro k hk hkc
    by_cases hku : k < u.length
    · by_cases hk0 : k = 0
      · subst hk0
        have hg0 : (u ++ r).getD 0 0 = u.getD 0 0 := List.getD_append _ _ _ _ hu
        rw [hg0, hrl]
        refine ⟨by rfl, by omega, ?_, ?_⟩
        · rw [Nat.zero_add, htku]
          exact hvu
        · cases r with
          | nil => left; simp
          | cons r0 rt =>
            right
            rw [Nat.zero_add]
            have := hgr 0
            rw [Nat.add_zero] at this
            rw [this]
            simpa using valid_head_not_cont (r0 :: rt) hr (by simp)
      · have hcj : isContByte ((u ++ r).getD k 0) = true := by
          rw [List.getD_append _ _ _ _ hku]
          exact hcontj k (by omega) hku
        rw [hcj] at hkc
        cases hkc
    · obtain ⟨k', rfl⟩ : ∃ k', k = u.length + k' :=
        ⟨k - u.length, by omega⟩
      have hk'len : k' < r.length := by omega
      rw [hgr k'] at hkc ⊢
      obtain ⟨p1, p2, p3, p4⟩ := ih1 k' hk'len hkc
      refine ⟨?_, by omega, ?_, ?_⟩
      · rw [htk, hval]
        exact p1
      · rw [Nat.add_assoc, htk, hval]
        exact p3
      · rcases p4 with hL | hR
        · left
          omega
        · right
          rw [Nat.add_assoc, hgr]
          exact hR
  · intro k hk0 hklen hkc
    by_cases hku : k ≤ u.length
    · by_cases hk1 : k = 1
      · subst hk1
        have hg0 : (u ++ r).getD 0 0 = u.getD 0 0 := List.getD_append _ _ _ _ hu
        rw [hg0] at hkc
        have hrl1 : runeLenOf (u.getD 0 0) = 1 := by
          unfold runeLenOf
          rw [if_pos hkc]
        have hu1 : u.length = 1 := by rw [← hrl, hrl1]
        have ht1 : (u ++ r).take 1 = u := by
          rw [← hu1, htku]
        rw [ht1]
        exact hvu
      · -- 1 < k <= u.length: the byte before the cut is a continuation byte,
        -- contradicting the ASCII hypothesis
        have hcont : isContByte ((u ++ r).getD (k - 1) 0) = true := by
          rw [List.getD_append _ _ _ _ (by omega)]
          exact hcontj (k - 1) (by omega) (by omega)
        have := isContByte_ge _ hcont
        omega
    · have hgk : (u ++ r).getD (k - 1) 0 = r.getD (k - u.length - 1) 0 := by
        rw [List.getD_append_right u r 0 (k - 1) (by omega)]
        congr 1
        omega
      rw [hgk] at hkc
      have hres := ih2 (k - u.length) (by omega) (by omega) hkc
      have htkk : (u ++ r).take k = u ++ r.take (k - u.length) := by
        have := htk (k - u.length)
        rw [(by omega : u.length + (k - u.length) = k)] at this
        exact this
      rw [htkk, hval]
      exact hres

/-- Helper: every valid UTF-8 string satisfies the position facts. -/
theorem utf8_facts (a : List Nat) (h : validUtf8 a = true) : Utf8PosFacts a := by
  rcases validUtf8_cases a h with heq | ⟨c, r, heq, hc, hrv⟩ |
      ⟨c, c1, r, heq, h1, h2, hc1, hrv⟩ |
      ⟨c, c1, c2, r, heq, h1, h2, hc1, hc2, hrv⟩ |
      ⟨c, c1, c2, c3, r, heq, h1, h2, hc1, hc2, hc3, hrv⟩ <;> subst heq
  · constructor
    · intro k hk
      simp at hk
    · intro k h1 h2
      simp at h2
      omega
  · have step := utf8_step [c] r (by simp)
      (fun x => valid_cons_ascii c x hc)
      (fun j hj1 hj2 => by simp at hj2; omega)
      (by simpa using ascii_not_cont c hc)
      (by simp [runeLenOf, hc])
      hrv (utf8_facts r hrv)
    simpa using step
  · have hlead := (leadByte_facts c (by omega)).1 ⟨h1, h2⟩
    have step := utf8_step [c, c1] r (by simp)
      (fun x => valid_cons2 c c1 x h1 h2 hc1)
      (fun j hj1 hj2 => by
        simp at hj2
        interval_cases j
        · simpa using hc1)
      (by simpa using hlead.2)
      (by simpa using hlead.1)
      hrv (utf8_facts r hrv)
    simpa using step
  · have hlead := (leadByte_facts c (by omega)).2.1 ⟨h1, h2⟩
    have step := utf8_step [c, c1, c2] r (by simp)
      (fun x => valid_cons3 c c1 c2 x h1 h2 hc1 hc2)
      (fun j hj1 hj2 => by
        simp at hj2
        interval_cases j
        · simpa using hc1
        · simpa using hc2)
      (by simpa using hlead.2)
      (by simpa using hlead.1)
      hrv (utf8_facts r hrv)
    simpa using step
  · have hlead := (leadByte_facts c (by omega)).2.2 ⟨h1, h2⟩
    have step := utf8_step [c, c1, c2, c3] r (by simp)
      (fun x => valid_cons4 c c1 c2 c3 x h1 h2 hc1 hc2 hc3)
      (fun j hj1 hj2 => by
        simp at hj2
        interval_cases j
        · simpa using hc1
        · simpa using hc2
        · simpa using hc3)
      (by simpa using hlead.2)
      (by simpa using hlead.1)
      hrv (utf8_facts r hrv)
    simpa using step
termination_by a.length
decreasing_by all_goals rw [heq]; simp_arith

/-- Helper: where the backToNonCont walk stops: at 0, at the string end, or
just after a non-continuation byte. -/
theorem backToNonCont_spec (a : List Nat) (e : Nat) :
    backToNonCont a e = 0 ∨ a.length ≤ backToNonCont a e ∨
      isContByte (a.getD (backToNonCont a e - 1) 0) = false := by
  induction e with
  | zero => left; rfl
  | succ e' ih =>
    rw [backToNonCont]
    split
    · exact ih
    · next hng =>
      rw [Decidable.not_and_iff_or_not] at hng
      rcases hng with hng | hng
      · right; left; omega
      · right; right
        simpa using hng

/-- Helper: where the backToLead walk stops: at 0 or on a non-continuation
byte. -/
theorem backToLead_spec (a : List Nat) (r : Nat) :
    backToLead a r = 0 ∨ isContByte (a.getD (backToLead a r) 0) = false := by
  induction r with
  | zero => left; rfl
  | succ r' ih =>
    rw [backToLead]
    split
    · exact ih
    · next hng =>
      right
      simpa using hng

/-- Helper: every byte the backToLead walk skipped over is a continuation
byte. -/
theorem backToLead_cont_range (a : List Nat) (r : Nat) :
    ∀ j, backToLead a r < j → j ≤ r → isContByte (a.getD j 0) = true := by
  induction r with
  | zero =>
    intro j h1 h2
    rw [backToLead] at h1
    omega
  | succ r' ih =>
    intro j h1 h2
    rw [backToLead] at h1
    split at h1
    · next hc =>
      by_cases hj : j = r' + 1
      · subst hj; exact hc
      · exact ih j h1 (by omega)
    · omega

/-- C7: commonStringPrefix returns a common prefix of a and b that never
splits a multi-byte UTF-8 code point: on a structurally valid UTF-8 input
the result is itself valid UTF-8 — it cuts a at a code-point boundary. -/
theorem C7_commonStringPrefix_utf8_boundary (a b : List Nat)
    (h : validUtf8 a = true) :
    commonStringPrefix a b <+: a ∧ commonStringPrefix a b <+: b ∧
    validUtf8 (commonStringPrefix a b) = true := by
  refine ⟨commonStringPrefix_prefix_left a b, commonStringPrefix_prefix_right a b, ?_⟩
  obtain ⟨hfacts1, hfacts2⟩ := utf8_facts a h
  unfold commonStringPrefix
  dsimp only
  have he0len : commonPrefixLen a b ≤ a.length := (commonPrefixLen_le a b).1
  have he1e0 : backToNonCont a (commonPrefixLen a b) ≤ commonPrefixLen a b :=
    backToNonCont_le a _
  set e1 := backToNonCont a (commonPrefixLen a b) with he1def
  by_cases hguard : 0 < e1 ∧ 0x80 ≤ a.getD (e1 - 1) 0
  · rw [if_pos hguard]
    set r := backToLead a (e1 - 1) with hrdef
    have hrle : r ≤ e1 - 1 := backToLead_le a (e1 - 1)
    have hrlen : r < a.length := by omega
    have hane : a ≠ [] := by
      intro hnil
      rw [hnil] at hrlen
      simp at hrlen
    have hrnc : isContByte (a.getD r 0) = false := by
      rcases backToLead_spec a (e1 - 1) with h0 | hnc
      · rw [← hrdef] at h0
        rw [h0]
        exact valid_head_not_cont a h hane
      · rw [← hrdef] at hnc
        exact hnc
    obtain ⟨q1, q2, q3, q4⟩ := hfacts1 r hrlen hrnc
    split
    · exact q1
    · next hnotrunc =>
      have hul : 1 ≤ runeLenOf (a.getD r 0) := runeLenOf_pos _
      have hwalk := backToLead_cont_range a (e1 - 1)
      have heq : e1 = r + runeLenOf (a.getD r 0) := by
        by_contra hne
        have hlt2 : r + runeLenOf (a.getD r 0) < e1 := by omega
        have hcontp : isContByte (a.getD (r + runeLenOf (a.getD r 0)) 0) = true := by
          apply hwalk <;> omega
        rcases q4 with hL | hR
        · omega
        · rw [hcontp] at hR
          cases hR
      rw [heq]
      exact q3
  · rw [if_neg hguard]
    by_cases h0 : e1 = 0
    · rw [h0]
      rfl
    · push_neg at hguard
      have hlt : a.getD (e1 - 1) 0 < 0x80 := hguard (by omega)
      exact hfacts2 e1 (by omega) (by omega) hlt

/-- C7 witness: the theorem applied at inputs beginning with an identical
4-byte emoji; the hypothesis (structural UTF-8 validity of a) is discharged
by computation. -/
theorem C7_commonStringPrefix_utf8_boundary_witness :
    commonStringPrefix [240, 159, 152, 128, 65] [240, 159, 152, 128, 66] <+:
      [240, 159, 152, 128, 65] ∧
    validUtf8 (commonStringPrefix [240, 159, 152, 128, 65]
      [240, 159, 152, 128, 66]) = true :=
  ⟨(C7_commonStringPrefix_utf8_boundary [240, 159, 152, 128, 65]
      [240, 159, 152, 128, 66] (by decide)).1,
    (C7_commonStringPrefix_utf8_boundary [240, 159, 152, 128, 65]
      [240, 159, 152, 128, 66] (by decide)).2.2⟩

/-- C5: on a pane that is not in a blocking mode and whose bounded tail
capture matches the paste-placeholder pattern, the protocol returns
ErrPasteDetected, and its interaction trace is exactly the mode query and
the 50-line capture — in particular it contains no send_raw and no
send_literal event. -/
theorem C5_paste_detected_no_keystrokes {σ : Type} (D : PaneDriver σ) (w : σ)
    (session : String) (message : List Nat)
    (hmode : IsPaneInCopyMode D w session = false)
    (hpaste : ∃ content, D.capturePane w session nudgePastePlaceholderLines =
      some content ∧ pasteMatch content = true) :
    (nudgeWithProtocol D session message w).1 = .error .pasteDetected ∧
    (nudgeWithProtocol D session message w).2.2 =
      [Event.query session, Event.captureWindow session nudgePastePlaceholderLines] ∧
    ∀ e ∈ (nudgeWithProtocol D session message w).2.2,
      (∀ s tok, e ≠ .sendRaw s tok) ∧ (∀ s t, e ≠ .sendLiteral s t) := by
  obtain ⟨content, hcap, hmatch⟩ := hpaste
  have hdet : detectPastePlaceholder D w session = true := by
    rw [detectPastePlaceholder, hcap]
    exact hmatch
  have hres : nudgeWithProtocol D session message w =
      (.error .pasteDetected, w,
        [Event.query session,
          Event.captureWindow session nudgePastePlaceholderLines]) := by
    rw [nudgeWithProtocol, hmode]
    simp only [Bool.false_eq_true, if_false, hdet, if_true]
    rfl
  rw [hres]
  refine ⟨rfl, rfl, ?_⟩
  intro e he
  rcases List.mem_cons.1 he with h1 | h2
  · subst h1
    constructor
    · intro s tok h
      cases h
    · intro s t h
      cases h
  · have he2 : e = Event.captureWindow session nudgePastePlaceholderLines := by
      simpa using h2
    subst he2
    constructor
    · intro s tok h
      cases h
    · intro s t h
      cases h

/-- C5 witness: the theorem applied to the concrete driver, hypotheses
discharged by computation. -/
theorem C5_paste_detected_no_keystrokes_witness :
    (nudgeWithProtocol pasteWorldDriver "sess" (strBytes "hello") ()).1 =
      .error .pasteDetected ∧
    ∀ e ∈ (nudgeWithProtocol pasteWorldDriver "sess" (strBytes "hello") ()).2.2,
      (∀ s tok, e ≠ .sendRaw s tok) ∧ (∀ s t, e ≠ .sendLiteral s t) := by
  have h := C5_paste_detected_no_keystrokes pasteWorldDriver () "sess"
    (strBytes "hello") (by decide)
    ⟨strBytes "some output\n[Pasted text #3 +47 lines]\n> ", rfl, by decide⟩
  exact ⟨h.1, h.2.2⟩

/-! #### Phase A: snake lemmas -/

section Snake

variable (a b : List Nat)

/-- Helper: the snake never moves backward. -/
theorem snakeGo_ge : ∀ (f : Nat) (x y : Int), x ≤ snakeGo a b f x y := by
  intro f
  induction f with
  | zero => intro x y; simp [snakeGo]
  | succ f' ih =>
    intro x y
    rw [snakeGo]
    split
    · have := ih (x + 1) (y + 1)
      omega
    · omega

/-- Helper: every diagonal position the snake passed satisfies the guard. -/
theorem snakeGo_matches : ∀ (f : Nat) (x y t : Int), x ≤ t →
    t < snakeGo a b f x y → snakeGuard a b t (y + (t - x)) := by
  intro f
  induction f with
  | zero =>
    intro x y t h1 h2
    rw [snakeGo] at h2
    omega
  | succ f' ih =>
    intro x y t h1 h2
    rw [snakeGo] at h2
    split at h2
    · next hg =>
      by_cases ht : t = x
      · subst ht
        have harith : y + (t - t) = y := by omega
        rw [harith]
        exact hg
      · have := ih (x + 1) (y + 1) t (by omega) h2
        have harith : y + 1 + (t - (x + 1)) = y + (t - x) := by omega
        rwa [harith] at this
    · omega

/-- Helper: the snake advances at most fuel positions. -/
theorem snakeGo_le : ∀ (f : Nat) (x y : Int), snakeGo a b f x y ≤ x + f := by
  intro f
  induction f with
  | zero => intro x y; simp [snakeGo]
  | succ f' ih =>
    intro x y
    rw [snakeGo]
    split
    · have := ih (x + 1) (y + 1)
      omega
    · omega

/-- Helper: with enough fuel the guard fails at the snake end. -/
theorem snakeGo_stop : ∀ (f : Nat) (x y : Int), (a.length : Int) ≤ x + f →
    ¬ snakeGuard a b (snakeGo a b f x y) (y + (snakeGo a b f x y - x)) := by
  intro f
  induction f with
  | zero =>
    intro x y hf
    rw [snakeGo]
    intro hg
    rcases hg with ⟨_, _, h3, _⟩
    omega
  | succ f' ih =>
    intro x y hf
    rw [snakeGo]
    split
    · next hg =>
      have := ih (x + 1) (y + 1) (by omega)
      have harith : y + 1 + (snakeGo a b f' (x + 1) (y + 1) - (x + 1)) =
          y + (snakeGo a b f' (x + 1) (y + 1) - x) := by omega
      rwa [harith] at this
    · next hg =>
      intro hg2
      apply hg
      have harith : y + (x - x) = y := by omega
      rw [harith] at hg2
      exact hg2

/-- Helper: the guard fails at the snake end. -/
theorem snakeEnd_stop (x y : Int) :
    ¬ snakeGuard a b (snakeEnd a b x y) (y + (snakeEnd a b x y - x)) := by
  by_cases hx : 0 ≤ x
  · exact snakeGo_stop a b a.length x y (by omega)
  · have hres : snakeEnd a b x y = x := by
      unfold snakeEnd
      cases hf : a.length with
      | zero => rw [snakeGo]
      | succ f' =>
        rw [snakeGo, if_neg]
        intro hg
        rcases hg with ⟨h1, _⟩
        omega
    rw [hres]
    intro hg
    rcases hg with ⟨h1, _⟩
    omega

/-- Helper: adding fuel beyond the bound does not change the snake. -/
theorem snakeGo_fuel_succ : ∀ (f : Nat) (x y : Int), (a.length : Int) ≤ x + f →
    snakeGo a b (f + 1) x y = snakeGo a b f x y := by
  intro f
  induction f with
  | zero =>
    intro x y hf
    rw [snakeGo, snakeGo]
    rw [if_neg]
    intro hg
    rcases hg with ⟨_, _, h3, _⟩
    omega
  | succ f' ih =>
    intro x y hf
    conv_lhs => rw [snakeGo]
    conv_rhs => rw [snakeGo]
    split
    · exact ih (x + 1) (y + 1) (by omega)
    · rfl

/-- Helper: one guarded step at the start advances the snake end. -/
theorem snakeEnd_step (x y : Int) (hg : snakeGuard a b x y) :
    snakeEnd a b x y = snakeEnd a b (x + 1) (y + 1) := by
  unfold snakeEnd
  rcases hg with ⟨h1, h2, h3, h4, h5⟩
  have hlen : ∃ f', a.length = f' + 1 := ⟨a.length - 1, by omega⟩
  obtain ⟨f', hf⟩ := hlen
  rw [hf]
  conv_lhs => rw [snakeGo]
  rw [if_pos ⟨h1, h2, h3, h4, h5⟩]
  rw [snakeGo_fuel_succ a b f' (x + 1) (y + 1) (by omega)]

theorem snake_slide_aux (k x1 x : Int)
    (hmatch : ∀ t, x1 ≤ t → t < x → snakeGuard a b t (t - k)) :
    ∀ (fuel : Nat) (s : Int), (x - s).toNat = fuel → x1 ≤ s → s ≤ x →
      x ≤ snakeEnd a b s (s - k) := by
  intro fuel
  induction fuel with
  | zero =>
    intro s ht h1 h2
    have hsx : s = x := by omega
    subst hsx
    exact snakeGo_ge a b a.length s (s - k)
  | succ t ih =>
    intro s ht h1 h2
    have hslt : s < x := by omega
    have hg : snakeGuard a b s (s - k) := hmatch s h1 hslt
    rw [snakeEnd_step a b s (s - k) hg]
    have harith : s - k + 1 = (s + 1) - k := by omega
    rw [harith]
    exact ih (s + 1) (by omega) (by omega) (by omega)

/-- Helper (slide): if the path matches along diagonal k from x1 to x, then
a snake started anywhere in between reaches at least x. -/
theorem snake_slide (k x1 x : Int)
    (hmatch : ∀ t, x1 ≤ t → t < x → snakeGuard a b t (t - k)) :
    ∀ s, x1 ≤ s → s ≤ x → x ≤ snakeEnd a b s (s - k) :=
  fun s => snake_slide_aux a b k x1 x hmatch (x - s).toNat s rfl

end Snake

/-! #### Phase B: reachability lemmas -/

section ReachLemmas

variable (a b : List Nat)

/-- Helper: reachable points are inside the grid. -/
theorem reach_le {d x y : Nat} (h : Reach a b d x y) :
    x ≤ a.length ∧ y ≤ b.length := by
  induction h with
  | zero => simp
  | diag _ h1 h2 _ _ => omega
  | del _ h1 ih => omega
  | ins _ h1 ih => omega

/-- Helper: the parity of the diagonal matches the parity of the edit
count. -/
theorem reach_parity {d x y : Nat} (h : Reach a b d x y) :
    (x + y + d) % 2 = 0 := by
  induction h with
  | zero => rfl
  | diag _ _ _ _ ih => omega
  | del _ _ ih => omega
  | ins _ _ ih => omega

/-- Helper: the diagonal reached is bounded by the edit count. -/
theorem reach_diag_le {d x y : Nat} (h : Reach a b d x y) :
    (x : Int) - y ≤ d ∧ (y : Int) - x ≤ d := by
  induction h with
  | zero => simp
  | diag _ _ _ _ ih => push_cast; push_cast at ih; omega
  | del _ _ ih => push_cast; push_cast at ih; omega
  | ins _ _ ih => push_cast; push_cast at ih; omega

/-- Helper: (n, m) is reachable with n + m edits. -/
theorem reach_full : Reach a b (a.length + b.length) a.length b.length := by
  have hdel : ∀ j, j ≤ a.length → Reach a b j j 0 := by
    intro j
    induction j with
    | zero => intro _; exact Reach.zero
    | succ j' ih =>
      intro hj
      exact Reach.del (ih (by omega)) (by omega)
  have hins : ∀ i, i ≤ b.length → Reach a b (a.length + i) a.length i := by
    intro i
    induction i with
    | zero => intro _; exact hdel a.length (le_refl _)
    | succ i' ih =>
      intro hi
      exact Reach.ins (ih (by omega)) (by omega)
  exact hins b.length (le_refl _)

/-- Helper: decomposition of a (e+1)-edit path into an e-edit path, one
edit, and a trailing diagonal run of matches. -/
theorem reach_decomp : ∀ {d x y : Nat}, Reach a b d x y → ∀ e, d = e + 1 →
    ∃ x0 y0 x1 y1 : Nat, Reach a b e x0 y0 ∧
      ((x1 = x0 + 1 ∧ y1 = y0 ∧ x0 < a.length) ∨
        (x1 = x0 ∧ y1 = y0 + 1 ∧ y0 < b.length)) ∧
      x1 ≤ x ∧ x - x1 = y - y1 ∧ y1 ≤ y ∧
      (∀ t, x1 ≤ t → t < x → t < a.length ∧ y1 + (t - x1) < b.length ∧
        a.getD t 0 = b.getD (y1 + (t - x1)) 0) := by
  intro d x y h
  induction h with
  | zero => intro e he; omega
  | diag hr hx hy hm ih =>
    intro e he
    obtain ⟨x0, y0, x1, y1, q1, q2, q3, q4, q5, q6⟩ := ih e he
    refine ⟨x0, y0, x1, y1, q1, q2, by omega, by omega, by omega, ?_⟩
    intro t ht1 ht2
    rename_i d' x' y'
    by_cases htx : t = x'
    · subst htx
      have hy1 : y1 + (t - x1) = y' := by omega
      rw [hy1]
      exact ⟨hx, hy, hm⟩
    · exact q6 t ht1 (by omega)
  | del hr hx ih =>
    intro e he
    rename_i d' x' y'
    have hde : d' = e := by omega
    subst hde
    exact ⟨x', y', x' + 1, y', hr, Or.inl ⟨rfl, rfl, hx⟩, by omega, by omega,
      by omega, fun t ht1 ht2 => by omega⟩
  | ins hr hy ih =>
    intro e he
    rename_i d' x' y'
    have hde : d' = e := by omega
    subst hde
    exact ⟨x', y', x', y' + 1, hr, Or.inr ⟨rfl, rfl, hy⟩, by omega, by omega,
      by omega, fun t ht1 ht2 => by omega⟩

end ReachLemmas

/-! #### Phase C: characterizing the forward pass by the abstract value
function -/

section Forward

variable (a b : List Nat)

/-- Helper: reading a just-written array slot. -/
theorem vget_vset_eq (v : List Int) (j : Int) (x : Int) (hj : 0 ≤ j)
    (hlt : j.toNat < v.length) : vget (vset v j x) j = x := by
  unfold vget vset
  rw [List.getD_eq_getElem?_getD, List.getElem?_set_self (by omega)]
  rfl

/-- Helper: reading another slot after a write. -/
theorem vget_vset_ne (v : List Int) (j q : Int) (x : Int)
    (hne : j.toNat ≠ q.toNat) : vget (vset v j x) q = vget v q := by
  unfold vget vset
  rw [List.getD_eq_getElem?_getD, List.getD_eq_getElem?_getD,
    List.getElem?_set_ne hne]

/-- Helper: the forward start depends only on the two reads, and on the
lower read only off the k = -d edge. -/
theorem fwdStartF_congr (V V' : Int → Int) (maxD d : Nat) (k : Int)
    (h2 : V (k + 1 + maxD) = V' (k + 1 + maxD))
    (h1 : k ≠ -(d : Int) → V (k - 1 + maxD) = V' (k - 1 + maxD)) :
    fwdStartF V maxD d k = fwdStartF V' maxD d k := by
  unfold fwdStartF
  by_cases hk : k = -(d : Int)
  · rw [if_pos (Or.inl hk), if_pos (Or.inl hk), h2]
  · rw [h1 hk, h2]

/-- Helper: the list-level forward start is the functional one on vget. -/
theorem fwdStart_eq_F (v : List Int) (maxD d : Nat) (k : Int) :
    fwdStart v maxD d k = fwdStartF (fun q => vget v q) maxD d k := rfl

/-- Helper: the list-level forward endpoint under read agreement. -/
theorem fwdEnd_eq_F (v : List Int) (U : Int → Int) (maxD d : Nat) (k : Int)
    (h2 : vget v (k + 1 + maxD) = U (k + 1 + maxD))
    (h1 : k ≠ -(d : Int) → vget v (k - 1 + maxD) = U (k - 1 + maxD)) :
    fwdEnd a b v maxD d k = fwdEndF a b U maxD d k := by
  unfold fwdEnd fwdEndF
  rw [fwdStart_eq_F, fwdStartF_congr (fun q => vget v q) U maxD d k h2 h1]

/-- Helper: membership in the diagonal set of step d. -/
theorem diagSet_iff (maxD d : Nat) (q : Int) :
    (-(d : Int) ≤ q - maxD ∧ q - maxD ≤ (d : Int) ∧ (q - maxD + d) % 2 = 0) ↔
      ∃ t : Nat, t ≤ d ∧ q = -(d : Int) + 2 * t + maxD := by
  constructor
  · rintro ⟨h1, h2, h3⟩
    refine ⟨((q - maxD + d) / 2).toNat, by omega, by omega⟩
  · rintro ⟨t, ht, rfl⟩
    omega

/-- Helper: unfolding Vfun on a step-d diagonal slot. -/
theorem Vfun_succ_diag (maxD d : Nat) (q : Int)
    (h : ∃ t : Nat, t ≤ d ∧ q = -(d : Int) + 2 * t + maxD) :
    Vfun a b maxD (d + 1) q = fwdEndF a b (Vfun a b maxD d) maxD d (q - maxD) := by
  rw [Vfun, if_pos ((diagSet_iff maxD d q).2 h)]

/-- Helper: unfolding Vfun off the step-d diagonal set. -/
theorem Vfun_succ_off (maxD d : Nat) (q : Int)
    (h : ¬ ∃ t : Nat, t ≤ d ∧ q = -(d : Int) + 2 * t + maxD) :
    Vfun a b maxD (d + 1) q = Vfun a b maxD d q := by
  rw [Vfun, if_neg (fun hc => h ((diagSet_iff maxD d q).1 hc))]

end Forward

section Forward2

variable (a b : List Nat)

/-- Helper: Succ is SuccOf at the abstract value function. -/
theorem Succ_eq_SuccOf (maxD d : Nat) (k : Int) :
    Succ a b maxD d k ↔ SuccOf a b (Vfun a b maxD d) maxD d k := Iff.rfl

/-- Helper: a complete characterization of one inner-loop run, processing
diagonals i0..d of step d against the pre-step value function U. -/
theorem innerLoop_run (maxD d : Nat) (hd : d ≤ maxD) (U : Int → Int) :
    ∀ (j i0 : Nat) (v : List Int),
      i0 + j = d + 1 →
      v.length = 2 * maxD + 1 →
      (∀ q : Int, 0 ≤ q → vget v q = U q ∨
        ∃ t : Nat, t < i0 ∧ q = -(d : Int) + 2 * t + maxD) →
      (∀ t : Nat, t < i0 → vget v (-(d : Int) + 2 * t + maxD) =
        fwdEndF a b U maxD d (-(d : Int) + 2 * t)) →
      (∀ t : Nat, t < i0 → ¬ SuccOf a b U maxD d (-(d : Int) + 2 * t)) →
      (match innerLoop a b maxD d j (-(d : Int) + 2 * i0) v with
       | none => ∃ t : Nat, i0 ≤ t ∧ t ≤ d ∧
           SuccOf a b U maxD d (-(d : Int) + 2 * t) ∧
           ∀ t' : Nat, t' < t → ¬ SuccOf a b U maxD d (-(d : Int) + 2 * t')
       | some v' => v'.length = 2 * maxD + 1 ∧
           (∀ t : Nat, t ≤ d → ¬ SuccOf a b U maxD d (-(d : Int) + 2 * t)) ∧
           (∀ q : Int, 0 ≤ q → vget v' q = U q ∨
             ∃ t : Nat, t ≤ d ∧ q = -(d : Int) + 2 * t + maxD) ∧
           (∀ t : Nat, t ≤ d → vget v' (-(d : Int) + 2 * t + maxD) =
             fwdEndF a b U maxD d (-(d : Int) + 2 * t))) := by
  intro j
  induction j with
  | zero =>
    intro i0 v hij hlen hagree hvals hns
    rw [innerLoop]
    refine ⟨hlen, ?_, ?_, ?_⟩
    · intro t ht
      exact hns t (by omega)
    · intro q hq
      rcases hagree q hq with h | ⟨t, ht, heq⟩
      · exact Or.inl h
      · exact Or.inr ⟨t, by omega, heq⟩
    · intro t ht
      exact hvals t (by omega)
  | succ j' ih =>
    intro i0 v hij hlen hagree hvals hns
    rw [innerLoop]
    have hknn : (0 : Int) ≤ -(d : Int) + 2 * i0 + maxD := by omega
    have hread2 : vget v (-(d : Int) + 2 * i0 + 1 + maxD) =
        U (-(d : Int) + 2 * i0 + 1 + maxD) := by
      rcases hagree (-(d : Int) + 2 * i0 + 1 + maxD) (by omega) with h | ⟨t, ht, heq⟩
      · exact h
      · omega
    have hread1 : -(d : Int) + 2 * i0 ≠ -(d : Int) →
        vget v (-(d : Int) + 2 * i0 - 1 + maxD) =
          U (-(d : Int) + 2 * i0 - 1 + maxD) := by
      intro hk
      have hi0 : 1 ≤ i0 := by omega
      rcases hagree (-(d : Int) + 2 * i0 - 1 + maxD) (by omega) with h | ⟨t, ht, heq⟩
      · exact h
      · omega
    have hx : fwdEnd a b v maxD d (-(d : Int) + 2 * i0) =
        fwdEndF a b U maxD d (-(d : Int) + 2 * i0) := by
      refine fwdEnd_eq_F a b v U maxD d _ ?_ ?_
      · exact hread2
      · exact hread1
    rw [hx]
    by_cases hsucc : (a.length : Int) ≤ fwdEndF a b U maxD d (-(d : Int) + 2 * i0) ∧
        (b.length : Int) ≤ fwdEndF a b U maxD d (-(d : Int) + 2 * i0) -
          (-(d : Int) + 2 * i0)
    · rw [if_pos hsucc]
      exact ⟨i0, le_refl i0, by omega, hsucc, fun t' ht' => hns t' ht'⟩
    · rw [if_neg hsucc]
      have harith : -(d : Int) + 2 * i0 + 2 =
          -(d : Int) + 2 * ((i0 + 1 : Nat) : Int) := by push_cast; ring
      rw [harith]
      have hlen2 : (vset v (-(d : Int) + 2 * i0 + maxD)
          (fwdEndF a b U maxD d (-(d : Int) + 2 * i0))).length = 2 * maxD + 1 := by
        unfold vset
        rw [List.length_set]
        exact hlen
      have hinb : (-(d : Int) + 2 * i0 + maxD).toNat < v.length := by
        rw [hlen]
        omega
      have hagree2 : ∀ q : Int, 0 ≤ q →
          vget (vset v (-(d : Int) + 2 * i0 + maxD)
            (fwdEndF a b U maxD d (-(d : Int) + 2 * i0))) q = U q ∨
          ∃ t : Nat, t < i0 + 1 ∧ q = -(d : Int) + 2 * t + maxD := by
        intro q hq
        by_cases hqk : q = -(d : Int) + 2 * i0 + maxD
        · exact Or.inr ⟨i0, by omega, hqk⟩
        · have hne : (-(d : Int) + 2 * i0 + maxD).toNat ≠ q.toNat := by omega
          rw [vget_vset_ne v _ q _ hne]
          rcases hagree q hq with h | ⟨t, ht, heq⟩
          · exact Or.inl h
          · exact Or.inr ⟨t, by omega, heq⟩
      have hvals2 : ∀ t : Nat, t < i0 + 1 →
          vget (vset v (-(d : Int) + 2 * i0 + maxD)
            (fwdEndF a b U maxD d (-(d : Int) + 2 * i0)))
            (-(d : Int) + 2 * t + maxD) =
          fwdEndF a b U maxD d (-(d : Int) + 2 * t) := by
        intro t ht
        by_cases hti : t = i0
        · subst hti
          rw [vget_vset_eq v _ _ hknn hinb]
        · have htlt : t < i0 := by omega
          have hne : (-(d : Int) + 2 * i0 + maxD).toNat ≠
              (-(d : Int) + 2 * t + maxD).toNat := by omega
          rw [vget_vset_ne v _ _ _ hne]
          exact hvals t htlt
      have hns2 : ∀ t : Nat, t < i0 + 1 →
          ¬ SuccOf a b U maxD d (-(d : Int) + 2 * t) := by
        intro t ht
        by_cases hti : t = i0
        · subst hti
          exact hsucc
        · exact hns t (by omega)
      have hih := ih (i0 + 1) _ (by omega) hlen2 hagree2 hvals2 hns2
      cases hres : innerLoop a b maxD d j' (-(d : Int) + 2 * ((i0 + 1 : Nat) : Int))
          (vset v (-(d : Int) + 2 * i0 + maxD)
            (fwdEndF a b U maxD d (-(d : Int) + 2 * i0))) with
      | none =>
        rw [hres] at hih
        obtain ⟨t, ht1, ht2, hs, hall⟩ := hih
        exact ⟨t, by omega, ht2, hs, hall⟩
      | some v' =>
        rw [hres] at hih
        exact hih

/-- Helper: a complete characterization of the outer search loop: on
success it returns the first step with a success, its trace holding the
abstract value function of every completed step. -/
theorem searchLoop_run (maxD : Nat) :
    ∀ (fuel d : Nat) (v : List Int) (tr : List (List Int)),
      fuel + d = maxD + 1 →
      v.length = 2 * maxD + 1 →
      (∀ q : Int, 0 ≤ q → vget v q = Vfun a b maxD d q) →
      tr.length = d →
      (∀ e : Nat, e < d → ∀ q : Int, 0 ≤ q →
        vget (tr.getD e []) q = Vfun a b maxD e q) →
      (match searchLoop a b maxD fuel d v tr with
       | none => ∀ e : Nat, d ≤ e → e ≤ maxD → ∀ t : Nat, t ≤ e →
           ¬ Succ a b maxD e (-(e : Int) + 2 * t)
       | some (tr', ds) =>
           d ≤ ds ∧ ds ≤ maxD ∧ tr'.length = ds + 1 ∧
           (∀ e : Nat, e ≤ ds → ∀ q : Int, 0 ≤ q →
             vget (tr'.getD e []) q = Vfun a b maxD e q) ∧
           (∀ e : Nat, d ≤ e → e < ds → ∀ t : Nat, t ≤ e →
             ¬ Succ a b maxD e (-(e : Int) + 2 * t)) ∧
           (∃ t : Nat, t ≤ ds ∧ Succ a b maxD ds (-(ds : Int) + 2 * t) ∧
             ∀ t' : Nat, t' < t → ¬ Succ a b maxD ds (-(ds : Int) + 2 * t'))) := by
  intro fuel
  induction fuel with
  | zero =>
    intro d v tr hfd hlen hv htrlen htr
    rw [searchLoop]
    intro e he1 he2 t ht
    exfalso
    omega
  | succ fuel' ih =>
    intro d v tr hfd hlen hv htrlen htr
    have hd : d ≤ maxD := by omega
    rw [searchLoop]
    have hrun := innerLoop_run a b maxD d hd (Vfun a b maxD d) (d + 1) 0 v
      (by omega) hlen
      (fun q hq => Or.inl (hv q hq))
      (fun t ht => absurd ht (by omega))
      (fun t ht => absurd ht (by omega))
    rw [show -(d : Int) + 2 * ((0 : Nat) : Int) = -(d : Int) by push_cast; ring]
      at hrun
    have htrapp : ∀ e : Nat, e ≤ d → ∀ q : Int, 0 ≤ q →
        vget ((tr ++ [v]).getD e []) q = Vfun a b maxD e q := by
      intro e he q hq
      by_cases hed : e < d
      · rw [List.getD_append tr [v] [] e (by omega)]
        exact htr e hed q hq
      · have hed' : e = d := by omega
        subst hed'
        rw [List.getD_append_right tr [v] [] e (by omega), htrlen]
        simp only [Nat.sub_self, List.getD_cons_zero]
        exact hv q hq
    cases hres : innerLoop a b maxD d (d + 1) (-(d : Int)) v with
    | none =>
      rw [hres] at hrun
      dsimp only
      obtain ⟨t, _, ht2, hs, hall⟩ := hrun
      refine ⟨le_refl d, hd, by simp [htrlen], htrapp, ?_, ?_⟩
      · intro e he1 he2
        exfalso
        omega
      · exact ⟨t, ht2, hs, fun t' ht' => hall t' ht'⟩
    | some v2 =>
      rw [hres] at hrun
      dsimp only
      obtain ⟨hlen2, hnos, hagree2, hvals2⟩ := hrun
      have hv2 : ∀ q : Int, 0 ≤ q → vget v2 q = Vfun a b maxD (d + 1) q := by
        intro q hq
        by_cases hset : ∃ t : Nat, t ≤ d ∧ q = -(d : Int) + 2 * t + maxD
        · rw [Vfun_succ_diag a b maxD d q hset]
          obtain ⟨t, ht, rfl⟩ := hset
          rw [hvals2 t ht]
          congr 1
          omega
        · rw [Vfun_succ_off a b maxD d q hset]
          rcases hagree2 q hq with h | ⟨t, ht, heq⟩
          · exact h
          · exact absurd ⟨t, ht, heq⟩ hset
      have hih := ih (d + 1) v2 (tr ++ [v]) (by omega) hlen2 hv2
        (by simp [htrlen]) (fun e he => htrapp e (by omega))
      cases hres2 : searchLoop a b maxD fuel' (d + 1) v2 (tr ++ [v]) with
      | none =>
        rw [hres2] at hih
        intro e he1 he2 t ht
        by_cases hed : e = d
        · subst hed
          exact hnos t ht
        · exact hih e (by omega) he2 t ht
      | some p =>
        obtain ⟨tr', ds⟩ := p
        rw [hres2] at hih
        obtain ⟨p1, p2, p3, p4, p5, p6⟩ := hih
        refine ⟨by omega, p2, p3, p4, ?_, p6⟩
        intro e he1 he2 t ht
        by_cases hed : e = d
        · subst hed
          exact hnos t ht
        · exact p5 e (by omega) he2 t ht

end Forward2

/-! #### Phase D: the forward pass against grid reachability -/

section PhaseD

variable (a b : List Nat)

/-- Helper: the snake does not move when x is already at the right edge. -/
theorem snakeGo_x_ge : ∀ (f : Nat) (x y : Int), (a.length : Int) ≤ x →
    snakeGo a b f x y = x := by
  intro f
  cases f with
  | zero => intro x y _; rw [snakeGo]
  | succ f' =>
    intro x y hx
    rw [snakeGo, if_neg]
    intro hg
    rcases hg with ⟨_, _, h3, _⟩
    omega

/-- Helper: the snake does not move when y is already at the bottom edge. -/
theorem snakeGo_y_ge : ∀ (f : Nat) (x y : Int), (b.length : Int) ≤ y →
    snakeGo a b f x y = x := by
  intro f
  cases f with
  | zero => intro x y _; rw [snakeGo]
  | succ f' =>
    intro x y hy
    rw [snakeGo, if_neg]
    intro hg
    rcases hg with ⟨_, _, _, h4, _⟩
    omega

/-- Helper: the snake keeps x within the grid. -/
theorem snakeGo_x_le : ∀ (f : Nat) (x y : Int), x ≤ (a.length : Int) →
    snakeGo a b f x y ≤ (a.length : Int) := by
  intro f
  induction f with
  | zero => intro x y hx; rw [snakeGo]; exact hx
  | succ f' ih =>
    intro x y hx
    rw [snakeGo]
    split
    · next hg => exact ih (x + 1) (y + 1) (by omega)
    · exact hx

/-- Helper: the snake keeps y within the grid. -/
theorem snakeGo_y_le : ∀ (f : Nat) (x y : Int), y ≤ (b.length : Int) →
    snakeGo a b f x y - x + y ≤ (b.length : Int) := by
  intro f
  induction f with
  | zero => intro x y hy; rw [snakeGo]; omega
  | succ f' ih =>
    intro x y hy
    rw [snakeGo]
    split
    · next hg =>
      have := ih (x + 1) (y + 1) (by omega)
      omega
    · omega

/-- Helper: a 0-edit path is an initial run of matches on the main
diagonal. -/
theorem reach_zero_diag : ∀ {d x y : Nat}, Reach a b d x y → d = 0 →
    x = y ∧ ∀ t, t < x → t < a.length ∧ t < b.length ∧
      a.getD t 0 = b.getD t 0 := by
  intro d x y h
  induction h with
  | zero => intro _; exact ⟨rfl, fun t ht => absurd ht (by omega)⟩
  | diag hr hx hy hm ih =>
    intro hd
    obtain ⟨hxy, hmm⟩ := ih hd
    subst hxy
    refine ⟨rfl, ?_⟩
    intro t ht
    rename_i x'
    by_cases htx : t = x'
    · subst htx
      exact ⟨hx, hy, hm⟩
    · exact hmm t (by omega)
  | del hr hx ih => intro hd; omega
  | ins hr hy ih => intro hd; omega

/-- Helper: extending a reachable point along a run of diagonal matches. -/
theorem reach_diag_run : ∀ (j : Nat) (e x y : Nat), Reach a b e x y →
    (∀ t : Nat, x ≤ t → t < x + j → t < a.length ∧ y + (t - x) < b.length ∧
      a.getD t 0 = b.getD (y + (t - x)) 0) →
    Reach a b e (x + j) (y + j) := by
  intro j
  induction j with
  | zero => intro e x y h _; exact h
  | succ j' ih =>
    intro e x y h hm
    have hr := ih e x y h (fun t ht1 ht2 => hm t ht1 (by omega))
    obtain ⟨q1, q2, q3⟩ := hm (x + j') (by omega) (by omega)
    have hy : y + (x + j' - x) = y + j' := by omega
    rw [hy] at q2 q3
    have := Reach.diag hr q1 q2 q3
    have hx1 : x + j' + 1 = x + (j' + 1) := by omega
    have hy1 : y + j' + 1 = y + (j' + 1) := by omega
    rw [hx1, hy1] at this
    exact this

/-- Helper: extending a reachable point by a run of inserts. -/
theorem reach_ins_ext : ∀ (j : Nat) (e x y : Nat), Reach a b e x y →
    y + j ≤ b.length → Reach a b (e + j) x (y + j) := by
  intro j
  induction j with
  | zero => intro e x y h _; exact h
  | succ j' ih =>
    intro e x y h hj
    have := Reach.ins (ih e x y h (by omega)) (show y + j' < b.length by omega)
    have he : e + j' + 1 = e + (j' + 1) := by omega
    have hy : y + j' + 1 = y + (j' + 1) := by omega
    rw [he, hy] at this
    exact this

/-- Helper: extending a reachable point by a run of deletes. -/
theorem reach_del_ext : ∀ (j : Nat) (e x y : Nat), Reach a b e x y →
    x + j ≤ a.length → Reach a b (e + j) (x + j) y := by
  intro j
  induction j with
  | zero => intro e x y h _; exact h
  | succ j' ih =>
    intro e x y h hj
    have := Reach.del (ih e x y h (by omega)) (show x + j' < a.length by omega)
    have he : e + j' + 1 = e + (j' + 1) := by omega
    have hx : x + j' + 1 = x + (j' + 1) := by omega
    rw [he, hx] at this
    exact this

end PhaseD

section PhaseD2

variable (a b : List Nat)

/-- Helper: off the lower edge, the forward start dominates the down-left
read plus one. -/
theorem fwdStartF_ge_left (V : Int → Int) (maxD d : Nat) (k : Int)
    (hk : k ≠ -(d : Int)) : V (k - 1 + maxD) + 1 ≤ fwdStartF V maxD d k := by
  unfold fwdStartF
  split
  · next h =>
    rcases h with h | ⟨_, h⟩
    · exact absurd h hk
    · omega
  · omega

/-- Helper: off the upper edge, the forward start dominates the up-right
read. -/
theorem fwdStartF_ge_right (V : Int → Int) (maxD d : Nat) (k : Int)
    (hk : k ≠ (d : Int)) : V (k + 1 + maxD) ≤ fwdStartF V maxD d k := by
  unfold fwdStartF
  split
  · omega
  · next h =>
    push_neg at h
    have := h.2 hk
    omega

/-- Helper: the step-(e+1) value function holds the step-e endpoint on every
step-e diagonal. -/
theorem Vfun_succ_at (maxD e : Nat) (k : Int) (h1 : -(e : Int) ≤ k)
    (h2 : k ≤ (e : Int)) (h3 : (k + e) % 2 = 0) :
    Vfun a b maxD (e + 1) (k + maxD) = EndVal a b maxD e k := by
  have hc : -(e : Int) ≤ (k + maxD) - maxD ∧ (k + maxD) - maxD ≤ (e : Int) ∧
      ((k + maxD) - maxD + e) % 2 = 0 := by
    refine ⟨by omega, by omega, by omega⟩
  rw [Vfun, if_pos hc]
  unfold EndVal
  congr 1
  omega

/-- Helper (LOWER): the step-e endpoint on the diagonal of a point reachable
with e edits is at least its x-coordinate — the forward pass is furthest
reaching. -/
theorem reach_le_EndVal (maxD : Nat) : ∀ (e x y : Nat), Reach a b e x y →
    (x : Int) ≤ EndVal a b maxD e ((x : Int) - y) := by
  intro e
  induction e with
  | zero =>
    intro x y h
    obtain ⟨hxy, hm⟩ := reach_zero_diag a b h rfl
    subst hxy
    have hk : ((x : Int) - x) = 0 := by omega
    rw [hk]
    have hs : fwdStartF (Vfun a b maxD 0) maxD 0 0 = 0 := by
      unfold fwdStartF
      rw [if_pos (Or.inl (by norm_num))]
      rfl
    have hE : EndVal a b maxD 0 0 = snakeEnd a b 0 0 := by
      unfold EndVal fwdEndF
      rw [hs]
      norm_num
    rw [hE]
    have hmatch : ∀ t : Int, 0 ≤ t → t < (x : Int) →
        snakeGuard a b t (t - 0) := by
      intro t ht1 ht2
      obtain ⟨q1, q2, q3⟩ := hm t.toNat (by omega)
      refine ⟨by omega, by omega, by omega, by omega, ?_⟩
      have h0 : (t - 0).toNat = t.toNat := by omega
      rw [h0]
      exact q3
    have := snake_slide a b 0 0 (x : Int) hmatch 0 (le_refl 0)
      (by exact_mod_cast Int.natCast_nonneg x)
    have h00 : (0 : Int) - 0 = 0 := by omega
    rw [h00] at this
    exact this
  | succ e ih =>
    intro x y h
    obtain ⟨x0, y0, x1, y1, hr, hedge, hx1x, hdiag, hy1y, hmatch⟩ :=
      reach_decomp a b h e rfl
    have hk1 : (x1 : Int) - y1 = (x : Int) - y := by omega
    have hd0 := reach_diag_le a b hr
    have hp0 := reach_parity a b hr
    have hih := ih x0 y0 hr
    have hmatch' : ∀ t : Int, (x1 : Int) ≤ t → t < (x : Int) →
        snakeGuard a b t (t - ((x : Int) - y)) := by
      intro t ht1 ht2
      have h1 : x1 ≤ t.toNat := by omega
      have h2 : t.toNat < x := by omega
      obtain ⟨q1, q2, q3⟩ := hmatch t.toNat h1 h2
      refine ⟨by omega, by omega, by omega, by omega, ?_⟩
      have hh : (t - ((x : Int) - y)).toNat = y1 + (t.toNat - x1) := by omega
      rw [hh]
      exact q3
    have hfin : ∀ s : Int, (x1 : Int) ≤ s →
        (x : Int) ≤ snakeEnd a b s (s - ((x : Int) - y)) ∨
          ((x : Int) ≤ s) := by
      intro s hs
      by_cases hxs : (x : Int) ≤ s
      · exact Or.inr hxs
      · exact Or.inl (snake_slide a b ((x : Int) - y) x1 x hmatch' s hs
          (by omega))
    rcases hedge with ⟨hx1, hy1n, hxlt⟩ | ⟨hx1, hy1n, hylt⟩
    · have hk0 : (x0 : Int) - y0 = ((x : Int) - y) - 1 := by omega
      have hread : Vfun a b maxD (e + 1) (((x : Int) - y) - 1 + maxD) =
          EndVal a b maxD e (((x : Int) - y) - 1) := by
        exact Vfun_succ_at a b maxD e (((x : Int) - y) - 1) (by omega)
          (by omega) (by omega)
      have hs1 := fwdStartF_ge_left (Vfun a b maxD (e + 1)) maxD (e + 1)
        ((x : Int) - y) (by push_cast; omega)
      rw [hread, ← hk0] at hs1
      have hx1s : (x1 : Int) ≤ fwdStartF (Vfun a b maxD (e + 1)) maxD (e + 1)
          ((x : Int) - y) := by omega
      rcases hfin (fwdStartF (Vfun a b maxD (e + 1)) maxD (e + 1)
          ((x : Int) - y)) hx1s with hc | hc
      · exact hc
      · calc (x : Int) ≤ _ := hc
          _ ≤ _ := snakeGo_ge a b a.length _ _
    · have hk0 : (x0 : Int) - y0 = ((x : Int) - y) + 1 := by omega
      have hread : Vfun a b maxD (e + 1) (((x : Int) - y) + 1 + maxD) =
          EndVal a b maxD e (((x : Int) - y) + 1) := by
        exact Vfun_succ_at a b maxD e (((x : Int) - y) + 1) (by omega)
          (by omega) (by omega)
      have hs1 := fwdStartF_ge_right (Vfun a b maxD (e + 1)) maxD (e + 1)
        ((x : Int) - y) (by push_cast; omega)
      rw [hread, ← hk0] at hs1
      have hx1s : (x1 : Int) ≤ fwdStartF (Vfun a b maxD (e + 1)) maxD (e + 1)
          ((x : Int) - y) := by omega
      rcases hfin (fwdStartF (Vfun a b maxD (e + 1)) maxD (e + 1)
          ((x : Int) - y)) hx1s with hc | hc
      · exact hc
      · calc (x : Int) ≤ _ := hc
          _ ≤ _ := snakeGo_ge a b a.length _ _

end PhaseD2

section PhaseD3

variable (a b : List Nat)

/-- Helper: the snake started at an in-grid point reachable with e edits ends
at an in-grid point reachable with e edits. -/
theorem snake_reach (e : Nat) (xn yn : Nat) (hr : Reach a b e xn yn)
    (hxn : xn ≤ a.length) (hyn : yn ≤ b.length) :
    ∃ Xn Yn : Nat, snakeEnd a b (xn : Int) (yn : Int) = (Xn : Int) ∧
      (Xn : Int) - ((xn : Int) - (yn : Int)) = (Yn : Int) ∧ Xn ≤ a.length ∧
      Yn ≤ b.length ∧ Reach a b e Xn Yn := by
  have hge : ((xn : Int)) ≤ snakeEnd a b (xn : Int) (yn : Int) :=
    snakeGo_ge a b a.length _ _
  have hxle : snakeEnd a b (xn : Int) (yn : Int) ≤ (a.length : Int) :=
    snakeGo_x_le a b a.length _ _ (by exact_mod_cast hxn)
  have hyle : snakeEnd a b (xn : Int) (yn : Int) - (xn : Int) + (yn : Int) ≤
      (b.length : Int) := snakeGo_y_le a b a.length _ _ (by exact_mod_cast hyn)
  refine ⟨(snakeEnd a b (xn : Int) (yn : Int)).toNat,
    (snakeEnd a b (xn : Int) (yn : Int) - ((xn : Int) - (yn : Int))).toNat,
    by omega, by omega, by omega, by omega, ?_⟩
  have hmm : ∀ t : Nat, xn ≤ t →
      t < xn + ((snakeEnd a b (xn : Int) (yn : Int)).toNat - xn) →
      t < a.length ∧ yn + (t - xn) < b.length ∧
        a.getD t 0 = b.getD (yn + (t - xn)) 0 := by
    intro t ht1 ht2
    have hsg : snakeGo a b a.length (xn : Int) (yn : Int) =
        snakeEnd a b (xn : Int) (yn : Int) := rfl
    have hg := snakeGo_matches a b a.length (xn : Int) (yn : Int) (t : Int)
      (by omega) (by rw [hsg]; omega)
    obtain ⟨g1, g2, g3, g4, g5⟩ := hg
    refine ⟨by omega, by omega, ?_⟩
    have e1 : ((t : Int)).toNat = t := by omega
    have e2 : ((yn : Int) + ((t : Int) - (xn : Int))).toNat = yn + (t - xn) := by
      omega
    rw [e1, e2] at g5
    exact g5
  have hrun := reach_diag_run a b
    ((snakeEnd a b (xn : Int) (yn : Int)).toNat - xn) e xn yn hr hmm
  have hXeq : xn + ((snakeEnd a b (xn : Int) (yn : Int)).toNat - xn) =
      (snakeEnd a b (xn : Int) (yn : Int)).toNat := by omega
  have hYeq : yn + ((snakeEnd a b (xn : Int) (yn : Int)).toNat - xn) =
      (snakeEnd a b (xn : Int) (yn : Int) - ((xn : Int) - (yn : Int))).toNat := by
    omega
  rw [hXeq, hYeq] at hrun
  exact hrun

/-- Helper: every forward endpoint on a step diagonal is genuine with
budget. -/
theorem goodPt_all (maxD : Nat) : ∀ (e : Nat) (k : Int), -(e : Int) ≤ k →
    k ≤ (e : Int) → (k + e) % 2 = 0 → GoodPt a b maxD e k := by
  intro e
  induction e with
  | zero =>
    intro k h1 h2 h3
    have hk : k = 0 := by push_cast at h1 h2; omega
    subst hk
    have hs : fwdStartF (Vfun a b maxD 0) maxD 0 0 = 0 := by
      unfold fwdStartF
      rw [if_pos (Or.inl (by norm_num))]
      rfl
    have hE : EndVal a b maxD 0 0 = snakeEnd a b 0 0 := by
      unfold EndVal fwdEndF
      rw [hs]
      norm_num
    have h00 := snake_reach a b 0 0 0 Reach.zero (Nat.zero_le _) (Nat.zero_le _)
    push_cast at h00
    obtain ⟨Xn, Yn, q1, q2, q3, q4, q5⟩ := h00
    unfold GoodPt
    left
    exact ⟨Xn, Yn, by omega, by omega, q3, q4, q5⟩
  | succ e ih =>
    intro k h1 h2 h3
    push_cast at h1 h2 h3
    by_cases hcond : k = -(((e + 1 : Nat)) : Int) ∨ (k ≠ (((e + 1 : Nat)) : Int) ∧
        Vfun a b maxD (e + 1) (k - 1 + maxD) < Vfun a b maxD (e + 1) (k + 1 + maxD))
    · -- the step starts from the step-e endpoint one diagonal up
      have hkne : k ≠ (((e + 1 : Nat)) : Int) := by
        rcases hcond with hc | ⟨hc, _⟩
        · push_cast at hc ⊢; omega
        · exact hc
      have hb1 : -(e : Int) ≤ k + 1 := by omega
      have hb2 : k + 1 ≤ (e : Int) := by push_cast at hkne; omega
      have hb3 : ((k + 1) + e) % 2 = 0 := by omega
      have hread : Vfun a b maxD (e + 1) (k + 1 + maxD) =
          EndVal a b maxD e (k + 1) := Vfun_succ_at a b maxD e (k + 1) hb1 hb2 hb3
      have hsval : fwdStartF (Vfun a b maxD (e + 1)) maxD (e + 1) k =
          EndVal a b maxD e (k + 1) := by
        unfold fwdStartF
        rw [if_pos hcond]
        exact hread
      have hEnd : EndVal a b maxD (e + 1) k =
          snakeEnd a b (EndVal a b maxD e (k + 1))
            (EndVal a b maxD e (k + 1) - k) := by
        show fwdEndF a b (Vfun a b maxD (e + 1)) maxD (e + 1) k = _
        unfold fwdEndF
        rw [hsval]
      have hprev := ih (k + 1) hb1 hb2 hb3
      unfold GoodPt at hprev ⊢
      rcases hprev with hA | hB | hC
      · obtain ⟨px, py, hXp, hYp, hpxn, hpym, hpr⟩ := hA
        by_cases hpy : py < b.length
        · have hpost : Reach a b (e + 1) px (py + 1) := Reach.ins hpr hpy
          obtain ⟨Xn, Yn, q1, q2, q3, q4, q5⟩ :=
            snake_reach a b (e + 1) px (py + 1) hpost hpxn (by omega)
          push_cast at q1 q2
          have hXfin : EndVal a b maxD (e + 1) k = (Xn : Int) := by
            rw [hEnd, show EndVal a b maxD e (k + 1) - k =
              ((py : Int) + 1) by omega, hXp]
            exact q1
          left
          exact ⟨Xn, Yn, hXfin, by omega, q3, q4, q5⟩
        · have hskip : EndVal a b maxD (e + 1) k = EndVal a b maxD e (k + 1) := by
            rw [hEnd]
            exact snakeGo_y_ge a b a.length _ _ (by omega)
          right; right
          refine ⟨by omega, e, px, ?_, by omega, by omega⟩
          have hpym' : py = b.length := by omega
          rw [← hpym']
          exact hpr
      · obtain ⟨hXgt, e0, yn, hr0, hyn, hbud⟩ := hB
        have hskip : EndVal a b maxD (e + 1) k = EndVal a b maxD e (k + 1) := by
          rw [hEnd]
          exact snakeGo_x_ge a b a.length _ _ (by omega)
        right; left
        exact ⟨by omega, e0, yn, hr0, by omega, by omega⟩
      · obtain ⟨hYgt, e0, xn, hr0, hxn, hbud⟩ := hC
        have hskip : EndVal a b maxD (e + 1) k = EndVal a b maxD e (k + 1) := by
          rw [hEnd]
          exact snakeGo_y_ge a b a.length _ _ (by omega)
        right; right
        exact ⟨by omega, e0, xn, hr0, by omega, by omega⟩
    · -- the step starts one past the step-e endpoint one diagonal down
      have hkne : k ≠ -(((e + 1 : Nat)) : Int) := fun hc => hcond (Or.inl hc)
      push_cast at hkne
      have hb1 : -(e : Int) ≤ k - 1 := by omega
      have hb2 : k - 1 ≤ (e : Int) := by omega
      have hb3 : ((k - 1) + e) % 2 = 0 := by omega
      have hread : Vfun a b maxD (e + 1) (k - 1 + maxD) =
          EndVal a b maxD e (k - 1) := Vfun_succ_at a b maxD e (k - 1) hb1 hb2 hb3
      have hsval : fwdStartF (Vfun a b maxD (e + 1)) maxD (e + 1) k =
          EndVal a b maxD e (k - 1) + 1 := by
        unfold fwdStartF
        rw [if_neg hcond, hread]
      have hEnd : EndVal a b maxD (e + 1) k =
          snakeEnd a b (EndVal a b maxD e (k - 1) + 1)
            (EndVal a b maxD e (k - 1) + 1 - k) := by
        show fwdEndF a b (Vfun a b maxD (e + 1)) maxD (e + 1) k = _
        unfold fwdEndF
        rw [hsval]
      have hprev := ih (k - 1) hb1 hb2 hb3
      unfold GoodPt at hprev ⊢
      rcases hprev with hA | hB | hC
      · obtain ⟨px, py, hXp, hYp, hpxn, hpym, hpr⟩ := hA
        by_cases hpx : px < a.length
        · have hpost : Reach a b (e + 1) (px + 1) py := Reach.del hpr hpx
          obtain ⟨Xn, Yn, q1, q2, q3, q4, q5⟩ :=
            snake_reach a b (e + 1) (px + 1) py hpost (by omega) hpym
          push_cast at q1 q2
          have hXfin : EndVal a b maxD (e + 1) k = (Xn : Int) := by
            rw [hEnd, show EndVal a b maxD e (k - 1) + 1 = ((px : Int) + 1)
              by omega, show (px : Int) + 1 - k = (py : Int) by omega]
            exact q1
          left
          exact ⟨Xn, Yn, hXfin, by omega, q3, q4, q5⟩
        · have hskip : EndVal a b maxD (e + 1) k =
              EndVal a b maxD e (k - 1) + 1 := by
            rw [hEnd]
            exact snakeGo_x_ge a b a.length _ _ (by omega)
          right; left
          refine ⟨by omega, e, py, ?_, by omega, by omega⟩
          have hpxn' : px = a.length := by omega
          rw [← hpxn']
          exact hpr
      · obtain ⟨hXgt, e0, yn, hr0, hyn, hbud⟩ := hB
        have hskip : EndVal a b maxD (e + 1) k =
            EndVal a b maxD e (k - 1) + 1 := by
          rw [hEnd]
          exact snakeGo_x_ge a b a.length _ _ (by omega)
        right; left
        exact ⟨by omega, e0, yn, hr0, by omega, by omega⟩
      · obtain ⟨hYgt, e0, xn, hr0, hxn, hbud⟩ := hC
        have hskip : EndVal a b maxD (e + 1) k =
            EndVal a b maxD e (k - 1) + 1 := by
          rw [hEnd]
          exact snakeGo_y_ge a b a.length _ _ (by omega)
        right; right
        exact ⟨by omega, e0, xn, hr0, by omega, by omega⟩

end PhaseD3

/-! #### Phase E: the first successful step stops exactly at (n, m) -/

section PhaseE

variable (a b : List Nat)

/-- Helper: reachability of the corner forces a success on its diagonal. -/
theorem succ_of_reach_nm (maxD e : Nat)
    (h : Reach a b e a.length b.length) :
    ∃ t : Nat, t ≤ e ∧
      ((a.length : Int) - b.length = -(e : Int) + 2 * t) ∧
      Succ a b maxD e (-(e : Int) + 2 * t) := by
  have hd := reach_diag_le a b h
  have hp := reach_parity a b h
  have hlow := reach_le_EndVal a b maxD e a.length b.length h
  obtain ⟨t, ht1, ht2⟩ : ∃ t : Nat, t ≤ e ∧
      (a.length : Int) - b.length = -(e : Int) + 2 * t := by
    refine ⟨((a.length : Int) - b.length + e).toNat / 2, by omega, by omega⟩
  refine ⟨t, ht1, ht2, ?_⟩
  unfold Succ
  rw [← ht2]
  exact ⟨hlow, by omega⟩

/-- Helper: if the search saw no success before step ds, the corner is not
reachable with fewer than ds edits. -/
theorem no_reach_nm_of_no_succ (maxD ds : Nat)
    (hns : ∀ e : Nat, e < ds → ∀ t : Nat, t ≤ e →
      ¬ Succ a b maxD e (-(e : Int) + 2 * t)) :
    ∀ e : Nat, e < ds → ¬ Reach a b e a.length b.length := by
  intro e he hr
  obtain ⟨t, ht1, _, hs⟩ := succ_of_reach_nm a b maxD e hr
  exact hns e he t ht1 hs

/-- Helper: a success at the first successful step is exact — the endpoint is
the corner (n, m) and the diagonal is n - m. -/
theorem first_success_exact (maxD ds : Nat) (k : Int) (t : Nat) (ht : t ≤ ds)
    (hk : k = -(ds : Int) + 2 * t) (hsc : Succ a b maxD ds k)
    (hns : ∀ e : Nat, e < ds → ∀ t' : Nat, t' ≤ e →
      ¬ Succ a b maxD e (-(e : Int) + 2 * t')) :
    EndVal a b maxD ds k = (a.length : Int) ∧
      EndVal a b maxD ds k - k = (b.length : Int) ∧
      k = (a.length : Int) - b.length ∧
      Reach a b ds a.length b.length := by
  have hgp := goodPt_all a b maxD ds k (by omega) (by omega) (by omega)
  unfold GoodPt at hgp
  unfold Succ at hsc
  obtain ⟨hs1, hs2⟩ := hsc
  rcases hgp with hA | hB | hC
  · obtain ⟨xn, yn, hX, hY, hxn, hyn, hr⟩ := hA
    have hxe : xn = a.length := by omega
    have hye : yn = b.length := by omega
    subst hxe
    subst hye
    exact ⟨by omega, by omega, by omega, hr⟩
  · obtain ⟨hXgt, e0, yn, hr0, hyn, hbud⟩ := hB
    exfalso
    have hynm : yn ≤ b.length := (reach_le a b hr0).2
    have hext := reach_ins_ext a b (b.length - yn) e0 a.length yn hr0 (by omega)
    rw [show yn + (b.length - yn) = b.length by omega] at hext
    have helt : e0 + (b.length - yn) < ds := by omega
    exact no_reach_nm_of_no_succ a b maxD ds hns _ helt hext
  · obtain ⟨hYgt, e0, xn, hr0, hxn, hbud⟩ := hC
    exfalso
    have hxnn : xn ≤ a.length := (reach_le a b hr0).1
    have hext := reach_del_ext a b (a.length - xn) e0 xn b.length hr0 (by omega)
    rw [show xn + (a.length - xn) = a.length by omega] at hext
    have helt : e0 + (a.length - xn) < ds := by omega
    exact no_reach_nm_of_no_succ a b maxD ds hns _ helt hext

end PhaseE

/-! #### Phase F: the backtrack walk inverts the forward pass -/

section PhaseF

variable (a b : List Nat)

/-- Helper: a one-byte take glued back onto the rest of a drop. -/
theorem take1_drop (l : List Nat) (j : Nat) (h : j < l.length) :
    (l.drop j).take 1 ++ l.drop (j + 1) = l.drop j := by
  rw [List.drop_eq_getElem_cons h]
  simp

/-- Helper: peeling the byte at i - 1 off a drop at i. -/
theorem slice1_drop (l : List Nat) (i : Int) (h0 : 0 ≤ i) (hlt : i < l.length) :
    slice1 l i ++ l.drop (i + 1).toNat = l.drop i.toNat := by
  unfold slice1
  rw [show (i + 1).toNat = i.toNat + 1 by omega]
  exact take1_drop l i.toNat (by omega)

/-- Helper: one-byte slices with equal bytes are equal. -/
theorem slice1_eq (l l' : List Nat) (i j : Int) (h0 : 0 ≤ i)
    (h1 : i < l.length) (h2 : 0 ≤ j) (h3 : j < l'.length)
    (h : l.getD i.toNat 0 = l'.getD j.toNat 0) : slice1 l i = slice1 l' j := by
  unfold slice1
  have hi : i.toNat < l.length := by omega
  have hj : j.toNat < l'.length := by omega
  rw [List.drop_eq_getElem_cons hi, List.drop_eq_getElem_cons hj]
  simp only [List.take_succ_cons, List.take_zero]
  rw [List.getD_eq_getElem l 0 hi, List.getD_eq_getElem l' 0 hj] at h
  rw [h]

/-- Helper: srcCat of a cons with an Equal op. -/
theorem srcCat_cons_eq (dt : List Nat) (rest : List Diff) :
    srcCat (⟨DiffOp.equal, dt⟩ :: rest) = dt ++ srcCat rest := rfl

/-- Helper: srcCat of a cons with a Delete op. -/
theorem srcCat_cons_del (dt : List Nat) (rest : List Diff) :
    srcCat (⟨DiffOp.delete, dt⟩ :: rest) = dt ++ srcCat rest := rfl

/-- Helper: srcCat of a cons with an Insert op. -/
theorem srcCat_cons_ins (dt : List Nat) (rest : List Diff) :
    srcCat (⟨DiffOp.insert, dt⟩ :: rest) = srcCat rest := rfl

/-- Helper: tgtCat of a cons with an Equal op. -/
theorem tgtCat_cons_eq (dt : List Nat) (rest : List Diff) :
    tgtCat (⟨DiffOp.equal, dt⟩ :: rest) = dt ++ tgtCat rest := rfl

/-- Helper: tgtCat of a cons with a Delete op. -/
theorem tgtCat_cons_del (dt : List Nat) (rest : List Diff) :
    tgtCat (⟨DiffOp.delete, dt⟩ :: rest) = tgtCat rest := rfl

/-- Helper: tgtCat of a cons with an Insert op. -/
theorem tgtCat_cons_ins (dt : List Nat) (rest : List Diff) :
    tgtCat (⟨DiffOp.insert, dt⟩ :: rest) = dt ++ tgtCat rest := rfl

/-- Helper: the diagonal walk-back stops exactly at the snake start and
re-emits the matched bytes as Equal ops. -/
theorem backDiagGo_run (prevX prevY s k : Int)
    (hstop : (prevX = s - 1 ∧ prevY = s - k) ∨ (prevX = s ∧ prevY = s - k - 1)) :
    ∀ (j : Nat) (fuel : Nat) (x y : Int) (ops : List Diff),
      (j : Int) = x - s → j ≤ fuel → y = x - k →
      (∀ t : Int, s ≤ t → t < x → snakeGuard a b t (t - k)) →
      srcCat ops.reverse = a.drop x.toNat →
      tgtCat ops.reverse = b.drop y.toNat →
      ∃ eqs : List Diff,
        backDiagGo a prevX prevY fuel x y ops = (s, s - k, ops ++ eqs) ∧
        (∀ o ∈ eqs, o.op = DiffOp.equal) ∧
        (eqs = [] ↔ x = s) ∧
        srcCat (ops ++ eqs).reverse = a.drop s.toNat ∧
        tgtCat (ops ++ eqs).reverse = b.drop (s - k).toNat := by
  intro j
  induction j with
  | zero =>
    intro fuel x y ops h1 h2 h3 hm hsrc htgt
    have hxs : x = s := by omega
    subst hxs
    have hys : y = x - k := h3
    subst hys
    cases fuel with
    | zero =>
      rw [backDiagGo]
      exact ⟨[], by simp, by simp, ⟨fun _ => rfl, fun _ => rfl⟩,
        by simpa using hsrc, by simpa using htgt⟩
    | succ f' =>
      rw [backDiagGo, if_neg]
      · exact ⟨[], by simp, by simp, ⟨fun _ => rfl, fun _ => rfl⟩,
          by simpa using hsrc, by simpa using htgt⟩
      · rcases hstop with ⟨hpx, hpy⟩ | ⟨hpx, hpy⟩ <;> intro hg <;> omega
  | succ j' ih =>
    intro fuel x y ops h1 h2 h3 hm hsrc htgt
    obtain ⟨f', rfl⟩ : ∃ f', fuel = f' + 1 := ⟨fuel - 1, by omega⟩
    rw [backDiagGo]
    have hguard : prevX < x ∧ prevY < y := by
      rcases hstop with ⟨hpx, hpy⟩ | ⟨hpx, hpy⟩ <;> constructor <;> omega
    rw [if_pos hguard]
    obtain ⟨g1, g2, g3, g4, g5⟩ := hm (x - 1) (by omega) (by omega)
    have hsrc' : srcCat ((ops ++ [Diff.mk DiffOp.equal (slice1 a (x - 1))]).reverse) =
        a.drop (x - 1).toNat := by
      rw [List.reverse_append]
      simp only [List.reverse_cons, List.reverse_nil, List.nil_append,
        List.singleton_append]
      rw [srcCat_cons_eq, hsrc]
      have hstep := slice1_drop a (x - 1) (by omega) (by omega)
      rw [show (x - 1 + 1) = x by ring] at hstep
      exact hstep
    have hdata : slice1 a (x - 1) = slice1 b (y - 1) := by
      apply slice1_eq a b (x - 1) (y - 1) (by omega) (by omega) (by omega)
        (by omega)
      rw [show (y - 1).toNat = (x - 1 - k).toNat by omega]
      exact g5
    have htgt' : tgtCat ((ops ++ [Diff.mk DiffOp.equal (slice1 a (x - 1))]).reverse) =
        b.drop (y - 1).toNat := by
      rw [List.reverse_append]
      simp only [List.reverse_cons, List.reverse_nil, List.nil_append,
        List.singleton_append]
      rw [tgtCat_cons_eq, hdata, htgt]
      have hstep := slice1_drop b (y - 1) (by omega) (by omega)
      rw [show (y - 1 + 1) = y by ring] at hstep
      exact hstep
    obtain ⟨eqs', q1, q2, q3, q4, q5⟩ := ih f' (x - 1) (y - 1)
      (ops ++ [Diff.mk DiffOp.equal (slice1 a (x - 1))]) (by omega) (by omega)
      (by omega) (fun t ht1 ht2 => hm t ht1 (by omega)) hsrc' htgt'
    refine ⟨Diff.mk DiffOp.equal (slice1 a (x - 1)) :: eqs', ?_, ?_, ?_, ?_, ?_⟩
    · rw [q1]
      simp
    · intro o ho
      rcases List.mem_cons.1 ho with rfl | ho'
      · rfl
      · exact q2 o ho'
    · constructor
      · intro h
        simp at h
      · intro h
        exfalso
        omega
    · rw [show ops ++ Diff.mk DiffOp.equal (slice1 a (x - 1)) :: eqs' =
        (ops ++ [Diff.mk DiffOp.equal (slice1 a (x - 1))]) ++ eqs' by simp]
      exact q4
    · rw [show ops ++ Diff.mk DiffOp.equal (slice1 a (x - 1)) :: eqs' =
        (ops ++ [Diff.mk DiffOp.equal (slice1 a (x - 1))]) ++ eqs' by simp]
      exact q5

/-- Helper: the closing walk of leading matches runs down to (0, 0) and
completes the reconstruction. -/
theorem backEqTailGo_run :
    ∀ (j : Nat) (x y : Int) (ops : List Diff),
      (j : Int) = x → y = x →
      (∀ t : Int, 0 ≤ t → t < x → snakeGuard a b t t) →
      srcCat ops.reverse = a.drop x.toNat →
      tgtCat ops.reverse = b.drop y.toNat →
      ∃ ops' : List Diff,
        backEqTailGo a j x y ops = (0, 0, ops') ∧
        srcCat ops'.reverse = a ∧ tgtCat ops'.reverse = b := by
  intro j
  induction j with
  | zero =>
    intro x y ops h1 h2 hm hsrc htgt
    rw [h2] at htgt ⊢
    have hx : x = 0 := by omega
    subst hx
    rw [backEqTailGo]
    exact ⟨ops, rfl, by simpa using hsrc, by simpa using htgt⟩
  | succ j' ih =>
    intro x y ops h1 h2 hm hsrc htgt
    rw [h2] at htgt ⊢
    rw [backEqTailGo]
    have hguard : (0 : Int) < x ∧ (0 : Int) < x := by omega
    rw [if_pos hguard]
    obtain ⟨g1, g2, g3, g4, g5⟩ := hm (x - 1) (by omega) (by omega)
    have hsrc' : srcCat ((ops ++ [Diff.mk DiffOp.equal (slice1 a (x - 1))]).reverse) =
        a.drop (x - 1).toNat := by
      rw [List.reverse_append]
      simp only [List.reverse_cons, List.reverse_nil, List.nil_append,
        List.singleton_append]
      rw [srcCat_cons_eq, hsrc]
      have hstep := slice1_drop a (x - 1) (by omega) (by omega)
      rw [show (x - 1 + 1) = x by ring] at hstep
      exact hstep
    have hdata : slice1 a (x - 1) = slice1 b (x - 1) := by
      apply slice1_eq a b (x - 1) (x - 1) (by omega) (by omega) (by omega)
        (by omega)
      exact g5
    have htgt' : tgtCat ((ops ++ [Diff.mk DiffOp.equal (slice1 a (x - 1))]).reverse) =
        b.drop (x - 1).toNat := by
      rw [List.reverse_append]
      simp only [List.reverse_cons, List.reverse_nil, List.nil_append,
        List.singleton_append]
      rw [tgtCat_cons_eq, hdata, htgt]
      have hstep := slice1_drop b (x - 1) (by omega) (by omega)
      rw [show (x - 1 + 1) = x by ring] at hstep
      exact hstep
    exact ih (x - 1) (x - 1) (ops ++ [Diff.mk DiffOp.equal (slice1 a (x - 1))])
      (by omega) rfl (fun t ht1 ht2 => hm t ht1 (by omega)) hsrc' htgt'

end PhaseF

section MergeLemmas

/-- Helper: mergeRun preserves the source concatenation. -/
theorem srcCat_mergeRun : ∀ (l : List Diff) (cur : Diff),
    srcCat (mergeRun cur l) = srcCat (cur :: l) := by
  intro l
  induction l with
  | nil => intro cur; rfl
  | cons o rest ih =>
    intro cur
    rw [mergeRun]
    split
    · next hop =>
      rw [ih]
      rcases cur with ⟨cop, cdata⟩
      rcases o with ⟨oop, odata⟩
      simp only at hop
      subst hop
      cases oop <;> simp [srcCat, List.append_assoc]
    · next hop =>
      rcases cur with ⟨cop, cdata⟩
      cases cop <;> simp [srcCat, ih o]

/-- Helper: mergeRun preserves the target concatenation. -/
theorem tgtCat_mergeRun : ∀ (l : List Diff) (cur : Diff),
    tgtCat (mergeRun cur l) = tgtCat (cur :: l) := by
  intro l
  induction l with
  | nil => intro cur; rfl
  | cons o rest ih =>
    intro cur
    rw [mergeRun]
    split
    · next hop =>
      rw [ih]
      rcases cur with ⟨cop, cdata⟩
      rcases o with ⟨oop, odata⟩
      simp only at hop
      subst hop
      cases oop <;> simp [tgtCat, List.append_assoc]
    · next hop =>
      rcases cur with ⟨cop, cdata⟩
      cases cop <;> simp [tgtCat, ih o]

/-- Helper: mergeRun starts with the accumulated run's op. -/
theorem mergeRun_head : ∀ (l : List Diff) (cur : Diff),
    ∃ dt tl, mergeRun cur l = ⟨cur.op, dt⟩ :: tl := by
  intro l
  induction l with
  | nil => intro cur; exact ⟨cur.data, [], rfl⟩
  | cons o rest ih =>
    intro cur
    rw [mergeRun]
    split
    · next hop => exact ih ⟨cur.op, cur.data ++ o.data⟩
    · exact ⟨cur.data, mergeRun o rest, rfl⟩

/-- Helper: mergeRun yields adjacent ops of distinct kinds. -/
theorem mergeRun_chain : ∀ (l : List Diff) (cur : Diff),
    List.Chain' (fun o1 o2 => o1.op ≠ o2.op) (mergeRun cur l) := by
  intro l
  induction l with
  | nil => intro cur; simp [mergeRun]
  | cons o rest ih =>
    intro cur
    rw [mergeRun]
    split
    · next hop => exact ih _
    · next hop =>
      obtain ⟨dt, tl, hh⟩ := mergeRun_head rest o
      rw [hh, List.chain'_cons]
      refine ⟨fun h => hop h.symm, ?_⟩
      rw [← hh]
      exact ih o

/-- Helper: mergeRun ends with the op kind of the last input op. -/
theorem mergeRun_last : ∀ (l : List Diff) (cur : Diff),
    ∃ o', (mergeRun cur l).getLast? = some o' ∧
      some o'.op = ((cur :: l).getLast?).map Diff.op := by
  intro l
  induction l with
  | nil => intro cur; exact ⟨cur, by simp [mergeRun], by simp⟩
  | cons o rest ih =>
    intro cur
    rw [mergeRun]
    split
    · next hop =>
      obtain ⟨o', h1, h2⟩ := ih ⟨cur.op, cur.data ++ o.data⟩
      refine ⟨o', h1, ?_⟩
      rw [h2]
      cases rest with
      | nil => simp [hop]
      | cons r rs => simp [List.getLast?_cons_cons]
    · next hop =>
      obtain ⟨o', h1, h2⟩ := ih o
      obtain ⟨dt, tl, hh⟩ := mergeRun_head rest o
      refine ⟨o', ?_, ?_⟩
      · rw [hh, List.getLast?_cons_cons, ← hh]
        exact h1
      · rw [h2, List.getLast?_cons_cons]

/-- Helper: mergeOps preserves the source concatenation. -/
theorem srcCat_mergeOps (l : List Diff) : srcCat (mergeOps l) = srcCat l := by
  cases l with
  | nil => rfl
  | cons o rest => exact srcCat_mergeRun rest o

/-- Helper: mergeOps preserves the target concatenation. -/
theorem tgtCat_mergeOps (l : List Diff) : tgtCat (mergeOps l) = tgtCat l := by
  cases l with
  | nil => rfl
  | cons o rest => exact tgtCat_mergeRun rest o

/-- Helper: mergeOps yields adjacent ops of distinct kinds. -/
theorem mergeOps_chain (l : List Diff) :
    List.Chain' (fun o1 o2 => o1.op ≠ o2.op) (mergeOps l) := by
  cases l with
  | nil => simp [mergeOps]
  | cons o rest => exact mergeRun_chain rest o

/-- Helper: mergeOps preserves the op kind of the first op. -/
theorem mergeOps_head (l : List Diff) :
    (mergeOps l).head?.map Diff.op = l.head?.map Diff.op := by
  cases l with
  | nil => rfl
  | cons o rest =>
    obtain ⟨dt, tl, hh⟩ := mergeRun_head rest o
    rw [show mergeOps (o :: rest) = mergeRun o rest from rfl, hh]
    simp

/-- Helper: mergeOps preserves the op kind of the last op. -/
theorem mergeOps_last (l : List Diff) :
    (mergeOps l).getLast?.map Diff.op = l.getLast?.map Diff.op := by
  cases l with
  | nil => rfl
  | cons o rest =>
    obtain ⟨o', h1, h2⟩ := mergeRun_last rest o
    rw [show mergeOps (o :: rest) = mergeRun o rest from rfl, h1]
    exact h2

/-- Helper: mergeOps of a non-empty list is non-empty. -/
theorem mergeOps_ne_nil (l : List Diff) (h : l ≠ []) : mergeOps l ≠ [] := by
  cases l with
  | nil => exact absurd rfl h
  | cons o rest =>
    obtain ⟨dt, tl, hh⟩ := mergeRun_head rest o
    rw [show mergeOps (o :: rest) = mergeRun o rest from rfl, hh]
    simp

end MergeLemmas

section BackMain

variable (a b : List Nat)

/-- Helper: the main backtrack loop walks the forward steps back exactly,
ending at the step-0 snake end on the main diagonal with the source and
target reconstructed down to that point; the appended ops end in a
non-Equal op and start with an Equal only when a snake was crossed. -/
theorem backMain_run (maxD : Nat) (tr : List (List Int)) :
    ∀ (e : Nat) (x y : Int) (ops : List Diff),
      (e : Nat) ≤ maxD →
      (∀ e' : Nat, e' ≤ e → ∀ q : Int, 0 ≤ q →
        vget (tr.getD e' []) q = Vfun a b maxD e' q) →
      -(e : Int) ≤ x - y → x - y ≤ (e : Int) → ((x - y) + e) % 2 = 0 →
      x = EndVal a b maxD e (x - y) →
      0 ≤ y → x ≤ (a.length : Int) → y ≤ (b.length : Int) →
      srcCat ops.reverse = a.drop x.toNat →
      tgtCat ops.reverse = b.drop y.toNat →
      ∃ (c : Int) (tail : List Diff),
        backMain tr a b maxD e x y ops = (c, c, ops ++ tail) ∧
        c = EndVal a b maxD 0 0 ∧ 0 ≤ c ∧ c ≤ (a.length : Int) ∧
        c ≤ (b.length : Int) ∧
        srcCat (ops ++ tail).reverse = a.drop c.toNat ∧
        tgtCat (ops ++ tail).reverse = b.drop c.toNat ∧
        (e = 0 → tail = []) ∧
        (0 < e → tail ≠ [] ∧
          (∀ o, tail.getLast? = some o → o.op ≠ DiffOp.equal) ∧
          (∀ o, tail.head? = some o → o.op = DiffOp.equal →
            snakeGuard a b (x - 1) (y - 1))) := by
  intro e
  induction e with
  | zero =>
    intro x y ops hemax htr h1 h2 h3 hEnd hy0 hxn hym hsrc htgt
    rw [backMain]
    have hk : x - y = 0 := by push_cast at h1 h2; omega
    rw [hk] at hEnd
    refine ⟨x, [], ?_, hEnd, by omega, hxn, by omega, by simpa using hsrc,
      ?_, fun _ => rfl, fun h => absurd h (by omega)⟩
    · rw [show y = x by omega]
      simp
    · rw [show y = x by omega] at htgt
      simpa using htgt
  | succ e ih =>
    intro x y ops hemax htr h1 h2 h3 hEnd hy0 hxn hym hsrc htgt
    push_cast at h1 h2 h3
    have hv : ∀ q : Int, 0 ≤ q →
        vget (tr.getD (e + 1) []) q = Vfun a b maxD (e + 1) q :=
      htr (e + 1) (le_refl _)
    rw [backMain]
    have hiff : ((x - y) = -((e : Int) + 1) ∨ ((x - y) ≠ ((e : Int) + 1) ∧
        vget (tr.getD (e + 1) []) ((x - y) - 1 + maxD) <
          vget (tr.getD (e + 1) []) ((x - y) + 1 + maxD))) ↔
        ((x - y) = -(((e + 1 : Nat)) : Int) ∨
          ((x - y) ≠ (((e + 1 : Nat)) : Int) ∧
          Vfun a b maxD (e + 1) ((x - y) - 1 + maxD) <
            Vfun a b maxD (e + 1) ((x - y) + 1 + maxD))) := by
      by_cases hkedge : (x - y) = -((e : Int) + 1)
      · constructor
        · intro _
          exact Or.inl (by push_cast; omega)
        · intro _
          exact Or.inl hkedge
      · have hr1 : vget (tr.getD (e + 1) []) ((x - y) - 1 + maxD) =
            Vfun a b maxD (e + 1) ((x - y) - 1 + maxD) := hv _ (by omega)
        have hr2 : vget (tr.getD (e + 1) []) ((x - y) + 1 + maxD) =
            Vfun a b maxD (e + 1) ((x - y) + 1 + maxD) := hv _ (by omega)
        rw [hr1, hr2]
        constructor
        · rintro (hc | ⟨hne, hlt⟩)
          · exact absurd hc hkedge
          · exact Or.inr ⟨by push_cast; exact hne, hlt⟩
        · rintro (hc | ⟨hne, hlt⟩)
          · exact absurd (by push_cast at hc; exact hc) hkedge
          · exact Or.inr ⟨by push_cast at hne; exact hne, hlt⟩
    by_cases hcond : ((x - y) = -((e : Int) + 1) ∨ ((x - y) ≠ ((e : Int) + 1) ∧
        vget (tr.getD (e + 1) []) ((x - y) - 1 + maxD) <
          vget (tr.getD (e + 1) []) ((x - y) + 1 + maxD)))
    · -- the forward step came down from diagonal k + 1: an insert
      have hcondF := hiff.1 hcond
      rw [if_pos hcond]
      have hkne : x - y ≠ ((e : Int) + 1) := by
        rcases hcondF with hc | ⟨hc, _⟩
        · push_cast at hc; omega
        · push_cast at hc; exact hc
      have hup1 : -(e : Int) ≤ (x - y) + 1 := by omega
      have hup2 : (x - y) + 1 ≤ (e : Int) := by omega
      have hup3 : (((x - y) + 1) + e) % 2 = 0 := by omega
      have hpx : vget (tr.getD (e + 1) []) ((x - y) + 1 + maxD) =
          EndVal a b maxD e ((x - y) + 1) := by
        rw [hv _ (by omega)]
        exact Vfun_succ_at a b maxD e ((x - y) + 1) hup1 hup2 hup3
      have hsv : fwdStartF (Vfun a b maxD (e + 1)) maxD (e + 1) (x - y) =
          EndVal a b maxD e ((x - y) + 1) := by
        unfold fwdStartF
        rw [if_pos hcondF]
        exact Vfun_succ_at a b maxD e ((x - y) + 1) hup1 hup2 hup3
      have hEE : EndVal a b maxD (e + 1) (x - y) =
          snakeEnd a b (EndVal a b maxD e ((x - y) + 1))
            (EndVal a b maxD e ((x - y) + 1) - (x - y)) := by
        show fwdEndF a b (Vfun a b maxD (e + 1)) maxD (e + 1) (x - y) = _
        unfold fwdEndF
        rw [hsv]
      have hx : x = snakeEnd a b (EndVal a b maxD e ((x - y) + 1))
          (EndVal a b maxD e ((x - y) + 1) - (x - y)) := hEnd.trans hEE
      have hsle : EndVal a b maxD e ((x - y) + 1) ≤ x := by
        conv_rhs => rw [hx]
        exact snakeGo_ge a b a.length _ _
      have hgp := goodPt_all a b maxD e ((x - y) + 1) hup1 hup2 hup3
      unfold GoodPt at hgp
      rcases hgp with hA | hB | hC
      · obtain ⟨px, py, hXp, hYp, hpxn, hpym, hpr⟩ := hA
        have hmatch : ∀ t : Int, EndVal a b maxD e ((x - y) + 1) ≤ t →
            t < x → snakeGuard a b t (t - (x - y)) := by
          intro t ht1 ht2
          have hxg : x = snakeGo a b a.length (EndVal a b maxD e ((x - y) + 1))
              (EndVal a b maxD e ((x - y) + 1) - (x - y)) := hx
          have hg := snakeGo_matches a b a.length
            (EndVal a b maxD e ((x - y) + 1))
            (EndVal a b maxD e ((x - y) + 1) - (x - y)) t ht1 (by omega)
          rwa [show (EndVal a b maxD e ((x - y) + 1) - (x - y)) +
            (t - EndVal a b maxD e ((x - y) + 1)) = t - (x - y) by ring] at hg
        obtain ⟨eqs, hq1, hq2, hq3, hq4, hq5⟩ := backDiagGo_run a b
          (EndVal a b maxD e ((x - y) + 1))
          (EndVal a b maxD e ((x - y) + 1) - ((x - y) + 1))
          (EndVal a b maxD e ((x - y) + 1)) (x - y)
          (Or.inr ⟨rfl, by ring⟩)
          (x - EndVal a b maxD e ((x - y) + 1)).toNat
          (x - EndVal a b maxD e ((x - y) + 1)).toNat x y ops
          (by omega) (le_refl _) (by omega) hmatch hsrc htgt
        have hbd : backDiag a (EndVal a b maxD e ((x - y) + 1))
            (EndVal a b maxD e ((x - y) + 1) - ((x - y) + 1)) x y ops =
            (EndVal a b maxD e ((x - y) + 1),
              EndVal a b maxD e ((x - y) + 1) - (x - y), ops ++ eqs) := hq1
        rw [hpx, hbd]
        dsimp only
        rw [if_neg (show ¬ (x - y = (x - y) + 1 + 1) by omega)]
        have hpy : py < b.length := by omega
        have hsrc2 : srcCat (((ops ++ eqs) ++ [Diff.mk DiffOp.insert
            (slice1 b (EndVal a b maxD e ((x - y) + 1) - (x - y) - 1))]).reverse) =
            a.drop (EndVal a b maxD e ((x - y) + 1)).toNat := by
          rw [List.reverse_append]
          simp only [List.reverse_cons, List.reverse_nil, List.nil_append,
            List.singleton_append]
          rw [srcCat_cons_ins]
          exact hq4
        have htgt2 : tgtCat (((ops ++ eqs) ++ [Diff.mk DiffOp.insert
            (slice1 b (EndVal a b maxD e ((x - y) + 1) - (x - y) - 1))]).reverse) =
            b.drop (EndVal a b maxD e ((x - y) + 1) - (x - y) - 1).toNat := by
          rw [List.reverse_append]
          simp only [List.reverse_cons, List.reverse_nil, List.nil_append,
            List.singleton_append]
          rw [tgtCat_cons_ins, hq5]
          have hst := slice1_drop b (EndVal a b maxD e ((x - y) + 1) - (x - y) - 1)
            (by omega) (by omega)
          rwa [show (EndVal a b maxD e ((x - y) + 1) - (x - y) - 1 + 1) =
            EndVal a b maxD e ((x - y) + 1) - (x - y) by ring] at hst
        have hih := ih (EndVal a b maxD e ((x - y) + 1))
          (EndVal a b maxD e ((x - y) + 1) - (x - y) - 1)
          ((ops ++ eqs) ++ [Diff.mk DiffOp.insert
            (slice1 b (EndVal a b maxD e ((x - y) + 1) - (x - y) - 1))])
          (by omega) (fun e' he' => htr e' (by omega))
          (by omega) (by omega) (by omega)
          (by rw [show EndVal a b maxD e ((x - y) + 1) -
              (EndVal a b maxD e ((x - y) + 1) - (x - y) - 1) = (x - y) + 1
              by ring])
          (by omega) (by omega) (by omega) hsrc2 htgt2
        obtain ⟨c, tail', hr1, hr2, hr3, hr4, hr5, hr6, hr7, hr8, hr9⟩ := hih
        refine ⟨c, eqs ++ [Diff.mk DiffOp.insert
          (slice1 b (EndVal a b maxD e ((x - y) + 1) - (x - y) - 1))] ++ tail',
          ?_, hr2, hr3, hr4, hr5, ?_, ?_, fun h => by simp at h, ?_⟩
        · rw [hr1]
          simp [List.append_assoc]
        · rw [show ops ++ (eqs ++ [Diff.mk DiffOp.insert
            (slice1 b (EndVal a b maxD e ((x - y) + 1) - (x - y) - 1))] ++ tail') =
            ((ops ++ eqs) ++ [Diff.mk DiffOp.insert
            (slice1 b (EndVal a b maxD e ((x - y) + 1) - (x - y) - 1))]) ++ tail'
            by simp]
          exact hr6
        · rw [show ops ++ (eqs ++ [Diff.mk DiffOp.insert
            (slice1 b (EndVal a b maxD e ((x - y) + 1) - (x - y) - 1))] ++ tail') =
            ((ops ++ eqs) ++ [Diff.mk DiffOp.insert
            (slice1 b (EndVal a b maxD e ((x - y) + 1) - (x - y) - 1))]) ++ tail'
            by simp]
          exact hr7
        · intro _
          refine ⟨by simp, ?_, ?_⟩
          · intro o ho heq
            by_cases he0 : e = 0
            · rw [hr8 he0] at ho
              rw [List.append_nil, List.getLast?_append_of_ne_nil eqs
                (by simp)] at ho
              simp at ho
              rw [← ho] at heq
              simp at heq
            · obtain ⟨hne', hlast', _⟩ := hr9 (by omega)
              rw [List.getLast?_append_of_ne_nil _ hne'] at ho
              exact hlast' o ho heq
          · intro o ho heq
            cases heqs : eqs with
            | nil =>
              rw [heqs] at ho
              simp at ho
              rw [← ho] at heq
              simp at heq
            | cons o0 rest0 =>
              have hxs : x ≠ EndVal a b maxD e ((x - y) + 1) := by
                intro hxe
                have := hq3.2 hxe
                rw [heqs] at this
                simp at this
              have hg := hmatch (x - 1) (by omega) (by omega)
              rwa [show (x - 1) - (x - y) = y - 1 by ring] at hg
      · exfalso
        obtain ⟨hXgt, _⟩ := hB
        have hskip : snakeEnd a b (EndVal a b maxD e ((x - y) + 1))
            (EndVal a b maxD e ((x - y) + 1) - (x - y)) =
            EndVal a b maxD e ((x - y) + 1) :=
          snakeGo_x_ge a b a.length _ _ (by omega)
        omega
      · exfalso
        obtain ⟨hYgt, _⟩ := hC
        have hskip : snakeEnd a b (EndVal a b maxD e ((x - y) + 1))
            (EndVal a b maxD e ((x - y) + 1) - (x - y)) =
            EndVal a b maxD e ((x - y) + 1) :=
          snakeGo_y_ge a b a.length _ _ (by omega)
        omega
    · -- the forward step came from diagonal k - 1: a delete
      have hcondFneg : ¬ ((x - y) = -(((e + 1 : Nat)) : Int) ∨
          ((x - y) ≠ (((e + 1 : Nat)) : Int) ∧
          Vfun a b maxD (e + 1) ((x - y) - 1 + maxD) <
            Vfun a b maxD (e + 1) ((x - y) + 1 + maxD))) :=
        fun hc => hcond (hiff.2 hc)
      rw [if_neg hcond]
      have hkne : x - y ≠ -((e : Int) + 1) := fun h => hcond (Or.inl h)
      have hdn1 : -(e : Int) ≤ (x - y) - 1 := by omega
      have hdn2 : (x - y) - 1 ≤ (e : Int) := by omega
      have hdn3 : (((x - y) - 1) + e) % 2 = 0 := by omega
      have hpx : vget (tr.getD (e + 1) []) ((x - y) - 1 + maxD) =
          EndVal a b maxD e ((x - y) - 1) := by
        rw [hv _ (by omega)]
        exact Vfun_succ_at a b maxD e ((x - y) - 1) hdn1 hdn2 hdn3
      have hsv : fwdStartF (Vfun a b maxD (e + 1)) maxD (e + 1) (x - y) =
          EndVal a b maxD e ((x - y) - 1) + 1 := by
        unfold fwdStartF
        rw [if_neg hcondFneg,
          Vfun_succ_at a b maxD e ((x - y) - 1) hdn1 hdn2 hdn3]
      have hEE : EndVal a b maxD (e + 1) (x - y) =
          snakeEnd a b (EndVal a b maxD e ((x - y) - 1) + 1)
            (EndVal a b maxD e ((x - y) - 1) + 1 - (x - y)) := by
        show fwdEndF a b (Vfun a b maxD (e + 1)) maxD (e + 1) (x - y) = _
        unfold fwdEndF
        rw [hsv]
      have hx : x = snakeEnd a b (EndVal a b maxD e ((x - y) - 1) + 1)
          (EndVal a b maxD e ((x - y) - 1) + 1 - (x - y)) := hEnd.trans hEE
      have hsle : EndVal a b maxD e ((x - y) - 1) + 1 ≤ x := by
        conv_rhs => rw [hx]
        exact snakeGo_ge a b a.length _ _
      have hgp := goodPt_all a b maxD e ((x - y) - 1) hdn1 hdn2 hdn3
      unfold GoodPt at hgp
      rcases hgp with hA | hB | hC
      · obtain ⟨px, py, hXp, hYp, hpxn, hpym, hpr⟩ := hA
        have hmatch : ∀ t : Int, EndVal a b maxD e ((x - y) - 1) + 1 ≤ t →
            t < x → snakeGuard a b t (t - (x - y)) := by
          intro t ht1 ht2
          have hxg : x = snakeGo a b a.length
              (EndVal a b maxD e ((x - y) - 1) + 1)
              (EndVal a b maxD e ((x - y) - 1) + 1 - (x - y)) := hx
          have hg := snakeGo_matches a b a.length
            (EndVal a b maxD e ((x - y) - 1) + 1)
            (EndVal a b maxD e ((x - y) - 1) + 1 - (x - y)) t ht1 (by omega)
          rwa [show (EndVal a b maxD e ((x - y) - 1) + 1 - (x - y)) +
            (t - (EndVal a b maxD e ((x - y) - 1) + 1)) = t - (x - y)
            by ring] at hg
        obtain ⟨eqs, hq1, hq2, hq3, hq4, hq5⟩ := backDiagGo_run a b
          (EndVal a b maxD e ((x - y) - 1))
          (EndVal a b maxD e ((x - y) - 1) - ((x - y) - 1))
          (EndVal a b maxD e ((x - y) - 1) + 1) (x - y)
          (Or.inl ⟨by ring, by ring⟩)
          (x - (EndVal a b maxD e ((x - y) - 1) + 1)).toNat
          (x - EndVal a b maxD e ((x - y) - 1)).toNat x y ops
          (by omega) (by omega) (by omega) hmatch hsrc htgt
        have hbd : backDiag a (EndVal a b maxD e ((x - y) - 1))
            (EndVal a b maxD e ((x - y) - 1) - ((x - y) - 1)) x y ops =
            (EndVal a b maxD e ((x - y) - 1) + 1,
              EndVal a b maxD e ((x - y) - 1) + 1 - (x - y), ops ++ eqs) := hq1
        rw [hpx, hbd]
        dsimp only
        rw [if_pos (show x - y = (x - y) - 1 + 1 by ring)]
        have hpxlt : (px : Int) < a.length := by omega
        have hsrc2 : srcCat (((ops ++ eqs) ++ [Diff.mk DiffOp.delete
            (slice1 a (EndVal a b maxD e ((x - y) - 1) + 1 - 1))]).reverse) =
            a.drop (EndVal a b maxD e ((x - y) - 1) + 1 - 1).toNat := by
          rw [List.reverse_append]
          simp only [List.reverse_cons, List.reverse_nil, List.nil_append,
            List.singleton_append]
          rw [srcCat_cons_del, hq4]
          have hst := slice1_drop a (EndVal a b maxD e ((x - y) - 1) + 1 - 1)
            (by omega) (by omega)
          rwa [show (EndVal a b maxD e ((x - y) - 1) + 1 - 1 + 1) =
            EndVal a b maxD e ((x - y) - 1) + 1 by ring] at hst
        have htgt2 : tgtCat (((ops ++ eqs) ++ [Diff.mk DiffOp.delete
            (slice1 a (EndVal a b maxD e ((x - y) - 1) + 1 - 1))]).reverse) =
            b.drop (EndVal a b maxD e ((x - y) - 1) + 1 - (x - y)).toNat := by
          rw [List.reverse_append]
          simp only [List.reverse_cons, List.reverse_nil, List.nil_append,
            List.singleton_append]
          rw [tgtCat_cons_del]
          exact hq5
        have hih := ih (EndVal a b maxD e ((x - y) - 1) + 1 - 1)
          (EndVal a b maxD e ((x - y) - 1) + 1 - (x - y))
          ((ops ++ eqs) ++ [Diff.mk DiffOp.delete
            (slice1 a (EndVal a b maxD e ((x - y) - 1) + 1 - 1))])
          (by omega) (fun e' he' => htr e' (by omega))
          (by omega) (by omega) (by omega)
          (by rw [show (EndVal a b maxD e ((x - y) - 1) + 1 - 1) -
              (EndVal a b maxD e ((x - y) - 1) + 1 - (x - y)) = (x - y) - 1
              by ring]; omega)
          (by omega) (by omega) (by omega) hsrc2 htgt2
        obtain ⟨c, tail', hr1, hr2, hr3, hr4, hr5, hr6, hr7, hr8, hr9⟩ := hih
        refine ⟨c, eqs ++ [Diff.mk DiffOp.delete
          (slice1 a (EndVal a b maxD e ((x - y) - 1) + 1 - 1))] ++ tail',
          ?_, hr2, hr3, hr4, hr5, ?_, ?_, fun h => by simp at h, ?_⟩
        · rw [hr1]
          simp [List.append_assoc]
        · rw [show ops ++ (eqs ++ [Diff.mk DiffOp.delete
            (slice1 a (EndVal a b maxD e ((x - y) - 1) + 1 - 1))] ++ tail') =
            ((ops ++ eqs) ++ [Diff.mk DiffOp.delete
            (slice1 a (EndVal a b maxD e ((x - y) - 1) + 1 - 1))]) ++ tail'
            by simp]
          exact hr6
        · rw [show ops ++ (eqs ++ [Diff.mk DiffOp.delete
            (slice1 a (EndVal a b maxD e ((x - y) - 1) + 1 - 1))] ++ tail') =
            ((ops ++ eqs) ++ [Diff.mk DiffOp.delete
            (slice1 a (EndVal a b maxD e ((x - y) - 1) + 1 - 1))]) ++ tail'
            by simp]
          exact hr7
        · intro _
          refine ⟨by simp, ?_, ?_⟩
          · intro o ho heq
            by_cases he0 : e = 0
            · rw [hr8 he0] at ho
              rw [List.append_nil, List.getLast?_append_of_ne_nil eqs
                (by simp)] at ho
              simp at ho
              rw [← ho] at heq
              simp at heq
            · obtain ⟨hne', hlast', _⟩ := hr9 (by omega)
              rw [List.getLast?_append_of_ne_nil _ hne'] at ho
              exact hlast' o ho heq
          · intro o ho heq
            cases heqs : eqs with
            | nil =>
              rw [heqs] at ho
              simp at ho
              rw [← ho] at heq
              simp at heq
            | cons o0 rest0 =>
              have hxs : x ≠ EndVal a b maxD e ((x - y) - 1) + 1 := by
                intro hxe
                have := hq3.2 hxe
                rw [heqs] at this
                simp at this
              have hg := hmatch (x - 1) (by omega) (by omega)
              rwa [show (x - 1) - (x - y) = y - 1 by ring] at hg
      · exfalso
        obtain ⟨hXgt, _⟩ := hB
        have hskip : snakeEnd a b (EndVal a b maxD e ((x - y) - 1) + 1)
            (EndVal a b maxD e ((x - y) - 1) + 1 - (x - y)) =
            EndVal a b maxD e ((x - y) - 1) + 1 :=
          snakeGo_x_ge a b a.length _ _ (by omega)
        omega
      · exfalso
        obtain ⟨hYgt, _⟩ := hC
        have hskip : snakeEnd a b (EndVal a b maxD e ((x - y) - 1) + 1)
            (EndVal a b maxD e ((x - y) - 1) + 1 - (x - y)) =
            EndVal a b maxD e ((x - y) - 1) + 1 :=
          snakeGo_y_ge a b a.length _ _ (by omega)
        omega

end BackMain

section BacktrackCorrect

variable (a b : List Nat)

/-- Helper: the step-0 endpoint is the initial snake on the main diagonal. -/
theorem EndVal_zero (maxD : Nat) : EndVal a b maxD 0 0 = snakeEnd a b 0 0 := by
  have hs : fwdStartF (Vfun a b maxD 0) maxD 0 0 = 0 := by
    unfold fwdStartF
    rw [if_pos (Or.inl (by norm_num))]
    rfl
  unfold EndVal fwdEndF
  rw [hs]
  norm_num

/-- Helper: full correctness of backtrack on a trace of the abstract value
functions whose step ds endpoint on diagonal n - m is exactly n. -/
theorem backtrack_correct (maxD ds : Nat) (tr : List (List Int))
    (hds : ds ≤ maxD)
    (htr : ∀ e : Nat, e ≤ ds → ∀ q : Int, 0 ≤ q →
      vget (tr.getD e []) q = Vfun a b maxD e q)
    (hX : EndVal a b maxD ds ((a.length : Int) - b.length) = (a.length : Int))
    (hdk1 : -(ds : Int) ≤ (a.length : Int) - b.length)
    (hdk2 : (a.length : Int) - b.length ≤ (ds : Int))
    (hdk3 : (((a.length : Int) - b.length) + ds) % 2 = 0) :
    srcCat (backtrack tr a b ds maxD) = a ∧
    tgtCat (backtrack tr a b ds maxD) = b ∧
    List.Chain' (fun o1 o2 => o1.op ≠ o2.op) (backtrack tr a b ds maxD) ∧
    (1 ≤ ds → snakeEnd a b 0 0 = 0 →
      backtrack tr a b ds maxD ≠ [] ∧
      (∀ o, (backtrack tr a b ds maxD).head? = some o →
        o.op ≠ DiffOp.equal) ∧
      (∀ o, (backtrack tr a b ds maxD).getLast? = some o →
        o.op = DiffOp.equal →
        snakeGuard a b ((a.length : Int) - 1) ((b.length : Int) - 1))) := by
  have hbm := backMain_run a b maxD tr ds (a.length : Int) (b.length : Int) []
    hds htr hdk1 hdk2 hdk3 hX.symm (by omega) (le_refl _) (le_refl _)
    (by simp [srcCat]) (by simp [tgtCat])
  obtain ⟨c, tail, hm1, hm2, hm3, hm4, hm5, hm6, hm7, hm8, hm9⟩ := hbm
  have hmm0 : ∀ t : Int, 0 ≤ t → t < c → snakeGuard a b t t := by
    intro t ht1 ht2
    have hcg : c ≤ snakeGo a b a.length 0 0 := by
      rw [hm2, EndVal_zero]
      exact le_refl _
    have hg := snakeGo_matches a b a.length 0 0 t ht1 (by omega)
    rwa [show (0 : Int) + (t - 0) = t by ring] at hg
  obtain ⟨ops3, he1, he2, he3⟩ := backEqTailGo_run a b c.toNat c c ([] ++ tail)
    (by omega) rfl hmm0 hm6 hm7
  have hbt : backtrack tr a b ds maxD = mergeOps ops3.reverse := by
    unfold backtrack
    rw [hm1]
    dsimp only
    rw [show backEqTail a c c ([] ++ tail) = (0, 0, ops3) from he1]
    dsimp only
    rw [show backDelTail a 0 ops3 = (0, ops3) from rfl]
    dsimp only
    rw [show backInsTail b 0 ops3 = (0, ops3) from rfl]
  refine ⟨?_, ?_, ?_, ?_⟩
  · rw [hbt, srcCat_mergeOps]
    exact he2
  · rw [hbt, tgtCat_mergeOps]
    exact he3
  · rw [hbt]
    exact mergeOps_chain _
  · intro hds1 hsnake0
    have hc0 : c = 0 := by rw [hm2, EndVal_zero, hsnake0]
    obtain ⟨htne, hlastop, hheadop⟩ := hm9 (by omega)
    have hops3 : tail = ops3 := by
      have he1' := he1
      rw [hc0] at he1'
      rw [show backEqTailGo a ((0 : Int)).toNat 0 0 ([] ++ tail) =
        (0, 0, [] ++ tail) from rfl] at he1'
      simpa using he1'
    have hone : ops3 ≠ [] := by
      rw [← hops3]
      exact htne
    refine ⟨?_, ?_, ?_⟩
    · rw [hbt]
      exact mergeOps_ne_nil _ (by simp [hone])
    · intro o ho heq
      rw [hbt] at ho
      have hh := mergeOps_head ops3.reverse
      rw [ho, List.head?_reverse] at hh
      cases hL : ops3.getLast? with
      | none =>
        rw [hL] at hh
        simp at hh
      | some o' =>
        rw [hL] at hh
        simp at hh
        apply hlastop o'
        · rw [hops3]
          exact hL
        · rw [← hh]
          exact heq
    · intro o ho heq
      rw [hbt] at ho
      have hh := mergeOps_last ops3.reverse
      rw [ho, List.getLast?_reverse] at hh
      cases hL : ops3.head? with
      | none =>
        rw [hL] at hh
        simp at hh
      | some o' =>
        rw [hL] at hh
        simp at hh
        apply hheadop o'
        · rw [hops3]
          exact hL
        · rw [← hh]
          exact heq

end BacktrackCorrect

section ComputeSpec

variable (a b : List Nat)

/-- Helper: the initial v array reads as the all-zero value function. -/
theorem replicate_vget (maxD : Nat) (q : Int) :
    vget (List.replicate (2 * maxD + 1) (0 : Int)) q = 0 := by
  unfold vget
  rw [List.getD_eq_getElem?_getD, List.getElem?_replicate]
  split <;> rfl

/-- Helper: with different nonempty heads the initial snake is empty. -/
theorem snakeEnd_zero_of_ne (ha : a ≠ []) (hne : a.getD 0 0 ≠ b.getD 0 0) :
    snakeEnd a b 0 0 = 0 := by
  unfold snakeEnd
  cases hl : a.length with
  | zero => rw [snakeGo]
  | succ f =>
    rw [snakeGo, if_neg]
    intro hg
    obtain ⟨_, _, _, _, h5⟩ := hg
    exact hne (by simpa using h5)

/-- Helper: full functional characterization of computeMyersDiff — the
round trip, merged adjacency, and (for inputs with differing nonempty ends)
non-Equal boundary ops. -/
theorem computeMyersDiff_spec :
    srcCat (computeMyersDiff a b) = a ∧
    tgtCat (computeMyersDiff a b) = b ∧
    List.Chain' (fun o1 o2 => o1.op ≠ o2.op) (computeMyersDiff a b) ∧
    (a ≠ [] → b ≠ [] → a.getD 0 0 ≠ b.getD 0 0 →
      a.getD (a.length - 1) 0 ≠ b.getD (b.length - 1) 0 →
      computeMyersDiff a b ≠ [] ∧
      (∀ o, (computeMyersDiff a b).head? = some o → o.op ≠ DiffOp.equal) ∧
      (∀ o, (computeMyersDiff a b).getLast? = some o →
        o.op ≠ DiffOp.equal)) := by
  have hrun := searchLoop_run a b (a.length + b.length)
    ((a.length + b.length) + 1) 0
    (List.replicate (2 * (a.length + b.length) + 1) (0 : Int)) []
    (by omega) (by simp)
    (fun q hq => by rw [replicate_vget]; rfl)
    rfl
    (fun e he => absurd he (by omega))
  cases hsl : searchLoop a b (a.length + b.length) ((a.length + b.length) + 1)
      0 (List.replicate (2 * (a.length + b.length) + 1) (0 : Int)) [] with
  | none =>
    exfalso
    rw [hsl] at hrun
    obtain ⟨t, ht, _, hs⟩ := succ_of_reach_nm a b (a.length + b.length)
      (a.length + b.length) (reach_full a b)
    exact hrun (a.length + b.length) (by omega) (le_refl _) t ht hs
  | some p =>
    obtain ⟨tr, ds⟩ := p
    rw [hsl] at hrun
    obtain ⟨hp1, hp2, hp3, hp4, hp5, t, ht, hsc, _⟩ := hrun
    have hns : ∀ e : Nat, e < ds → ∀ t' : Nat, t' ≤ e →
        ¬ Succ a b (a.length + b.length) e (-(e : Int) + 2 * t') :=
      fun e he t' ht' => hp5 e (by omega) (by omega) t' ht'
    obtain ⟨hX, hY, hk, hreach⟩ := first_success_exact a b
      (a.length + b.length) ds (-(ds : Int) + 2 * t) t ht rfl hsc hns
    have hbc := backtrack_correct a b (a.length + b.length) ds tr hp2
      (fun e he q hq => hp4 e he q hq)
      (by rw [← hk]; exact hX) (by omega) (by omega) (by omega)
    obtain ⟨hs1, hs2, hs3, hs4⟩ := hbc
    have hcd : computeMyersDiff a b = backtrack tr a b ds (a.length + b.length) := by
      show (match searchLoop a b (a.length + b.length) ((a.length + b.length) + 1) 0
          (List.replicate (2 * (a.length + b.length) + 1) (0 : Int)) [] with
        | some (tr2, d2) => backtrack tr2 a b d2 (a.length + b.length)
        | none => ([] : List Diff)) = backtrack tr a b ds (a.length + b.length)
      rw [hsl]
    refine ⟨by rw [hcd]; exact hs1, by rw [hcd]; exact hs2,
      by rw [hcd]; exact hs3, ?_⟩
    intro ha hb hhead hlast
    have hn1 : 1 ≤ a.length := List.length_pos.2 ha
    have hm1 : 1 ≤ b.length := List.length_pos.2 hb
    have hsnake0 : snakeEnd a b 0 0 = 0 := snakeEnd_zero_of_ne a b ha hhead
    have hds1 : 1 ≤ ds := by
      by_contra hcon
      have hds0 : ds = 0 := by omega
      subst hds0
      have ht0 : t = 0 := by omega
      subst ht0
      rw [show (-(((0 : Nat)) : Int) + 2 * ((0 : Nat) : Int)) = 0 by norm_num,
        EndVal_zero, hsnake0] at hX
      omega
    obtain ⟨hg1, hg2, hg3⟩ := hs4 hds1 hsnake0
    refine ⟨by rw [hcd]; exact hg1, ?_, ?_⟩
    · intro o ho
      rw [hcd] at ho
      exact hg2 o ho
    · intro o ho heq
      rw [hcd] at ho
      obtain ⟨q1, q2, q3, q4, q5⟩ := hg3 o ho heq
      apply hlast
      rw [show (((a.length : Int) - 1)).toNat = a.length - 1 by omega,
        show (((b.length : Int) - 1)).toNat = b.length - 1 by omega] at q5
      exact q5

end ComputeSpec

section StripLemmas

/-- Helper: srcCat distributes over append. -/
theorem srcCat_append (u v : List Diff) :
    srcCat (u ++ v) = srcCat u ++ srcCat v := by
  induction u with
  | nil => rfl
  | cons o rest ih =>
    rcases o with ⟨op, dt⟩
    cases op <;> simp [srcCat, ih, List.append_assoc]

/-- Helper: tgtCat distributes over append. -/
theorem tgtCat_append (u v : List Diff) :
    tgtCat (u ++ v) = tgtCat u ++ tgtCat v := by
  induction u with
  | nil => rfl
  | cons o rest ih =>
    rcases o with ⟨op, dt⟩
    cases op <;> simp [tgtCat, ih, List.append_assoc]

/-- Helper: srcCat of an optional Equal piece. -/
theorem srcCat_optEqual (p : List Nat) :
    srcCat (if 0 < p.length then [Diff.mk DiffOp.equal p] else []) = p := by
  split
  · simp [srcCat]
  · next h =>
    have hp : p = [] := by
      cases p with
      | nil => rfl
      | cons c cs => simp at h
    rw [hp]
    rfl

/-- Helper: tgtCat of an optional Equal piece. -/
theorem tgtCat_optEqual (p : List Nat) :
    tgtCat (if 0 < p.length then [Diff.mk DiffOp.equal p] else []) = p := by
  split
  · simp [tgtCat]
  · next h =>
    have hp : p = [] := by
      cases p with
      | nil => rfl
      | cons c cs => simp at h
    rw [hp]
    rfl

/-- Helper: reading inside a take. -/
theorem getD_take_at (l : List Nat) (m i : Nat) (h : i < m) :
    (l.take m).getD i 0 = l.getD i 0 := by
  rw [List.getD_eq_getElem?_getD, List.getD_eq_getElem?_getD,
    List.getElem?_take, if_pos h]

/-- Helper: reading inside a drop. -/
theorem getD_drop_at (l : List Nat) (n i : Nat) :
    (l.drop n).getD i 0 = l.getD (n + i) 0 := by
  rw [List.getD_eq_getElem?_getD, List.getD_eq_getElem?_getD,
    List.getElem?_drop]

/-- Helper: reading a reversed list. -/
theorem getD_reverse (l : List Nat) (i : Nat) (h : i < l.length) :
    l.reverse.getD i 0 = l.getD (l.length - 1 - i) 0 := by
  rw [List.getD_eq_getElem?_getD, List.getD_eq_getElem?_getD]
  rw [List.getElem?_eq_getElem (by simpa using h),
    List.getElem?_eq_getElem (by omega)]
  simp [List.getElem_reverse]

/-- Helper: the bytes right after the common prefix differ. -/
theorem commonPrefixLen_lt_ne : ∀ (a b : List Nat),
    commonPrefixLen a b < a.length → commonPrefixLen a b < b.length →
    a.getD (commonPrefixLen a b) 0 ≠ b.getD (commonPrefixLen a b) 0 := by
  intro a
  induction a with
  | nil => intro b h1 _; simp [commonPrefixLen] at h1
  | cons x xs ih =>
    intro b h1 h2
    cases b with
    | nil => simp [commonPrefixLen] at h2
    | cons y ys =>
      simp only [commonPrefixLen] at h1 h2 ⊢
      split at h1
      · next hxy =>
        rw [if_pos hxy] at h2 ⊢
        simp only [List.getD_cons_succ]
        simp only [List.length_cons] at h1 h2
        exact ih ys (by omega) (by omega)
      · next hxy =>
        rw [if_neg hxy] at h2 ⊢
        simpa using hxy

/-- Helper: the common suffix length is bounded by both lengths. -/
theorem commonSuffixLen_le (a b : List Nat) :
    commonSuffixLen a b ≤ a.length ∧ commonSuffixLen a b ≤ b.length := by
  unfold commonSuffixLen
  have := commonPrefixLen_le a.reverse b.reverse
  simpa using this

/-- Helper: both inputs end in the same common suffix. -/
theorem commonSuffix_drop_eq (a1 b1 : List Nat) :
    a1.drop (a1.length - commonSuffixLen a1 b1) =
      b1.drop (b1.length - commonSuffixLen a1 b1) := by
  have h := commonPrefixLen_take_eq a1.reverse b1.reverse
    (commonSuffixLen a1 b1) (le_refl _)
  rw [List.take_reverse, List.take_reverse] at h
  exact List.reverse_injective h

end StripLemmas

section ChainWrap

/-- Helper: wrapping a merged middle in optional common-prefix/suffix Equal
ops keeps adjacent ops distinct when the middle does not start or end in an
Equal. -/
theorem chain_wrap (mid : List Diff) (p s : List Nat)
    (hchain : List.Chain' (fun o1 o2 => o1.op ≠ o2.op) mid)
    (hne : mid ≠ [])
    (hhead : ∀ o, mid.head? = some o → o.op ≠ DiffOp.equal)
    (hlast : ∀ o, mid.getLast? = some o → o.op ≠ DiffOp.equal) :
    List.Chain' (fun o1 o2 => o1.op ≠ o2.op)
      ((if 0 < p.length then [Diff.mk DiffOp.equal p] else []) ++ mid ++
        (if 0 < s.length then [Diff.mk DiffOp.equal s] else [])) := by
  apply List.Chain'.append
  · apply List.Chain'.append
    · split <;> simp
    · exact hchain
    · intro x hx o ho
      have ho' : mid.head? = some o := ho
      split at hx
      · simp at hx
        intro hco
        apply hhead o ho'
        rw [← hco, ← hx]
      · simp at hx
  · split <;> simp
  · intro x hx o ho
    split at ho
    · simp at ho
      have hx' : ((if 0 < p.length then [Diff.mk DiffOp.equal p] else []) ++
          mid).getLast? = some x := hx
      rw [List.getLast?_append_of_ne_nil _ hne] at hx'
      intro hco
      apply hlast x hx'
      rw [hco, ← ho]
    · simp at ho

end ChainWrap

/-- C8: the operation list returned by MyersDiff never contains two
consecutive operations of the same kind, including at the junctions between
the re-emitted common-prefix Equal, the middle diff, and the re-emitted
common-suffix Equal. -/
theorem C8_merged_adjacent (a b : List Nat) :
    List.Chain' (fun o1 o2 => o1.op ≠ o2.op) (MyersDiff a b) := by
  by_cases h1 : a.length = 0 ∧ b.length = 0
  · rw [MyersDiff, if_pos h1]
    simp
  · rw [MyersDiff, if_neg h1]
    by_cases h2 : a.length = 0
    · rw [if_pos h2]
      simp
    · rw [if_neg h2]
      by_cases h3 : b.length = 0
      · rw [if_pos h3]
        simp
      · rw [if_neg h3]
        by_cases h4 : a = b
        · rw [if_pos h4]
          simp
        · rw [if_neg h4]
          set pl := commonPrefixLen a b with hpl
          set pre := a.take pl with hpre
          set a1 := a.drop pl with ha1
          set b1 := b.drop pl with hb1
          set sl := commonSuffixLen a1 b1 with hsl
          set suf := a1.drop (a1.length - sl) with hsuf
          set a2 := a1.take (a1.length - sl) with ha2
          set b2 := b1.take (b1.length - sl) with hb2
          have hpl_le := commonPrefixLen_le a b
          have hsl_le := commonSuffixLen_le a1 b1
          have hpre_eq : a.take pl = b.take pl :=
            commonPrefixLen_take_eq a b pl (le_refl _)
          have hsuf_eq : suf = b1.drop (b1.length - sl) := by
            rw [hsuf]
            exact commonSuffix_drop_eq a1 b1
          have ha_split : a = pre ++ a1 := by
            rw [hpre, ha1, List.take_append_drop]
          have hb_split : b = pre ++ b1 := by
            rw [hpre, hpre_eq, hb1, List.take_append_drop]
          have ha1_split : a1 = a2 ++ suf := by
            rw [ha2, hsuf, List.take_append_drop]
          have hb1_split : b1 = b2 ++ suf := by
            rw [hb2, hsuf_eq, List.take_append_drop]
          have hlen1 : a1.length = a.length - pl := by
            rw [ha1, List.length_drop]
          have hlenb1 : b1.length = b.length - pl := by
            rw [hb1, List.length_drop]
          have hm0 : a2.length = a1.length - sl := by
            rw [ha2, List.length_take]
            omega
          have hmb0 : b2.length = b1.length - sl := by
            rw [hb2, List.length_take]
            omega
          have hmid : List.Chain' (fun o1 o2 => o1.op ≠ o2.op)
                (if a2.length = 0 ∧ b2.length = 0 then []
                else if a2.length = 0 then [Diff.mk DiffOp.insert b2]
                else if b2.length = 0 then [Diff.mk DiffOp.delete a2]
                else computeMyersDiff a2 b2) ∧
              (if a2.length = 0 ∧ b2.length = 0 then []
                else if a2.length = 0 then [Diff.mk DiffOp.insert b2]
                else if b2.length = 0 then [Diff.mk DiffOp.delete a2]
                else computeMyersDiff a2 b2) ≠ [] ∧
              (∀ o, (if a2.length = 0 ∧ b2.length = 0 then []
                else if a2.length = 0 then [Diff.mk DiffOp.insert b2]
                else if b2.length = 0 then [Diff.mk DiffOp.delete a2]
                else computeMyersDiff a2 b2).head? = some o →
                o.op ≠ DiffOp.equal) ∧
              (∀ o, (if a2.length = 0 ∧ b2.length = 0 then []
                else if a2.length = 0 then [Diff.mk DiffOp.insert b2]
                else if b2.length = 0 then [Diff.mk DiffOp.delete a2]
                else computeMyersDiff a2 b2).getLast? = some o →
                o.op ≠ DiffOp.equal) := by
            split_ifs with hc1 hc2 hc3
            · exfalso
              apply h4
              rw [ha_split, ha1_split, List.eq_nil_of_length_eq_zero hc1.1,
                hb_split, hb1_split, List.eq_nil_of_length_eq_zero hc1.2]
            · refine ⟨by simp, by simp, ?_, ?_⟩
              · intro o ho
                simp at ho
                rw [← ho]
                simp
              · intro o ho
                simp at ho
                rw [← ho]
                simp
            · refine ⟨by simp, by simp, ?_, ?_⟩
              · intro o ho
                simp at ho
                rw [← ho]
                simp
              · intro o ho
                simp at ho
                rw [← ho]
                simp
            · have hapos : 0 < a1.length - sl := by omega
              have hbpos : 0 < b1.length - sl := by omega
              have ha2ne : a2 ≠ [] := by
                intro h
                rw [h] at hm0
                simp at hm0
                omega
              have hb2ne : b2 ≠ [] := by
                intro h
                rw [h] at hmb0
                simp at hmb0
                omega
              have hhead2 : a2.getD 0 0 ≠ b2.getD 0 0 := by
                have e1 : a2.getD 0 0 = a.getD pl 0 := by
                  rw [ha2, getD_take_at a1 _ 0 hapos, ha1, getD_drop_at,
                    Nat.add_zero]
                have e2 : b2.getD 0 0 = b.getD pl 0 := by
                  rw [hb2, getD_take_at b1 _ 0 hbpos, hb1, getD_drop_at,
                    Nat.add_zero]
                rw [e1, e2, hpl]
                exact commonPrefixLen_lt_ne a b (by omega) (by omega)
              have hlast2 : a2.getD (a2.length - 1) 0 ≠
                  b2.getD (b2.length - 1) 0 := by
                have e1 : a2.getD (a2.length - 1) 0 =
                    a1.getD (a1.length - 1 - sl) 0 := by
                  rw [hm0, ha2, getD_take_at a1 _ _ (by omega)]
                  congr 1
                  omega
                have e1' : a1.reverse.getD sl 0 =
                    a1.getD (a1.length - 1 - sl) 0 :=
                  getD_reverse a1 sl (by omega)
                have e2 : b2.getD (b2.length - 1) 0 =
                    b1.getD (b1.length - 1 - sl) 0 := by
                  rw [hmb0, hb2, getD_take_at b1 _ _ (by omega)]
                  congr 1
                  omega
                have e2' : b1.reverse.getD sl 0 =
                    b1.getD (b1.length - 1 - sl) 0 :=
                  getD_reverse b1 sl (by omega)
                rw [e1, ← e1', e2, ← e2']
                have hslrev : sl = commonPrefixLen a1.reverse b1.reverse := by
                  rw [hsl]
                  rfl
                rw [hslrev]
                exact commonPrefixLen_lt_ne a1.reverse b1.reverse
                  (by rw [List.length_reverse, ← hslrev]; omega)
                  (by rw [List.length_reverse, ← hslrev]; omega)
              obtain ⟨q1, q2, q3⟩ := (computeMyersDiff_spec a2 b2).2.2.2
                ha2ne hb2ne hhead2 hlast2
              exact ⟨(computeMyersDiff_spec a2 b2).2.2.1, q1, q2, q3⟩
          exact chain_wrap _ pre suf hmid.1 hmid.2.1 hmid.2.2.1 hmid.2.2.2

/-- C1: for every pair of byte sequences the operation list returned by
MyersDiff reconstructs both inputs — the concatenated data of the Equal and
Delete operations is the first input and the concatenated data of the Equal
and Insert operations is the second, covering the empty, identical, pure
insert, pure delete and general cases. -/
theorem C1_diff_roundtrip (a b : List Nat) :
    srcCat (MyersDiff a b) = a ∧ tgtCat (MyersDiff a b) = b := by
  by_cases h1 : a.length = 0 ∧ b.length = 0
  · rw [MyersDiff, if_pos h1]
    have ha : a = [] := by
      cases a with
      | nil => rfl
      | cons c cs => simp at h1
    have hb : b = [] := by
      cases b with
      | nil => rfl
      | cons c cs => simp at h1
    rw [ha, hb]
    exact ⟨rfl, rfl⟩
  · rw [MyersDiff, if_neg h1]
    by_cases h2 : a.length = 0
    · rw [if_pos h2]
      have ha : a = [] := by
        cases a with
        | nil => rfl
        | cons c cs => simp at h2
      rw [ha]
      exact ⟨rfl, by simp [tgtCat]⟩
    · rw [if_neg h2]
      by_cases h3 : b.length = 0
      · rw [if_pos h3]
        have hb : b = [] := by
          cases b with
          | nil => rfl
          | cons c cs => simp at h3
        rw [hb]
        exact ⟨by simp [srcCat], rfl⟩
      · rw [if_neg h3]
        by_cases h4 : a = b
        · rw [if_pos h4]
          exact ⟨by simp [srcCat], by rw [← h4]; simp [tgtCat]⟩
        · rw [if_neg h4]
          set pl := commonPrefixLen a b with hpl
          set pre := a.take pl with hpre
          set a1 := a.drop pl with ha1
          set b1 := b.drop pl with hb1
          set sl := commonSuffixLen a1 b1 with hsl
          set suf := a1.drop (a1.length - sl) with hsuf
          set a2 := a1.take (a1.length - sl) with ha2
          set b2 := b1.take (b1.length - sl) with hb2
          have hpl_le := commonPrefixLen_le a b
          have hsl_le := commonSuffixLen_le a1 b1
          have hpre_eq : a.take pl = b.take pl :=
            commonPrefixLen_take_eq a b pl (le_refl _)
          have hsuf_eq : suf = b1.drop (b1.length - sl) := by
            rw [hsuf]
            exact commonSuffix_drop_eq a1 b1
          have ha_split : a = pre ++ a1 := by
            rw [hpre, ha1, List.take_append_drop]
          have hb_split : b = pre ++ b1 := by
            rw [hpre, hpre_eq, hb1, List.take_append_drop]
          have ha1_split : a1 = a2 ++ suf := by
            rw [ha2, hsuf, List.take_append_drop]
          have hb1_split : b1 = b2 ++ suf := by
            rw [hb2, hsuf_eq, List.take_append_drop]
          have hmid : srcCat (if a2.length = 0 ∧ b2.length = 0 then []
                else if a2.length = 0 then [Diff.mk DiffOp.insert b2]
                else if b2.length = 0 then [Diff.mk DiffOp.delete a2]
                else computeMyersDiff a2 b2) = a2 ∧
              tgtCat (if a2.length = 0 ∧ b2.length = 0 then []
                else if a2.length = 0 then [Diff.mk DiffOp.insert b2]
                else if b2.length = 0 then [Diff.mk DiffOp.delete a2]
                else computeMyersDiff a2 b2) = b2 := by
            split_ifs with hc1 hc2 hc3
            · have hae : a2 = [] := List.eq_nil_of_length_eq_zero hc1.1
              have hbe : b2 = [] := List.eq_nil_of_length_eq_zero hc1.2
              rw [hae, hbe]
              exact ⟨rfl, rfl⟩
            · have hae : a2 = [] := List.eq_nil_of_length_eq_zero hc2
              rw [hae]
              exact ⟨rfl, by simp [tgtCat]⟩
            · have hbe : b2 = [] := List.eq_nil_of_length_eq_zero hc3
              rw [hbe]
              exact ⟨by simp [srcCat], rfl⟩
            · exact ⟨(computeMyersDiff_spec a2 b2).1,
                (computeMyersDiff_spec a2 b2).2.1⟩
          constructor
          · rw [srcCat_append, srcCat_append, srcCat_optEqual, hmid.1,
              srcCat_optEqual, List.append_assoc, ← ha1_split, ← ha_split]
          · rw [tgtCat_append, tgtCat_append, tgtCat_optEqual, hmid.2,
              tgtCat_optEqual, List.append_assoc, ← hb1_split, ← hb_split]

end Gastown
